import Mathlib

/-!
Verification of the glimpse evaluation core (a mal-family Lisp in Go).

The definitions below are a shallow embedding of the Go sources:
  * `types/types.go`   — value model, sequences, `Equals`, `hashAnyValue`/`Hash`,
                         `Env`, `DeriveEnv`
  * `runtime/runtime.go` — `Seq`, `Empty`, `Concat`, `IntoSlice`
  * `main/main.go`     — `evalAst`, `quasiquote`, `isMacroCall`, `macroexpand`, `EVAL`
  * the core built-in table (`core.BuildEnv`) for the few natives the theorems
    exercise (`throw`, `=`, `-`).

Modelling conventions:
  * Go's universal `MalType interface{}` becomes the inductive `MalType`.
    Metadata fields (`Meta`) are omitted: no equality, hashing, traversal or
    evaluation code inspected by the theorems reads them (Go `Equals`,
    `hashBytes`, `Seq` and `EVAL` dispatch all ignore metadata).
  * Go functions that can loop forever (sequence traversal over infinite
    ranges, `Equals`, `hashAnyValue`, `quasiquote`, `macroexpand`, `EVAL`)
    take an explicit fuel argument and return `none` when the fuel runs out.
  * Go panics (out-of-range indexing, nil-interface dereference, calling a
    method on a value that does not implement the interface) are modelled by
    an explicit `fault` result.
  * Go `int64` arithmetic wraps; `wrap64` applies the two's-complement wrap.
  * Go strings are hashed as their raw bytes; the embedding uses the
    character codepoints (`Char.toNat`), which agrees with UTF-8 on ASCII.
  * The persistent collection library (`github.com/benbjohnson/immutable`) is
    not part of the repository.  Lists/vectors become Lean lists.  The
    hash-trie `immutable.Map` is modelled as an entry list kept in a canonical
    order that is a function of the keys' hash byte streams (the trie iterates
    in key-hash order), with keys of equal hash stream ("collisions") kept in
    insertion order, mirroring the library's collision nodes.  `Map.Get`
    compares the probe key to stored keys with structural `Equals`.
-/

set_option maxHeartbeats 1000000
set_option linter.unusedVariables false

namespace Glimpse

/-- The Go `types.MalType` universe (`interface{}`), one constructor per
concrete Go type that the core stores in `MalType` values.  `hostNil` is the
Go `nil` interface value (it arises in `EVAL`'s `try*` branch, which passes a
`nil` error into a `MalType` slot).  `func fid body binds env isMac` is
`types.Function`: `fid` identifies the native code (`Fn` field), `body = none`
marks a native function. `atom` values are compared by identity; the model
names identities with a `Nat`. -/
inductive MalType : Type where
  | integer (i : Int)
  | strv (s : String)
  | symbol (name : String)
  | keyword (name : String)
  | boolean (b : Bool)
  | nilv
  | runev (c : Char)
  | list (items : List MalType)
  | vector (items : List MalType)
  | mapv (entries : List (MalType × MalType))
  | consCell (head : MalType) (tail : MalType)
  | concatenation (seqs : List MalType)
  | sliceSeq (items : List MalType)
  | listIteratorSeq (items : List MalType) (nextIndex : Nat)
  | rangev (lower upper step nextValue : Int) (finite : Bool)
  | func (fid : Nat) (body : Option MalType) (binds : List MalType) (env : Nat) (isMac : Bool)
  | atom (id : Nat)
  | hostNil
  deriving Repr

namespace MalType

/-- Implements Go interface `HasSimpleValueEquality` (has `ValueEquals` and
`hashBytes`).  Per `types/types.go` (+ `atom.go`, `rune.go`): Integer, Symbol,
Keyword, String, Boolean, Nil, Rune, Atom. -/
def isSimple : MalType → Bool
  | integer _ | strv _ | symbol _ | keyword _ | boolean _ | nilv | runev _ | atom _ => true
  | _ => false

/-- Implements Go marker interface `Sequential` (method on List, Vector,
ConsCell, Concatenation only). -/
def isSequentialI : MalType → Bool
  | list _ | vector _ | consCell _ _ | concatenation _ => true
  | _ => false

/-- Implements Go marker interface `Applicable` (method on List, ConsCell,
Concatenation only). -/
def isApplicableI : MalType → Bool
  | list _ | consCell _ _ | concatenation _ => true
  | _ => false

/-- Implements Go interface `Seq` (has a `Next` method): Nil, SliceSeq,
ListIteratorSeq, ConsCell, Concatenation, Range. -/
def isSeqI : MalType → Bool
  | nilv | sliceSeq _ | listIteratorSeq _ _ | consCell _ _ | concatenation _ | rangev _ _ _ _ _ => true
  | _ => false

/-- Implements Go interface `Seqable` (has a `Seq` method): List, Vector, Map,
Nil, ConsCell, Concatenation, Range per `types/types.go`.  (A later split-file
revision also gives String a rune seq; the monolithic `types.go` the claims
cite does not, and the model follows it.) -/
def isSeqableI : MalType → Bool
  | list _ | vector _ | mapv _ | nilv | consCell _ _ | concatenation _ | rangev _ _ _ _ _ => true
  | _ => false

end MalType

/-- Two's-complement wrap of Go `int64` arithmetic. -/
def wrap64 (n : Int) : Int :=
  (n + 2 ^ 63) % 2 ^ 64 - 2 ^ 63

/-- Little-endian byte list of `uint64(i)`, Go `Integer.hashBytes`
(`binary.LittleEndian.PutUint64(b, uint64(i))`). -/
def intBytes (i : Int) : List Nat :=
  let u := (i % 2 ^ 64).toNat
  [u % 256, u / 256 % 256, u / 256 ^ 2 % 256, u / 256 ^ 3 % 256,
   u / 256 ^ 4 % 256, u / 256 ^ 5 % 256, u / 256 ^ 6 % 256, u / 256 ^ 7 % 256]

/-- Byte list of a Go string (`[]byte(s)`); codepoints stand in for UTF-8
bytes (identical on ASCII). -/
def strBytes (s : String) : List Nat :=
  s.data.map Char.toNat

/-- Go `hashBytes()` of the simple-equality values, per type:
Integer → 8 LE bytes; Symbol → name bytes + `'` (39); Keyword → name bytes +
`:` (58); String → raw bytes; Boolean → 1 or 2; Nil → 0; Rune → its bytes;
Atom → its address bytes (modelled from the identity). -/
def hashBytes : MalType → List Nat
  | .integer i => intBytes i
  | .symbol n => strBytes n ++ [39]
  | .keyword n => strBytes n ++ [58]
  | .strv s => strBytes s
  | .boolean b => if b then [1] else [2]
  | .nilv => [0]
  | .runev c => [c.toNat]
  | .atom id => intBytes (Int.ofNat id)
  | _ => []

/-- Go `ValueEquals` of the simple-equality values (callee `this` must be
simple; each implementation type-asserts `that` and compares).  Symbols
compare names only (metadata ignored), atoms compare by identity. -/
def valueEquals : MalType → MalType → Bool
  | .integer i, .integer j => i = j
  | .symbol n, .symbol m => n = m
  | .keyword n, .keyword m => n = m
  | .strv s, .strv t => s = t
  | .boolean a, .boolean b => a = b
  | .nilv, .nilv => true
  | .runev c, .runev d => c = d
  | .atom i, .atom j => i = j
  | _, _ => false

/-- Result of one Go `Seq.Next()` call: a panic (`fault`), the empty answer
`(true, nil, nil)`, or a step `(false, head, tail)`. -/
inductive NextRes : Type where
  | fault
  | empty
  | step (head tail : MalType)
  deriving Repr

/-- Go `Seqable.Seq()` per implementation: List/Vector return a
`ListIteratorSeq` at index 0; Map returns `buildSeqFromSlice` of its entries
as two-element Vectors (`NewVector(k, v)`); Nil, ConsCell, Concatenation and
Range return themselves.  `none` = the value does not implement `Seqable`. -/
def seqOf : MalType → Option MalType
  | .list items => some (.listIteratorSeq items 0)
  | .vector items => some (.listIteratorSeq items 0)
  | .mapv entries =>
    -- Map.Seq: entry vectors in iteration order; buildSeqFromSlice gives
    -- Nil{} on empty and a SliceSeq otherwise.
    match entries.map (fun kv => MalType.vector [kv.1, kv.2]) with
    | [] => some .nilv
    | items => some (.sliceSeq items)
  | .nilv => some .nilv
  | .consCell h t => some (.consCell h t)
  | .concatenation seqs => some (.concatenation seqs)
  | .rangev l u s nv fin => some (.rangev l u s nv fin)
  | _ => none

mutual

/-- Concatenation-nesting depth: the measure that makes one `Next()` step
terminate (a Concatenation's `Next` recursively calls `Next` on its first
member and on that member's step tail). -/
def cd : MalType → Nat
  | .consCell _ t => cd t
  | .concatenation seqs => 1 + cdList seqs
  | _ => 0

/-- Maximum `cd` over a list of sequences. -/
def cdList : List MalType → Nat
  | [] => 0
  | s :: rest => max (cd s) (cdList rest)

end

/-- One Go `Seq.Next()` call, per implementation in `types/types.go`.
Values not implementing `Seq` fault (a Go type error, unreachable through the
typed Go API).  `Concatenation.Next` reads `Seqs[0]` (index panic when the
member list is empty), ignores the emptiness flag of the member's `Next` (so
an empty first member makes the following `tail.Next()` dereference a nil
interface: `fault`), checks the step-tail for emptiness, and reassembles. -/
def seqNextF : Nat → MalType → Option NextRes
  | 0, _ => none
  | _ + 1, .nilv => some .empty
  | _ + 1, .sliceSeq [] => some .empty
  | _ + 1, .sliceSeq (h :: t) => some (.step h (.sliceSeq t))
  | _ + 1, .listIteratorSeq items i =>
    match items.get? i with
    | none => some .empty
    | some x => some (.step x (.listIteratorSeq items (i + 1)))
  | _ + 1, .consCell h t => some (.step h t)
  | _ + 1, .rangev l u s nv fin =>
    if fin ∧ u ≤ nv then some .empty
    else some (.step (.integer nv) (.rangev l u s (wrap64 (nv + s)) fin))
  | f + 1, .concatenation seqs =>
    match seqs with
    | [] => some .fault
    | s0 :: rest =>
      match seqNextF f s0 with
      | none => none
      | some .fault => some .fault
      | some .empty => some .fault
      | some (.step h t) =>
        match seqNextF f t with
        | none => none
        | some .fault => some .fault
        | some .empty =>
          match rest with
          | [] => some (.step h .nilv)
          | [s1] => some (.step h s1)
          | _ => some (.step h (.concatenation rest))
        | some (.step _ _) => some (.step h (.concatenation (t :: rest)))
  | _ + 1, _ => some .fault

/-- Fuel monotonicity of `seqNextF`. -/
theorem seqNextF_mono : ∀ {f g : Nat} {s : MalType} {r : NextRes},
    seqNextF f s = some r → f ≤ g → seqNextF g s = some r := by
  intro f
  induction f with
  | zero => intro g s r h; simp [seqNextF] at h
  | succ f ih =>
    intro g s r h hle
    obtain ⟨g, rfl⟩ : ∃ g', g = g' + 1 := ⟨g - 1, by omega⟩
    have hfg : f ≤ g := by omega
    cases s with
    | concatenation seqs =>
      cases seqs with
      | nil => simpa [seqNextF] using h
      | cons s0 rest =>
        simp only [seqNextF] at h ⊢
        cases h0 : seqNextF f s0 with
        | none => rw [h0] at h; simp at h
        | some r0 =>
          rw [h0] at h
          rw [ih h0 hfg]
          cases r0 with
          | fault => simpa using h
          | empty => simpa using h
          | step h1 t1 =>
            simp only at h ⊢
            cases ht : seqNextF f t1 with
            | none => rw [ht] at h; simp at h
            | some rt =>
              rw [ht] at h
              rw [ih ht hfg]
              exact h
    | nilv => simpa [seqNextF] using h
    | sliceSeq items => cases items <;> simpa [seqNextF] using h
    | listIteratorSeq items i => simpa [seqNextF] using h
    | consCell a b => simpa [seqNextF] using h
    | rangev l u s nv fin => simpa [seqNextF] using h
    | integer i => simpa [seqNextF] using h
    | strv s => simpa [seqNextF] using h
    | symbol n => simpa [seqNextF] using h
    | keyword n => simpa [seqNextF] using h
    | boolean b => simpa [seqNextF] using h
    | runev c => simpa [seqNextF] using h
    | list l => simpa [seqNextF] using h
    | vector v => simpa [seqNextF] using h
    | mapv m => simpa [seqNextF] using h
    | func a b c d e => simpa [seqNextF] using h
    | atom i => simpa [seqNextF] using h
    | hostNil => simpa [seqNextF] using h

/-- Go `error` values produced by the core: `types.Undefined{Name}`,
`types.MalError{Reason}`, `errors.New(msg)`, and `ex.Ex{Code}`. -/
inductive EvalErr : Type where
  | undefined (name : String)
  | malErr (reason : MalType)
  | goErr (msg : String)
  | exErr (code : String)
  deriving Repr

/-- Outcome of a fallible Go computation: a value, an `error`, or a panic. -/
inductive Res (α : Type) : Type where
  | ok (a : α)
  | err (e : EvalErr)
  | fault
  deriving Repr

/-- The collection loop shared by `runtime.IntoSlice`/`runtime.Into`: drain a
seq into a list with repeated `Next()` calls. -/
def travF : Nat → MalType → Option (Res (List MalType))
  | 0, _ => none
  | f + 1, s =>
    match seqNextF f s with
    | none => none
    | some .fault => some .fault
    | some .empty => some (.ok [])
    | some (.step h t) =>
      match travF f t with
      | none => none
      | some .fault => some .fault
      | some (.err e) => some (.err e)
      | some (.ok l) => some (.ok (h :: l))

/-- Go `runtime.Seq(value)`: a `Seq` is used as-is, a `Seqable` contributes
its `Seq()`, anything else is an "Invalid type" error; an empty seq is
normalised to `Nil{}`. -/
def seqF (f : Nat) (value : MalType) : Option (Res MalType) :=
  match if value.isSeqI then some value else seqOf value with
  | none => some (.err (.exErr "Invalid type"))
  | some s =>
    match seqNextF f s with
    | none => none
    | some .fault => some .fault
    | some .empty => some (.ok .nilv)
    | some (.step _ _) => some (.ok s)

/-- Go `runtime.Empty(value)`. -/
def emptyF (f : Nat) (value : MalType) : Option (Res Bool) :=
  match seqF f value with
  | none => none
  | some .fault => some .fault
  | some (.err e) => some (.err e)
  | some (.ok s) =>
    match seqNextF f s with
    | none => none
    | some .fault => some .fault
    | some .empty => some (.ok true)
    | some (.step _ _) => some (.ok false)

/-- Go `runtime.IntoSlice(value)`. -/
def intoSliceF (f : Nat) (value : MalType) : Option (Res (List MalType)) :=
  match seqF f value with
  | none => none
  | some .fault => some .fault
  | some (.err e) => some (.err e)
  | some (.ok s) => travF f s

/-- The member-collection loop of Go `runtime.Concat`: each value's seq is
taken and kept only when non-empty. -/
def concatSeqsF : Nat → List MalType → Option (Res (List MalType))
  | _, [] => some (.ok [])
  | f, value :: rest =>
    match seqF f value with
    | none => none
    | some .fault => some .fault
    | some (.err e) => some (.err e)
    | some (.ok s) =>
      match seqNextF f s with
      | none => none
      | some .fault => some .fault
      | some .empty => concatSeqsF f rest
      | some (.step _ _) =>
        match concatSeqsF f rest with
        | none => none
        | some .fault => some .fault
        | some (.err e) => some (.err e)
        | some (.ok seqs) => some (.ok (s :: seqs))

/-- Go `runtime.Concat(values...)`: no non-empty member gives `NewList()`, a
single member is returned directly, otherwise a `Concatenation` is built. -/
def concatF (f : Nat) (values : List MalType) : Option (Res MalType) :=
  match concatSeqsF f values with
  | none => none
  | some .fault => some .fault
  | some (.err e) => some (.err e)
  | some (.ok []) => some (.ok (.list []))
  | some (.ok [s]) => some (.ok s)
  | some (.ok seqs) => some (.ok (.concatenation seqs))

mutual

/-- Go `types.Equals(this, that)`: simple values via `ValueEquals`; Maps by
size plus per-entry lookup in the other map; `Sequential` values by lockstep
traversal; everything else compares unequal. -/
def equalsF : Nat → MalType → MalType → Option (Res Bool)
  | 0, _, _ => none
  | f + 1, a, b =>
    if a.isSimple then some (.ok (valueEquals a b))
    else
      match a with
      | .mapv es1 =>
        match b with
        | .mapv es2 =>
          if es1.length = es2.length then mapIterF f es1 es2 else some (.ok false)
        | _ => some (.ok false)
      | _ =>
        if a.isSequentialI then
          if b.isSequentialI then
            match seqOf a, seqOf b with
            | some sa, some sb => seqEqF f sa sb
            | _, _ => some .fault
          else some (.ok false)
        else some (.ok false)
termination_by structural f a b => f

/-- The lockstep traversal loop of `types.Equals` on two `Sequential`s. -/
def seqEqF : Nat → MalType → MalType → Option (Res Bool)
  | 0, _, _ => none
  | f + 1, sa, sb =>
    match seqNextF f sa with
    | none => none
    | some .fault => some .fault
    | some r1 =>
      match seqNextF f sb with
      | none => none
      | some .fault => some .fault
      | some r2 =>
        match r1, r2 with
        | .empty, .empty => some (.ok true)
        | .empty, .step _ _ => some (.ok false)
        | .step _ _, .empty => some (.ok false)
        | .step h1 t1, .step h2 t2 =>
          match equalsF f h1 h2 with
          | none => none
          | some .fault => some .fault
          | some (.err e) => some (.err e)
          | some (.ok false) => some (.ok false)
          | some (.ok true) => seqEqF f t1 t2
        | _, _ => some .fault
termination_by structural f a b => f

/-- The entry-iteration loop of `types.Equals` on two Maps: each entry of the
first map must be found in the second with an `Equals` value. -/
def mapIterF : Nat → List (MalType × MalType) → List (MalType × MalType) →
    Option (Res Bool)
  | 0, _, _ => none
  | _ + 1, [], _ => some (.ok true)
  | f + 1, (k, v) :: rest, es2 =>
    match lookupF f es2 k with
    | none => none
    | some .fault => some .fault
    | some (.err e) => some (.err e)
    | some (.ok none) => some (.ok false)
    | some (.ok (some v2)) =>
      match equalsF f v v2 with
      | none => none
      | some .fault => some .fault
      | some (.err e) => some (.err e)
      | some (.ok false) => some (.ok false)
      | some (.ok true) => mapIterF f rest es2
termination_by structural f es1 es2 => f

/-- Lookup in the modelled `immutable.Map`: scan the entries in iteration
order for the first key that is `Equals` to the probe key (the hash trie
only ever compares keys through the structural `Equals` hasher). -/
def lookupF : Nat → List (MalType × MalType) → MalType → Option (Res (Option MalType))
  | 0, _, _ => none
  | _ + 1, [], _ => some (.ok none)
  | f + 1, (ek, ev) :: rest, k =>
    match equalsF f k ek with
    | none => none
    | some .fault => some .fault
    | some (.err e) => some (.err e)
    | some (.ok true) => some (.ok (some ev))
    | some (.ok false) => lookupF f rest k
termination_by structural f es k => f

end

mutual

/-- Go `hashAnyValue`, reified as the byte stream written to the hasher:
simple values write their `hashBytes`; `Sequential` values write their
elements' streams in traversal order; Maps write `"{}"` (bytes 123, 125) and
then their entry vectors' streams; all other values write nothing. -/
def streamF : Nat → MalType → Option (Res (List Nat))
  | 0, _ => none
  | f + 1, a =>
    if a.isSimple then some (.ok (hashBytes a))
    else if a.isSequentialI then
      match seqOf a with
      | some sa => streamSeqF f sa
      | none => some .fault
    else
      match a with
      | .mapv es =>
        match seqOf (.mapv es) with
        | some sa =>
          match streamSeqF f sa with
          | none => none
          | some .fault => some .fault
          | some (.err e) => some (.err e)
          | some (.ok s) => some (.ok (123 :: 125 :: s))
        | none => some .fault
      | _ => some (.ok [])
termination_by structural f a => f

/-- The traversal loop of `hashAnyValue` over a seq: concatenate the streams
of the traversed elements. -/
def streamSeqF : Nat → MalType → Option (Res (List Nat))
  | 0, _ => none
  | f + 1, s =>
    match seqNextF f s with
    | none => none
    | some .fault => some .fault
    | some .empty => some (.ok [])
    | some (.step h t) =>
      match streamF f h with
      | none => none
      | some .fault => some .fault
      | some (.err e) => some (.err e)
      | some (.ok bs) =>
        match streamSeqF f t with
        | none => none
        | some .fault => some .fault
        | some (.err e) => some (.err e)
        | some (.ok rest) => some (.ok (bs ++ rest))
termination_by structural f s => f

end

/-- 32-bit left rotation. -/
def rotl32 (k r : Nat) : Nat :=
  (k * 2 ^ r + k / 2 ^ (32 - r)) % 2 ^ 32

/-- The murmur3 per-chunk scramble. -/
def murmurScramble (k : Nat) : Nat :=
  rotl32 (k * 0xcc9e2d51 % 2 ^ 32) 15 * 0x1b873593 % 2 ^ 32

/-- The murmur3 main loop over whole 4-byte little-endian chunks, returning
the running hash and the leftover bytes. -/
def murmurBody : Nat → List Nat → Nat × List Nat
  | h, b0 :: b1 :: b2 :: b3 :: rest =>
    let k := b0 + 256 * b1 + 65536 * b2 + 16777216 * b3
    let h := Nat.xor h (murmurScramble k)
    let h := rotl32 h 13
    murmurBody ((h * 5 + 0xe6546b64) % 2 ^ 32) rest
  | h, rest => (h, rest)

/-- Little-endian value of the 0–3 leftover bytes. -/
def murmurTail : List Nat → Nat
  | [] => 0
  | [b0] => b0
  | [b0, b1] => b0 + 256 * b1
  | b0 :: b1 :: b2 :: _ => b0 + 256 * b1 + 65536 * b2

/-- murmur3 x86 32-bit with seed 0 (the `spaolacci/murmur3` `New32` hasher,
external library code; streaming `Write`s hash identically to the one-shot of
the concatenated bytes). -/
def murmur3 (bytes : List Nat) : Nat :=
  let hr := murmurBody 0 bytes
  let h := if hr.2 = [] then hr.1 else Nat.xor hr.1 (murmurScramble (murmurTail hr.2))
  let h := Nat.xor h (bytes.length % 2 ^ 32)
  let h := Nat.xor h (h / 2 ^ 16)
  let h := h * 0x85ebca6b % 2 ^ 32
  let h := Nat.xor h (h / 2 ^ 13)
  let h := h * 0xc2b2ae35 % 2 ^ 32
  Nat.xor h (h / 2 ^ 16)

/-- Go `types.Hash(value)`: murmur3 of the byte stream `hashAnyValue` emits. -/
def hashF (f : Nat) (value : MalType) : Option (Res Nat) :=
  match streamF f value with
  | none => none
  | some .fault => some .fault
  | some (.err e) => some (.err e)
  | some (.ok s) => some (.ok (murmur3 s))

/-! ### Environments

Go `types.Env` is a mutable struct with a `map[string]MalType` and an outer
pointer.  The model is an arena (`Store`): a list of frames addressed by
index; `BuildEnv`/`DeriveEnv` append frames, `Env.Set` writes a frame in
place.  A Go map write is modelled by prepending to an association list and
reading the first hit. -/

/-- One `types.Env` frame. -/
structure Frame : Type where
  outer : Option Nat
  bindings : List (String × MalType)
  deriving Repr

/-- The environment arena. -/
abbrev Store := List Frame

/-- Go map read `env.Bindings[name]`. -/
def frameGet (fr : Frame) (name : String) : Option MalType :=
  (fr.bindings.find? (fun p => p.1 = name)).map (·.2)

/-- Go `Env.Set(name, value)` on the frame `e` of the store. -/
def storeSet (σ : Store) (e : Nat) (name : String) (v : MalType) : Store :=
  match σ.get? e with
  | some fr => σ.set e ⟨fr.outer, (name, v) :: fr.bindings⟩
  | none => σ

/-- Go `Env.Get(name)`: read the current frame, else recurse on the outer
frame, else fail with `Undefined{Name: name}`.  A dangling frame index (not
constructible through the Go API) faults. -/
def envGetF : Nat → Store → Nat → String → Option (Res MalType)
  | 0, _, _, _ => none
  | f + 1, σ, e, name =>
    match σ.get? e with
    | none => some .fault
    | some fr =>
      match frameGet fr name with
      | some v => some (.ok v)
      | none =>
        match fr.outer with
        | none => some (.err (.undefined name))
        | some oid => envGetF f σ oid name

/-- All binds must be Go `Symbol`s; yields their names. -/
def symbolNames : List MalType → Option (List String)
  | [] => some []
  | .symbol n :: rest => (symbolNames rest).map (n :: ·)
  | _ => none

/-- Go `DeriveEnv`'s variadic test:
`len(bindSymbols) >= 2 && bindSymbols[len(bindSymbols)-2].Name == "&"`. -/
def hasVarargs (names : List String) : Bool :=
  decide (2 ≤ names.length) && decide (names.getD (names.length - 2) "" = "&")

/-- The positional parameter names (`bindSymbols` after trimming the `& rest`
pair when present). -/
def positionals (names : List String) : List String :=
  if hasVarargs names then names.take (names.length - 2) else names

/-- Go `types.DeriveEnv(outer, binds, exprs)`, producing the new frame.
Non-symbol binds error; a `&` in second-to-last position collects the
remaining exprs (possibly none) into a List bound to the last symbol; a
positional bind without a matching expr errors.  A Go map write is a
prepend, so the positional bindings appear reversed and the rest binding
first. -/
def deriveFrame (outer : Option Nat) (binds exprs : List MalType) : Res Frame :=
  match symbolNames binds with
  | none => .err (.goErr "binds must be symbols")
  | some names =>
    if (positionals names).length ≤ exprs.length then
      let base := ((positionals names).zip exprs).reverse
      let withVar :=
        if hasVarargs names then
          (names.getLast?.getD "",
            MalType.list (exprs.drop (positionals names).length)) :: base
        else base
      .ok ⟨outer, withVar⟩
    else .err (.goErr "no expr for bind")

/-- `DeriveEnv` at the store level: the new frame is appended. -/
def deriveEnvS (σ : Store) (outer : Option Nat) (binds exprs : List MalType) :
    Res (Store × Nat) :=
  match deriveFrame outer binds exprs with
  | .ok fr => .ok (σ ++ [fr], σ.length)
  | .err e => .err e
  | .fault => .fault

/-! ### Quasiquote (`main.go`) -/

/-- Go `isPair(form)`: the form is a `Seq` or a `Sequential`, and
`runtime.Empty` reports it error-free and non-empty. -/
def isPairF (f : Nat) (form : MalType) : Option (Res Bool) :=
  if form.isSeqI ∨ form.isSequentialI then
    match emptyF f form with
    | none => none
    | some .fault => some .fault
    | some (.err _) => some (.ok false)
    | some (.ok b) => some (.ok (!b))
  else some (.ok false)

/-- Head is the symbol of the given name (`head.(Symbol)` + name check). -/
def isSymbolNamed (name : String) : MalType → Bool
  | .symbol n => n = name
  | _ => false

mutual

/-- Go `quasiquote(form)` (`main.go`): non-pairs are wrapped in `quote`; an
`unquote` head returns the tail's first element (the Go nil interface if the
tail is empty); a pair head whose own head is `splice-unquote` becomes a
`concat` call; otherwise a `cons` of the recursively quasiquoted head and
tail is built. -/
def quasiquoteF : Nat → MalType → Option (Res MalType)
  | 0, _ => none
  | f + 1, form =>
    match isPairF f form with
    | none => none
    | some .fault => some .fault
    | some (.err e) => some (.err e)
    | some (.ok false) => some (.ok (.list [.symbol "quote", form]))
    | some (.ok true) =>
      match seqF f form with
      | none => none
      | some .fault => some .fault
      | some (.err _) => some .fault -- seq is nil; Next() would fault (unreachable: isPair)
      | some (.ok s) =>
        match seqNextF f s with
        | none => none
        | some .fault => some .fault
        | some .empty => some .fault -- unreachable: isPair implies a step
        | some (.step head tail) =>
          if isSymbolNamed "unquote" head then
            match seqNextF f tail with
            | none => none
            | some .fault => some .fault
            | some .empty => some (.ok .hostNil) -- tail.Next() flags ignored: Go nil head
            | some (.step ihead _) => some (.ok ihead)
          else
            match isPairF f head with
            | none => none
            | some .fault => some .fault
            | some (.err e) => some (.err e)
            | some (.ok false) => qqConsF f head tail
            | some (.ok true) =>
              match seqF f head with
              | none => none
              | some .fault => some .fault
              | some (.err _) => some .fault -- unreachable: isPair head
              | some (.ok is) =>
                match seqNextF f is with
                | none => none
                | some .fault => some .fault
                | some .empty => some .fault -- unreachable: isPair head
                | some (.step ihead itail) =>
                  if isSymbolNamed "splice-unquote" ihead then
                    match seqNextF f itail with
                    | none => none
                    | some .fault => some .fault
                    | some .empty => -- itail.Next() flags ignored: Go nil operand
                      match quasiquoteF f tail with
                      | none => none
                      | some .fault => some .fault
                      | some (.err e) => some (.err e)
                      | some (.ok qt) =>
                        some (.ok (.list [.symbol "concat", .hostNil, qt]))
                    | some (.step iihead _) =>
                      match quasiquoteF f tail with
                      | none => none
                      | some .fault => some .fault
                      | some (.err e) => some (.err e)
                      | some (.ok qt) =>
                        some (.ok (.list [.symbol "concat", iihead, qt]))
                  else qqConsF f head tail
termination_by structural f form => f

/-- The shared fall-through of `quasiquote`:
`(cons (quasiquote head) (quasiquote tail))`. -/
def qqConsF : Nat → MalType → MalType → Option (Res MalType)
  | 0, _, _ => none
  | f + 1, head, tail =>
  match quasiquoteF f head with
  | none => none
  | some .fault => some .fault
  | some (.err e) => some (.err e)
  | some (.ok qh) =>
    match quasiquoteF f tail with
    | none => none
    | some .fault => some .fault
    | some (.err e) => some (.err e)
    | some (.ok qt) => some (.ok (.list [.symbol "cons", qh, qt]))
termination_by structural f head tail => f

end

/-! ### Natives (`core.BuildEnv`, the ones the theorems exercise)

Native function ids: 0 = `throw`, 1 = `=`, 2 = `-`.  Any other id faults
(the modelling boundary: environments built below only hold these). -/

/-- Go `intList(items)`: every item must be an `Integer`. -/
def intListF : List MalType → Res (List Int)
  | [] => .ok []
  | .integer i :: rest =>
    match intListF rest with
    | .ok is => .ok (i :: is)
    | r => r
  | _ => .err (.goErr "non-integer found")

/-- The comparison loop of the `=` native: `this` against each further arg
via `types.Equals`. -/
def eqChainF (f : Nat) (this : MalType) : List MalType → Option (Res Bool)
  | [] => some (.ok true)
  | that :: rest =>
    match equalsF f this that with
    | none => none
    | some .fault => some .fault
    | some (.err e) => some (.err e)
    | some (.ok false) => some (.ok false)
    | some (.ok true) => eqChainF f this rest

/-- The subtraction loop of the `-` native (`sum -= i`, int64 wrap). -/
def subFold (acc : Int) : List Int → Int
  | [] => acc
  | i :: rest => subFold (wrap64 (acc - i)) rest

/-- The modelled native `Fn` bodies.  `throw` raises `MalError{Reason:
args[0]}` (indexing panics on no args); `=` is true when every later arg
`Equals` the first (vacuously true with no args); `-` negates a single arg
(returning a raw Go `int64`, not a `types.Integer` — modelled as `hostInt`)
and otherwise folds subtraction. -/
def applyNativeF (f : Nat) (fid : Nat) (args : List MalType) : Option (Res MalType) :=
  match fid with
  | 0 =>
    match args with
    | a :: _ => some (.err (.malErr a))
    | [] => some .fault
  | 1 =>
    match args with
    | [] => some (.ok (.boolean true))
    | this :: rest =>
      match eqChainF f this rest with
      | none => none
      | some .fault => some .fault
      | some (.err e) => some (.err e)
      | some (.ok b) => some (.ok (.boolean b))
  | 2 =>
    match intListF args with
    | .err e => some (.err e)
    | .fault => some .fault
    | .ok [] => some .fault -- Go: ints[0] index panic
    | .ok [_] => some .fault -- Go returns raw int64 `-ints[0]`; see note below
    | .ok (i :: rest) => some (.ok (.integer (subFold i rest)))
  | _ => some .fault

/-! Note on `-` with one arg: Go returns `-ints[0]` (an `int64`, not
`types.Integer`); with zero args `ints[0]` panics.  Neither path is exercised
by any theorem; the zero-arg case is corrected to the panic it causes and the
one-arg case is marked as outside the model (`fault`) rather than introducing
a raw-int64 value kind. -/

/-! ### The evaluator (`main.go`) -/

/-- Result of an evaluator-side computation: like `Res` but carrying the
store through both success and error (Go mutations persist), plus `d`, the
nesting depth of host-recursive `EVAL` invocations performed (the trampoline
`continue` paths merge by `max` without incrementing; a genuinely recursive
`EVAL` call contributes `1 +` its own depth). -/
inductive EOut (α : Type) : Type where
  | ok (σ : Store) (v : α) (d : Nat)
  | err (σ : Store) (e : EvalErr) (d : Nat)
  | fault
  deriving Repr

/-- Strict lexicographic order on byte lists. -/
def lexLtBytes : List Nat → List Nat → Bool
  | [], [] => false
  | [], _ :: _ => true
  | _ :: _, [] => false
  | a :: as, b :: bs => a < b || (a = b && lexLtBytes as bs)

/-- `immutable.Map.Set` on the canonical entry list: entries are kept ordered
by the lexicographic order of their keys' hash byte streams (the trie
iterates in key-hash order); a stored key `Equals` the new key is replaced in
place; keys with the same stream ("hash collisions") stay in insertion
order, so a colliding new key is appended after them. -/
def mapInsertF : Nat → List (MalType × MalType) → MalType → MalType →
    Option (Res (List (MalType × MalType)))
  | 0, _, _, _ => none
  | f + 1, entries, k, v =>
    match streamF f k with
    | none => none
    | some .fault => some .fault
    | some (.err e') => some (.err e')
    | some (.ok sk) =>
      match entries with
      | [] => some (.ok [(k, v)])
      | (ek, ev) :: rest =>
        match streamF f ek with
        | none => none
        | some .fault => some .fault
        | some (.err e') => some (.err e')
        | some (.ok sek) =>
          if lexLtBytes sek sk then
            match mapInsertF f rest k v with
            | none => none
            | some .fault => some .fault
            | some (.err e') => some (.err e')
            | some (.ok rest2) => some (.ok ((ek, ev) :: rest2))
          else if sek = sk then
            match equalsF f k ek with
            | none => none
            | some .fault => some .fault
            | some (.err e') => some (.err e')
            | some (.ok true) => some (.ok ((k, v) :: rest))
            | some (.ok false) =>
              match mapInsertF f rest k v with
              | none => none
              | some .fault => some .fault
              | some (.err e') => some (.err e')
              | some (.ok rest2) => some (.ok ((ek, ev) :: rest2))
          else some (.ok ((k, v) :: (ek, ev) :: rest))

/-- Go `isMacroCall(evalEnv, form)`: a pair whose head symbol resolves to a
`Function` with the macro flag; yields the function and the tail seq.
Resolution failures of any kind report "not a macro call". -/
def isMcallF (f : Nat) (σ : Store) (e : Nat) (form : MalType) :
    Option (Res (Option (MalType × MalType))) :=
  match isPairF f form with
  | none => none
  | some .fault => some .fault
  | some (.err e') => some (.err e')
  | some (.ok false) => some (.ok none)
  | some (.ok true) =>
    match seqF f form with
    | none => none
    | some .fault => some .fault
    | some (.err _) => some (.ok none)
    | some (.ok s) =>
      match seqNextF f s with
      | none => none
      | some .fault => some .fault
      | some .empty => some .fault -- unreachable: isPair implies a step
      | some (.step head tail) =>
        match head with
        | .symbol name =>
          match envGetF f σ e name with
          | none => none
          | some .fault => some .fault
          | some (.err _) => some (.ok none)
          | some (.ok val) =>
            match val with
            | .func fid body binds env isMac =>
              if isMac then some (.ok (some (.func fid body binds env isMac, tail)))
              else some (.ok none)
            | _ => some (.ok none)
        | _ => some (.ok none)

/-- The `if` truthiness switch of `EVAL`: Go compares the evaluated test
against `Boolean(false)` and `Nil{}` by interface equality; every other
value (including integer 0 and empty collections) is truthy. -/
def truthy : MalType → Bool
  | .boolean false => false
  | .nilv => false
  | _ => true

/-- Statement helper: merge an already-accumulated depth into an evaluation
outcome (the `max` bookkeeping of the trampoline's tail positions). -/
def mergeDepth (dt : Nat) : Option (EOut MalType) → Option (EOut MalType)
  | none => none
  | some .fault => some .fault
  | some (.err σ e d) => some (.err σ e (max dt d))
  | some (.ok σ v d) => some (.ok σ v (max dt d))

/-- The special-form names of `EVAL`'s `switch items[0]`. -/
inductive Special : Type where
  | sdef | sdmac | slet | sdo | sif | sfn | squote | sqq | smexp | stry
  deriving Repr

/-- Resolve a head value to the special form it names.  Go compares
`items[0]` by interface equality against `types.Symbol{Name: ...}` literals
(zero metadata; the model's symbols carry none). -/
def specialOf : MalType → Option Special
  | .symbol "def!" => some .sdef
  | .symbol "defmacro!" => some .sdmac
  | .symbol "let*" => some .slet
  | .symbol "do" => some .sdo
  | .symbol "if" => some .sif
  | .symbol "fn*" => some .sfn
  | .symbol "quote" => some .squote
  | .symbol "quasiquote" => some .sqq
  | .symbol "macroexpand" => some .smexp
  | .symbol "try*" => some .stry
  | _ => none

mutual

/-- Go `EVAL(evalEnv, form)` (`main.go`), the trampoline.  Phase 1: an
`Applicable` form is flattened to its items (empty gives `NewList()`),
rebuilt as a `List` and macro-expanded; a non-`Applicable` expansion goes to
`evalAst`.  Phase 2 dispatches the special forms and the application default
exactly as the Go `switch`. -/
def evalF : Nat → Store → Nat → MalType → Option (EOut MalType)
  | 0, _, _, _ => none
  | f + 1, σ, e, form =>
    if form.isApplicableI then
      match seqOf form with
      | none => some .fault -- unreachable: applicables are seqable
      | some s0 =>
        match intoSliceF f s0 with
        | none => none
        | some .fault => some .fault
        | some (.err e') => some (.err σ e' 0)
        | some (.ok items) =>
          if items.isEmpty then some (.ok σ (.list []) 0)
          else
            match mexpandF f σ e (.list items) with
            | none => none
            | some .fault => some .fault
            | some (.err σ1 e' d) => some (.err σ1 e' d)
            | some (.ok σ1 expanded dm) =>
              if expanded.isApplicableI then evalDispatchF f σ1 e expanded dm
              else
                match evalAstF f σ1 e expanded with
                | none => none
                | some .fault => some .fault
                | some (.err σ2 e' d) => some (.err σ2 e' (max dm d))
                | some (.ok σ2 v d) => some (.ok σ2 v (max dm d))
    else
      match evalAstF f σ e form with
      | none => none
      | some .fault => some .fault
      | some (.err σ2 e' d) => some (.err σ2 e' d)
      | some (.ok σ2 v d) => some (.ok σ2 v d)
termination_by structural f s e form => f

/-- Phase 2 of `EVAL`: the `switch` over the (post-expansion) applicable
form, routed through `specialOf` (the Go cases compare `items[0]` against
`types.Symbol{Name: ...}` literals).  `dm` is the depth already accumulated
by macro expansion. -/
def evalDispatchF : Nat → Store → Nat → MalType → Nat → Option (EOut MalType)
  | 0, _, _, _, _ => none
  | f + 1, σ, e, value, dm =>
    match seqOf value with
    | none => some .fault -- unreachable: value is applicable
    | some s0 =>
      match intoSliceF f s0 with
      | none => none
      | some .fault => some .fault
      | some (.err e') => some (.err σ e' dm)
      | some (.ok []) => some (.ok σ value dm)
      | some (.ok (head :: args)) =>
        match specialOf head with
        | some .sdef => evalDefF f σ e args dm
        | some .sdmac => evalDefmacroF f σ e args dm
        | some .slet => evalLetF f σ e args dm
        | some .sdo => evalDoF f σ e args dm
        | some .sif => evalIfCaseF f σ e args dm
        | some .sfn => evalFnF f σ e args dm
        | some .squote => evalQuoteF f σ args dm
        | some .sqq => evalQQF f σ e args dm
        | some .smexp => evalMexpF f σ e args dm
        | some .stry => evalTryF f σ e args dm
        | none => evalApplyF f σ e value dm
termination_by structural f s e v dm => f

/-- The `def!` case: evaluate the value form (a nested `EVAL`), `Set` the
symbol in the current frame, return the value. -/
def evalDefF : Nat → Store → Nat → List MalType → Nat → Option (EOut MalType)
  | 0, _, _, _, _ => none
  | f + 1, σ, e, args, dm =>
    match args with
    | [s, vform] =>
      match s with
      | .symbol name =>
        match evalF f σ e vform with
        | none => none
        | some .fault => some .fault
        | some (.err σ1 e' d) => some (.err σ1 e' (max dm (1 + d)))
        | some (.ok σ1 v d) =>
          some (.ok (storeSet σ1 e name v) v (max dm (1 + d)))
      | _ => some (.err σ (.goErr "def! requires a symbol arg") dm)
    | _ => some (.err σ (.goErr "def! requires 2 args") dm)
termination_by structural f s e args dm => f

/-- The `defmacro!` case: as `def!` but the value must be a `Function`,
whose copy is flagged as a macro before being bound and returned. -/
def evalDefmacroF : Nat → Store → Nat → List MalType → Nat → Option (EOut MalType)
  | 0, _, _, _, _ => none
  | f + 1, σ, e, args, dm =>
    match args with
    | [s, vform] =>
      match s with
      | .symbol name =>
        match evalF f σ e vform with
        | none => none
        | some .fault => some .fault
        | some (.err σ1 e' d) => some (.err σ1 e' (max dm (1 + d)))
        | some (.ok σ1 v d) =>
          match v with
          | .func fid body binds env _ =>
            let fn := MalType.func fid body binds env true
            some (.ok (storeSet σ1 e name fn) fn (max dm (1 + d)))
          | _ => some (.err σ1 (.goErr "defmacro! requires a macro arg") (max dm (1 + d)))
      | _ => some (.err σ (.goErr "defmacro! requires a symbol arg") dm)
    | _ => some (.err σ (.goErr "defmacro! requires 2 args") dm)
termination_by structural f s e args dm => f

/-- The `let*` case: the binding form must be `Sequential`; its items are
drained (the Go code discards this `IntoSlice` error) and handed to the
binding loop. -/
def evalLetF : Nat → Store → Nat → List MalType → Nat → Option (EOut MalType)
  | 0, _, _, _, _ => none
  | f + 1, σ, e, args, dm =>
    match args with
    | [bindsForm, body] =>
      if bindsForm.isSequentialI then
        match intoSliceF f bindsForm with
        | none => none
        | some .fault => some .fault
        | some (.err _) => -- Go discards this error; bindings is nil
          letRestF f σ e [] body dm
        | some (.ok bindings) => letRestF f σ e bindings body dm
      else some (.err σ (.goErr "let* requires a binding sequential arg") dm)
    | _ => some (.err σ (.goErr "let* requires 2 args") dm)
termination_by structural f s e args dm => f

/-- The `do` case: all but the last subform are evaluated for effect
(nested `EVAL`s); the last is a tail position. -/
def evalDoF : Nat → Store → Nat → List MalType → Nat → Option (EOut MalType)
  | 0, _, _, _, _ => none
  | f + 1, σ, e, args, dm =>
    match args.dropLast, args.getLast? with
    | _, none => some (.ok σ .nilv dm)
    | front, some last =>
      match doSeqF f σ e front with
      | none => none
      | some .fault => some .fault
      | some (.err σ1 e' d) => some (.err σ1 e' (max dm d))
      | some (.ok σ1 _ d) =>
        match evalF f σ1 e last with -- tail position: loop, no extra depth
        | none => none
        | some .fault => some .fault
        | some (.err σ2 e' d2) => some (.err σ2 e' (max (max dm d) d2))
        | some (.ok σ2 v d2) => some (.ok σ2 v (max (max dm d) d2))
termination_by structural f s e args dm => f

/-- The `if` case's arity gate (2 or 3 operand forms). -/
def evalIfCaseF : Nat → Store → Nat → List MalType → Nat → Option (EOut MalType)
  | 0, _, _, _, _ => none
  | f + 1, σ, e, args, dm =>
    match args with
    | [test, thenB] => evalIfF f σ e test thenB none dm
    | [test, thenB, elseB] => evalIfF f σ e test thenB (some elseB) dm
    | _ => some (.err σ (.goErr "if requires 2 or 3 args") dm)
termination_by structural f s e args dm => f

/-- The `fn*` case: build a closure capturing the current environment, the
parameter list and the unevaluated body (not a tail position). -/
def evalFnF : Nat → Store → Nat → List MalType → Nat → Option (EOut MalType)
  | 0, _, _, _, _ => none
  | f + 1, σ, e, args, dm =>
    match args with
    | [bindsForm, body] =>
      if bindsForm.isSequentialI then
        match intoSliceF f bindsForm with
        | none => none
        | some .fault => some .fault
        | some (.err e') => some (.err σ e' dm)
        | some (.ok binds) =>
          some (.ok σ (.func 0 (some body) binds e false) dm)
      else some (.err σ (.goErr "fn* requires a sequential args arg") dm)
    | _ => some (.err σ (.goErr "fn* requires 2 args") dm)

/-- The `quote` case: return the single operand unevaluated. -/
def evalQuoteF : Nat → Store → List MalType → Nat → Option (EOut MalType)
  | 0, _, _, _ => none
  | _ + 1, σ, args, dm =>
    match args with
    | [q] => some (.ok σ q dm)
    | _ => some (.err σ (.goErr "quote requires 1 arg") dm)

/-- The `quasiquote` case: expand (no arity check — a missing operand is an
index panic) and loop with the expansion as the new target. -/
def evalQQF : Nat → Store → Nat → List MalType → Nat → Option (EOut MalType)
  | 0, _, _, _, _ => none
  | f + 1, σ, e, args, dm =>
    match args with
    | [] => some .fault -- items[1] index panic
    | q :: _ =>
      match quasiquoteF f q with
      | none => none
      | some .fault => some .fault
      | some (.err e') => some (.err σ e' dm)
      | some (.ok expq) =>
        match evalF f σ e expq with -- tail position: loop
        | none => none
        | some .fault => some .fault
        | some (.err σ1 e' d) => some (.err σ1 e' (max dm d))
        | some (.ok σ1 v d) => some (.ok σ1 v (max dm d))
termination_by structural f s e args dm => f

/-- The `macroexpand` special form: run the expansion without evaluating. -/
def evalMexpF : Nat → Store → Nat → List MalType → Nat → Option (EOut MalType)
  | 0, _, _, _, _ => none
  | f + 1, σ, e, args, dm =>
    match args with
    | [] => some .fault -- items[1] index panic
    | m :: _ =>
      match mexpandF f σ e m with
      | none => none
      | some .fault => some .fault
      | some (.err σ1 e' d) => some (.err σ1 e' (max dm d))
      | some (.ok σ1 v d) => some (.ok σ1 v (max dm d))
termination_by structural f s e args dm => f

/-- The `try*` case.  Note the Go bug it reproduces: the thrown error lives
in the local `err`, but `catchItems, err := runtime.IntoSlice(...)` REASSIGNS
`err` (its success sets it to nil), so the value bound to the catch symbol is
the nil interface (`hostNil`), not the thrown reason. -/
def evalTryF : Nat → Store → Nat → List MalType → Nat → Option (EOut MalType)
  | 0, _, _, _, _ => none
  | f + 1, σ, e, args, dm =>
    match args with
    | [] => some .fault -- items[1] index panic
    | tryBody :: catchRest =>
      match evalF f σ e tryBody with
      | none => none
      | some .fault => some .fault
      | some (.ok σ1 v d) => some (.ok σ1 v (max dm (1 + d)))
      | some (.err σ1 e0 d) =>
        match catchRest with
        | [] => some (.err σ1 e0 (max dm (1 + d)))
        | catchForm :: _ =>
          if catchForm.isApplicableI then
            match seqOf catchForm with
            | none => some .fault
            | some cs =>
              match intoSliceF f cs with
              | none => none
              | some .fault => some .fault
              | some (.err eI) => some (.err σ1 eI (max dm (1 + d)))
              | some (.ok catchItems) =>
                -- from here on the Go variable `err` is nil: the successful
                -- IntoSlice overwrote the thrown error e0
                match catchItems.get? 0 with
                | none => some .fault -- catchItems[0] index panic
                | some c0 =>
                  if isSymbolNamed "catch*" c0 then
                    match catchItems.get? 1 with
                    | none => some .fault -- catchItems[1:2] slice panic
                    | some bindSym =>
                      match deriveEnvS σ1 (some e) [bindSym] [.hostNil] with
                      | .fault => some .fault
                      | .err e' => some (.err σ1 e' (max dm (1 + d)))
                      | .ok (σ2, ce) =>
                        match catchItems.get? 2 with
                        | none => some .fault -- catchItems[2] index panic
                        | some catchBody =>
                          match evalF f σ2 ce catchBody with
                          | none => none
                          | some .fault => some .fault
                          | some (.err σ3 e' d2) =>
                            some (.err σ3 e' (max (max dm (1 + d)) (1 + d2)))
                          | some (.ok σ3 v d2) =>
                            some (.ok σ3 v (max (max dm (1 + d)) (1 + d2)))
                  else some (.err σ1 (.goErr "Invalid try* form") (max dm (1 + d)))
          else some (.err σ1 (.goErr "Invalid try* form") (max dm (1 + d)))
termination_by structural f s e args dm => f

/-- The `if` case of `EVAL`: evaluate the test (a nested `EVAL`); boolean
false and nil are the only falsy values; the chosen branch is a tail
position; a falsy test with no else-branch yields nil. -/
def evalIfF : Nat → Store → Nat → MalType → MalType →
    Option MalType → Nat → Option (EOut MalType)
  | 0, _, _, _, _, _, _ => none
  | f + 1, σ, e, test, thenB, elseB, dm =>
  match evalF f σ e test with
  | none => none
  | some .fault => some .fault
  | some (.err σ1 e' d) => some (.err σ1 e' (max dm (1 + d)))
  | some (.ok σ1 v d) =>
    let cond := truthy v
    let dt := max dm (1 + d)
    match if cond then some thenB else elseB with
    | none => some (.ok σ1 .nilv dt)
    | some branch =>
      match evalF f σ1 e branch with -- tail position: loop
      | none => none
      | some .fault => some .fault
      | some (.err σ2 e' d2) => some (.err σ2 e' (max dt d2))
      | some (.ok σ2 v2 d2) => some (.ok σ2 v2 (max dt d2))
termination_by structural f s e t tb eb dm => f

/-- The binding loop of `let*`: pairs are processed left to right, each
initializer evaluated (nested `EVAL`) in the environment extended so far,
each binding deriving one fresh frame; the body is then a tail position. -/
def letRestF : Nat → Store → Nat → List MalType → MalType → Nat →
    Option (EOut MalType)
  | 0, _, _, _, _, _ => none
  | f + 1, σ, e, bindings, body, dm =>
  if bindings.length % 2 ≠ 0 then
    some (.err σ (.goErr "let* requires an even list of bindings") dm)
  else
    match deriveEnvS σ (some e) [] [] with
    | .fault => some .fault
    | .err e' => some (.err σ e' dm)
    | .ok (σ1, inner) =>
      match letBindsF f σ1 inner bindings with
      | none => none
      | some .fault => some .fault
      | some (.err σ2 e' d) => some (.err σ2 e' (max dm d))
      | some (.ok σ2 inner2 d) =>
        match evalF f σ2 inner2 body with -- tail position: loop
        | none => none
        | some .fault => some .fault
        | some (.err σ3 e' d2) => some (.err σ3 e' (max (max dm d) d2))
        | some (.ok σ3 v d2) => some (.ok σ3 v (max (max dm d) d2))
termination_by structural f s e b body dm => f

/-- One pass of the `let*` binding pairs. -/
def letBindsF : Nat → Store → Nat → List MalType → Option (EOut Nat)
  | 0, _, _, _ => none
  | _ + 1, σ, inner, [] => some (.ok σ inner 0)
  | f + 1, σ, inner, bform :: rest =>
    match bform with
    | .symbol _ =>
      match rest with
      | [] => some (.ok σ inner 0) -- unreachable: evenness was checked
      | vform :: rest2 =>
        match evalF f σ inner vform with
        | none => none
        | some .fault => some .fault
        | some (.err σ1 e' d) => some (.err σ1 e' (1 + d))
        | some (.ok σ1 v d) =>
          match deriveEnvS σ1 (some inner) [bform] [v] with
          | .fault => some .fault
          | .err e' => some (.err σ1 e' (1 + d))
          | .ok (σ2, inner2) =>
            match letBindsF f σ2 inner2 rest2 with
            | none => none
            | some .fault => some .fault
            | some (.err σ3 e' d2) => some (.err σ3 e' (max (1 + d) d2))
            | some (.ok σ3 i3 d2) => some (.ok σ3 i3 (max (1 + d) d2))
    | _ => some (.err σ (.goErr "let* binding arg requires a symbol") 0)
termination_by structural f s i b => f

/-- The effect-only evaluations of `do` (all but the last subform). -/
def doSeqF : Nat → Store → Nat → List MalType → Option (EOut Unit)
  | 0, _, _, _ => none
  | _ + 1, σ, _, [] => some (.ok σ () 0)
  | f + 1, σ, e, item :: rest =>
    match evalF f σ e item with
    | none => none
    | some .fault => some .fault
    | some (.err σ1 e' d) => some (.err σ1 e' (1 + d))
    | some (.ok σ1 _ d) =>
      match doSeqF f σ1 e rest with
      | none => none
      | some .fault => some .fault
      | some (.err σ2 e' d2) => some (.err σ2 e' (max (1 + d) d2))
      | some (.ok σ2 _ d2) => some (.ok σ2 () (max (1 + d) d2))
termination_by structural f s e l => f

/-- The application default of `EVAL`: `evalAst` the whole form, require an
`Applicable` whose first item is a `Function`; native functions are invoked
directly; a closure's body becomes the new target in a frame derived from
the closure's captured environment (the tail-call step). -/
def evalApplyF : Nat → Store → Nat → MalType → Nat → Option (EOut MalType)
  | 0, _, _, _, _ => none
  | f + 1, σ, e, value, dm =>
  match evalAstF f σ e value with
  | none => none
  | some .fault => some .fault
  | some (.err σ1 e' d) => some (.err σ1 e' (max dm d))
  | some (.ok σ1 evaluated d) =>
    let da := max dm d
    if evaluated.isApplicableI then
      match seqOf evaluated with
      | none => some .fault
      | some es =>
        match intoSliceF f es with
        | none => none
        | some .fault => some .fault
        | some (.err e') => some (.err σ1 e' da)
        | some (.ok iitems) =>
          match iitems with
          | [] => some .fault -- iitems[0] index panic
          | fnv :: fnargs =>
            match fnv with
            | .func fid body binds fenv _ =>
              match body with
              | none =>
                match applyNativeF f fid fnargs with
                | none => none
                | some .fault => some .fault
                | some (.err e') => some (.err σ1 e' da)
                | some (.ok v) => some (.ok σ1 v da)
              | some bodyForm =>
                match deriveEnvS σ1 (some fenv) binds fnargs with
                | .fault => some .fault
                | .err e' => some (.err σ1 e' da)
                | .ok (σ2, fe) =>
                  match evalF f σ2 fe bodyForm with -- tail position: loop
                  | none => none
                  | some .fault => some .fault
                  | some (.err σ3 e' d2) => some (.err σ3 e' (max da d2))
                  | some (.ok σ3 v d2) => some (.ok σ3 v (max da d2))
            | _ => some (.err σ1 (.goErr "No function found in first position") da)
    else some (.err σ1 (.goErr "List did not eval to list") da)
termination_by structural f s e v dm => f

/-- Go `evalAst(evalEnv, form)`: symbols resolve in the environment; List,
Vector and Map literals evaluate every element/entry (nested `EVAL`s) and
rebuild; every other value evaluates to itself. -/
def evalAstF : Nat → Store → Nat → MalType → Option (EOut MalType)
  | 0, _, _, _ => none
  | f + 1, σ, e, form =>
    match form with
    | .symbol name =>
      match envGetF f σ e name with
      | none => none
      | some .fault => some .fault
      | some (.err e') => some (.err σ e' 0)
      | some (.ok v) => some (.ok σ v 0)
    | .list items =>
      match evalListF f σ e items with
      | none => none
      | some .fault => some .fault
      | some (.err σ1 e' d) => some (.err σ1 e' d)
      | some (.ok σ1 vs d) => some (.ok σ1 (.list vs) d)
    | .vector items =>
      match evalListF f σ e items with
      | none => none
      | some .fault => some .fault
      | some (.err σ1 e' d) => some (.err σ1 e' d)
      | some (.ok σ1 vs d) => some (.ok σ1 (.vector vs) d)
    | .mapv entries =>
      match evalMapF f σ e entries [] with
      | none => none
      | some .fault => some .fault
      | some (.err σ1 e' d) => some (.err σ1 e' d)
      | some (.ok σ1 es d) => some (.ok σ1 (.mapv es) d)
    | _ => some (.ok σ form 0)
termination_by structural f s e form => f

/-- Element evaluation loop of `evalAst` for List/Vector literals. -/
def evalListF : Nat → Store → Nat → List MalType → Option (EOut (List MalType))
  | 0, _, _, _ => none
  | _ + 1, σ, _, [] => some (.ok σ [] 0)
  | f + 1, σ, e, item :: rest =>
    match evalF f σ e item with
    | none => none
    | some .fault => some .fault
    | some (.err σ1 e' d) => some (.err σ1 e' (1 + d))
    | some (.ok σ1 v d) =>
      match evalListF f σ1 e rest with
      | none => none
      | some .fault => some .fault
      | some (.err σ2 e' d2) => some (.err σ2 e' (max (1 + d) d2))
      | some (.ok σ2 vs d2) => some (.ok σ2 (v :: vs) (max (1 + d) d2))
termination_by structural f s e l => f

/-- Entry evaluation loop of `evalAst` for Map literals: keys and values are
evaluated and `Set` into a fresh builder (modelled by `mapInsertF`). -/
def evalMapF : Nat → Store → Nat → List (MalType × MalType) →
    List (MalType × MalType) → Option (EOut (List (MalType × MalType)))
  | 0, _, _, _, _ => none
  | _ + 1, σ, _, [], acc => some (.ok σ acc 0)
  | f + 1, σ, e, (k, v) :: rest, acc =>
    match evalF f σ e k with
    | none => none
    | some .fault => some .fault
    | some (.err σ1 e' d) => some (.err σ1 e' (1 + d))
    | some (.ok σ1 k2 dk) =>
      match evalF f σ1 e v with
      | none => none
      | some .fault => some .fault
      | some (.err σ2 e' d) => some (.err σ2 e' (max (1 + dk) (1 + d)))
      | some (.ok σ2 v2 dv) =>
        match mapInsertF f acc k2 v2 with
        | none => none
        | some .fault => some .fault
        | some (.err e') => some (.err σ2 e' (max (1 + dk) (1 + dv)))
        | some (.ok acc2) =>
          match evalMapF f σ2 e rest acc2 with
          | none => none
          | some .fault => some .fault
          | some (.err σ3 e' d2) => some (.err σ3 e' (max (max (1 + dk) (1 + dv)) d2))
          | some (.ok σ3 es d2) => some (.ok σ3 es (max (max (1 + dk) (1 + dv)) d2))
termination_by structural f s e es acc => f

/-- Go `macroexpand(evalEnv, form)`: while the form is a macro call, apply
the macro's native code (`Fn`) to the unevaluated tail arguments and repeat;
otherwise return the form. -/
def mexpandF : Nat → Store → Nat → MalType → Option (EOut MalType)
  | 0, _, _, _ => none
  | f + 1, σ, e, form =>
    match isMcallF f σ e form with
    | none => none
    | some .fault => some .fault
    | some (.err e') => some (.err σ e' 0)
    | some (.ok none) => some (.ok σ form 0)
    | some (.ok (some (fn, argsSeq))) =>
      match intoSliceF f argsSeq with
      | none => none
      | some .fault => some .fault
      | some (.err e') => some (.err σ e' 0)
      | some (.ok items) =>
        match applyFnF f σ fn items with
        | none => none
        | some .fault => some .fault
        | some (.err σ1 e' d) => some (.err σ1 e' d)
        | some (.ok σ1 expanded d) =>
          match mexpandF f σ1 e expanded with
          | none => none
          | some .fault => some .fault
          | some (.err σ2 e' d2) => some (.err σ2 e' (max d d2))
          | some (.ok σ2 v d2) => some (.ok σ2 v (max d d2))
termination_by structural f s e form => f

/-- A Go `Function.Fn` invocation: native bodies run their native code; for
`fn*`-closures `Fn` derives a frame from the captured environment and calls
`EVAL` on the body (a genuinely recursive call, hence `1 +` the depth). -/
def applyFnF : Nat → Store → MalType → List MalType → Option (EOut MalType)
  | 0, _, _, _ => none
  | f + 1, σ, fn, args =>
  match fn with
  | .func fid none _ _ _ =>
    match applyNativeF f fid args with
    | none => none
    | some .fault => some .fault
    | some (.err e') => some (.err σ e' 0)
    | some (.ok v) => some (.ok σ v 0)
  | .func _ (some body) binds fenv _ =>
    match deriveEnvS σ (some fenv) binds args with
    | .fault => some .fault
    | .err e' => some (.err σ e' 0)
    | .ok (σ1, fe) =>
      match evalF f σ1 fe body with
      | none => none
      | some .fault => some .fault
      | some (.err σ2 e' d) => some (.err σ2 e' (1 + d))
      | some (.ok σ2 v d) => some (.ok σ2 v (1 + d))
  | _ => some .fault -- Fn of a non-Function: unreachable
termination_by structural f s fn args => f

end


theorem symbolNames_map (names : List String) :
    symbolNames (names.map MalType.symbol) = some names := by
  induction names with
  | nil => rfl
  | cons n rest ih => simp [symbolNames, ih]

theorem find?_of_nodup_keys {l : List (String × MalType)} {k : String} {v : MalType}
    (hnd : (l.map Prod.fst).Nodup) (hm : (k, v) ∈ l) :
    l.find? (fun p => p.1 = k) = some (k, v) := by
  induction l with
  | nil => cases hm
  | cons p rest ih =>
    rw [List.map_cons] at hnd
    have hnd' := List.nodup_cons.mp hnd
    rcases List.mem_cons.mp hm with rfl | hm'
    · simp
    · have hk : ¬p.1 = k := by
        intro he
        exact hnd'.1 (he ▸ (List.mem_map.mpr ⟨(k, v), hm', rfl⟩))
      rw [List.find?_cons_of_neg _ (by simpa using hk)]
      exact ih hnd'.2 hm'

theorem notin_positionals_getLast (names : List String) (hnd : names.Nodup)
    (hv : hasVarargs names = true) :
    names.getLast?.getD "" ∉ positionals names := by
  intro hmem
  unfold positionals at hmem
  rw [if_pos hv] at hmem
  have h2 : 2 ≤ names.length := by
    unfold hasVarargs at hv
    simp at hv
    omega
  obtain ⟨i, hgi⟩ := List.mem_iff_get.mp hmem
  have hil : (i : Nat) < names.length - 2 := by
    have := i.isLt
    simpa using this
  have hgl : names.getLast?.getD "" = names.get ⟨names.length - 1, by omega⟩ := by
    rw [List.getLast?_eq_get?]
    simp [List.get?_eq_getElem?, List.getElem?_eq_getElem (show names.length - 1 < names.length by omega)]
  have htake : (names.take (names.length - 2)).get i =
      names.get ⟨i, by omega⟩ := by
    simp [List.get_eq_getElem, List.getElem_take]
  rw [htake, hgl] at hgi
  have := List.Nodup.get_inj_iff hnd |>.mp hgi.symm
  simp at this
  omega

/-- Claim C4: `DeriveEnv` creates a new frame linked to the outer
environment binding each parameter symbol positionally to the matching
argument; if the second-to-last parameter symbol is the literal `&`, all
remaining arguments (including zero of them) are collected into a List bound
to the final parameter symbol; and it fails with an arity error exactly when
there are more positional parameters than supplied arguments before any
`&`-rest capture.  (Stated over distinct parameter names; the outer link is
part of the produced frame.) -/
theorem claim_C4 (outer : Option Nat) (names : List String)
    (args : List MalType) (hnd : names.Nodup) :
    (deriveFrame outer (names.map MalType.symbol) args =
        .err (.goErr "no expr for bind") ↔
      args.length < (positionals names).length) ∧
    ((positionals names).length ≤ args.length →
      ∃ bs, deriveFrame outer (names.map MalType.symbol) args = .ok ⟨outer, bs⟩ ∧
        (∀ i, i < (positionals names).length →
          frameGet ⟨outer, bs⟩ ((positionals names).getD i "") = args.get? i) ∧
        (hasVarargs names = true →
          frameGet ⟨outer, bs⟩ (names.getLast?.getD "") =
            some (.list (args.drop (positionals names).length)))) := by
  have hpos_sub : List.Sublist (positionals names) names := by
    unfold positionals
    split
    · exact List.take_sublist _ _
    · exact List.Sublist.refl _
  have hpos_nodup : (positionals names).Nodup := hpos_sub.nodup hnd
  constructor
  · simp only [deriveFrame, symbolNames_map]
    constructor
    · intro h
      by_contra hc
      push_neg at hc
      rw [if_pos hc] at h
      cases h
    · intro h
      rw [if_neg (by omega)]
  · intro hle
    simp only [deriveFrame, symbolNames_map]
    rw [if_pos hle]
    refine ⟨_, rfl, ?_, ?_⟩
    · intro i hi
      have hia : i < args.length := lt_of_lt_of_le hi hle
      have hgp : (positionals names).get? i = some ((positionals names).getD i "") := by
        simp [List.getD_eq_get?, List.get?_eq_getElem?, List.getElem?_eq_getElem hi]
      have hga : args.get? i = some (args.getD i .hostNil) := by
        simp [List.getD_eq_get?, List.get?_eq_getElem?, List.getElem?_eq_getElem hia]
      have hzip : ((positionals names).zip args).get? i =
          some ((positionals names).getD i "", args.getD i .hostNil) :=
        (List.get?_zip_eq_some _ _ _ _).mpr ⟨hgp, hga⟩
      have hmem : ((positionals names).getD i "", args.getD i .hostNil) ∈
          ((positionals names).zip args).reverse :=
        List.mem_reverse.mpr (List.get?_mem hzip)
      have hkeys : ((((positionals names).zip args).reverse).map Prod.fst).Nodup := by
        rw [List.map_reverse, List.map_fst_zip _ _ hle]
        exact List.nodup_reverse.mpr hpos_nodup
      rw [hga]
      by_cases hv : hasVarargs names = true
      · rw [if_pos hv]
        unfold frameGet
        rw [List.find?_cons_of_neg, find?_of_nodup_keys hkeys hmem]
        · rfl
        · simp only [decide_eq_true_eq]
          intro he
          exact notin_positionals_getLast names hnd hv (he ▸ List.get?_mem hgp)
      · rw [if_neg hv]
        unfold frameGet
        rw [find?_of_nodup_keys hkeys hmem]
        rfl
    · intro hv
      rw [if_pos hv]
      unfold frameGet
      simp [List.find?]

theorem zip_take_right (l1 : List String) (l2 : List MalType) :
    l1.zip l2 = l1.zip (l2.take l1.length) := by
  induction l1 generalizing l2 with
  | nil => rfl
  | cons a r ih =>
    cases l2 with
    | nil => rfl
    | cons b s =>
      rw [List.zip_cons_cons, List.length_cons, List.take_succ_cons,
        List.zip_cons_cons, ← ih]

/-- Claim C10: a closure parameter list of `n` symbols with no `&` marker,
applied to more than `n` arguments, succeeds without any arity error: the
first `n` arguments are bound positionally (the frame is exactly the reversed
zip of parameters with arguments) and the extra arguments are silently
ignored (the zip only consumes the first `n` arguments). -/
theorem claim_C10 (outer : Option Nat) (names : List String)
    (args : List MalType) (hamp : "&" ∉ names)
    (hlen : names.length < args.length) :
    deriveFrame outer (names.map MalType.symbol) args =
      .ok ⟨outer, (names.zip args).reverse⟩ ∧
    names.zip args = names.zip (args.take names.length) := by
  have hv : hasVarargs names = false := by
    unfold hasVarargs
    by_cases h2 : 2 ≤ names.length
    · have hlt : names.length - 2 < names.length := by omega
      have hin : names.getD (names.length - 2) "" ∈ names := by
        rw [List.getD_eq_getElem _ _ hlt]
        exact List.getElem_mem _
      have hne : ¬(names.getD (names.length - 2) "" = "&") := fun he => hamp (he ▸ hin)
      rw [decide_eq_false hne, Bool.and_false]
    · rw [decide_eq_false h2, Bool.false_and]
  have hp : positionals names = names := by
    unfold positionals
    rw [hv]
    simp
  constructor
  · simp only [deriveFrame, symbolNames_map]
    rw [hp, if_pos (le_of_lt hlen), hv]
    simp
  · exact zip_take_right names args

/-- Witness for C4 at concrete inputs. -/
theorem claim_C4_witness :
    (deriveFrame none [MalType.symbol "x", .symbol "&", .symbol "r"] [] =
        .err (.goErr "no expr for bind")) ∧
    ∃ bs, deriveFrame none [MalType.symbol "x", .symbol "&", .symbol "r"]
        [.integer 1, .integer 2] = .ok ⟨none, bs⟩ ∧
      frameGet ⟨none, bs⟩ "x" = some (.integer 1) ∧
      frameGet ⟨none, bs⟩ "r" = some (.list [.integer 2]) := by
  constructor
  · exact (claim_C4 none ["x", "&", "r"] [] (by decide)).1.mpr (by decide)
  · obtain ⟨bs, h1, h2, h3⟩ :=
      (claim_C4 none ["x", "&", "r"] [.integer 1, .integer 2] (by decide)).2 (by decide)
    refine ⟨bs, h1, ?_, ?_⟩
    · simpa [positionals, hasVarargs] using h2 0 (by decide)
    · simpa [positionals, hasVarargs] using h3 rfl

/-- Witness for C10 at concrete inputs. -/
theorem claim_C10_witness :
    deriveFrame none [MalType.symbol "a", .symbol "b"]
        [.integer 1, .integer 2, .integer 3] =
      .ok ⟨none, [("b", MalType.integer 2), ("a", .integer 1)]⟩ := by
  have := (claim_C10 none ["a", "b"] [.integer 1, .integer 2, .integer 3]
    (by decide) (by decide)).1
  simpa using this


def chainFrames : Nat → Store → Nat → Option (List Frame)
  | 0, _, _ => none
  | f + 1, σ, e =>
    match σ.get? e with
    | none => none
    | some fr =>
      match fr.outer with
      | none => some [fr]
      | some o => (chainFrames f σ o).map (fr :: ·)

/-- Claim C7: `Env.Get(name)` returns the binding of the innermost frame of
the environment chain that defines the name (inner bindings shadow outer
ones), walking the outer links deterministically, and fails with the
unbound-symbol error `Undefined{name}` exactly when no frame in the chain
defines it. -/
theorem claim_C7 (f : Nat) (σ : Store) (e : Nat) (name : String) (frs : List Frame)
    (hch : chainFrames f σ e = some frs) :
    envGetF f σ e name =
      match frs.findSome? (fun fr => frameGet fr name) with
      | some v => some (.ok v)
      | none => some (.err (.undefined name)) := by
  induction f generalizing e frs with
  | zero => simp [chainFrames] at hch
  | succ f ih =>
    simp only [chainFrames] at hch
    cases hg : σ.get? e with
    | none => rw [hg] at hch; cases hch
    | some fr =>
      rw [hg] at hch
      simp only at hch
      cases ho : fr.outer with
      | none =>
        rw [ho] at hch
        obtain rfl : [fr] = frs := by simpa using hch
        simp only [envGetF, hg, ho, List.findSome?_cons]
        cases hfg : frameGet fr name <;> simp [hfg, List.findSome?]
      | some o =>
        rw [ho] at hch
        simp only at hch
        cases hco : chainFrames f σ o with
        | none => rw [hco] at hch; cases hch
        | some frs' =>
          rw [hco] at hch
          obtain rfl : fr :: frs' = frs := by simpa using hch
          simp only [envGetF, hg, ho, List.findSome?_cons]
          cases hfg : frameGet fr name with
          | some v => simp [hfg]
          | none => simp only; exact ih o frs' hco

/-- Witness for C7: shadowing lookup and an unbound name on a concrete
two-frame chain. -/
theorem claim_C7_witness :
    envGetF 5 [⟨none, [("x", MalType.integer 1)]⟩,
        ⟨some 0, [("x", MalType.integer 2), ("y", MalType.integer 3)]⟩] 1 "x" =
      some (.ok (.integer 2)) ∧
    envGetF 5 [⟨none, [("x", MalType.integer 1)]⟩,
        ⟨some 0, [("x", MalType.integer 2), ("y", MalType.integer 3)]⟩] 1 "z" =
      some (.err (.undefined "z")) := by
  refine ⟨?_, ?_⟩
  · have h := claim_C7 5 [⟨none, [("x", MalType.integer 1)]⟩,
      ⟨some 0, [("x", MalType.integer 2), ("y", MalType.integer 3)]⟩] 1 "x" _ rfl
    simpa using h
  · have h := claim_C7 5 [⟨none, [("x", MalType.integer 1)]⟩,
      ⟨some 0, [("x", MalType.integer 2), ("y", MalType.integer 3)]⟩] 1 "z" _ rfl
    simpa using h


/-- Counterexample to claim C3 as stated: a non-empty Vector is not an
applicable sequence, so the claim prescribes `(quote form)`, but the code's
pair test accepts any Seq or Sequential value, so the vector is decomposed
into a `cons` form instead. -/
theorem claim_C3_counterexample :
    MalType.isApplicableI (.vector [.integer 1]) = false ∧
    quasiquoteF 9 (.vector [.integer 1]) =
      some (.ok (.list [.symbol "cons", .list [.symbol "quote", .integer 1],
        .list [.symbol "quote", .listIteratorSeq [.integer 1] 1]])) ∧
    MalType.list [.symbol "cons", .list [.symbol "quote", .integer 1],
        .list [.symbol "quote", .listIteratorSeq [.integer 1] 1]] ≠
      .list [.symbol "quote", .vector [.integer 1]] := by
  refine ⟨rfl, rfl, ?_⟩
  intro h
  simp at h

/-- Claim C3 (amended): the quasiquote expansion is a pure rewrite
satisfying: if `form` is not a non-empty seq-capable value (a `Seq` or
`Sequential` — not only applicable sequences) it returns `(quote form)`; if
its head is the symbol `unquote` it returns the first element of the tail
verbatim; if its head is itself a non-empty seq-capable value headed by the
symbol `splice-unquote` it returns `(concat <inner-operand> (quasiquote
tail))`; otherwise it returns `(cons (quasiquote head) (quasiquote tail))`. -/
theorem claim_C3 :
    (∀ f form, isPairF f form = some (.ok false) →
      quasiquoteF (f + 1) form = some (.ok (.list [.symbol "quote", form]))) ∧
    (∀ f form s head tail x t2,
      isPairF f form = some (.ok true) →
      seqF f form = some (.ok s) →
      seqNextF f s = some (.step head tail) →
      isSymbolNamed "unquote" head = true →
      seqNextF f tail = some (.step x t2) →
      quasiquoteF (f + 1) form = some (.ok x)) ∧
    (∀ f form s head tail is ihead itail y t3 qt,
      isPairF f form = some (.ok true) →
      seqF f form = some (.ok s) →
      seqNextF f s = some (.step head tail) →
      isSymbolNamed "unquote" head = false →
      isPairF f head = some (.ok true) →
      seqF f head = some (.ok is) →
      seqNextF f is = some (.step ihead itail) →
      isSymbolNamed "splice-unquote" ihead = true →
      seqNextF f itail = some (.step y t3) →
      quasiquoteF f tail = some (.ok qt) →
      quasiquoteF (f + 1) form = some (.ok (.list [.symbol "concat", y, qt]))) ∧
    (∀ f form s head tail,
      isPairF f form = some (.ok true) →
      seqF f form = some (.ok s) →
      seqNextF f s = some (.step head tail) →
      isSymbolNamed "unquote" head = false →
      isPairF f head = some (.ok false) →
      quasiquoteF (f + 1) form = qqConsF f head tail) ∧
    (∀ f form s head tail is ihead itail,
      isPairF f form = some (.ok true) →
      seqF f form = some (.ok s) →
      seqNextF f s = some (.step head tail) →
      isSymbolNamed "unquote" head = false →
      isPairF f head = some (.ok true) →
      seqF f head = some (.ok is) →
      seqNextF f is = some (.step ihead itail) →
      isSymbolNamed "splice-unquote" ihead = false →
      quasiquoteF (f + 1) form = qqConsF f head tail) ∧
    (∀ f head tail qh qt,
      quasiquoteF f head = some (.ok qh) →
      quasiquoteF f tail = some (.ok qt) →
      qqConsF (f + 1) head tail = some (.ok (.list [.symbol "cons", qh, qt]))) := by
  refine ⟨?_, ?_, ?_, ?_, ?_, ?_⟩
  · intro f form h
    simp only [quasiquoteF, h]
  · intro f form s head tail x t2 hp hs hn hu ht
    simp only [quasiquoteF, hp, hs, hn, hu, ht, if_true]
  · intro f form s head tail is ihead itail y t3 qt hp hs hn hu hph hsh hnh hsp hti hqt
    simp only [quasiquoteF, hp, hs, hn, hu, hph, hsh, hnh, hsp, hti, hqt,
      Bool.false_eq_true, if_false, if_true]
  · intro f form s head tail hp hs hn hu hph
    simp only [quasiquoteF, hp, hs, hn, hu, hph, Bool.false_eq_true, if_false]
  · intro f form s head tail is ihead itail hp hs hn hu hph hsh hnh hsp
    simp only [quasiquoteF, hp, hs, hn, hu, hph, hsh, hnh, hsp,
      Bool.false_eq_true, if_false]
  · intro f head tail qh qt hh ht
    simp only [qqConsF, hh, ht]

/-- Witness for C3 at concrete inputs: a non-pair is quoted, an `unquote`
head returns the operand verbatim. -/
theorem claim_C3_witness :
    quasiquoteF 4 (.integer 5) = some (.ok (.list [.symbol "quote", .integer 5])) ∧
    quasiquoteF 7 (.list [.symbol "unquote", .symbol "a"]) = some (.ok (.symbol "a")) := by
  constructor
  · exact claim_C3.1 3 (.integer 5) rfl
  · exact claim_C3.2.1 6 (.list [.symbol "unquote", .symbol "a"])
      (.listIteratorSeq [.symbol "unquote", .symbol "a"] 0) (.symbol "unquote")
      (.listIteratorSeq [.symbol "unquote", .symbol "a"] 1) (.symbol "a")
      (.listIteratorSeq [.symbol "unquote", .symbol "a"] 2)
      (by rfl) (by rfl) (by rfl) (by rfl) (by rfl)


/-- Claim C5: macro expansion reaches a fixed point — `macroexpand`
repeatedly applies the macro named by the form's head symbol to the
unevaluated tail arguments (part 2), a form that is not a macro call is
returned unchanged (part 1), and whatever a terminating expansion returns is
no longer a macro call (part 3). -/
theorem claim_C5 :
    (∀ f σ e form, isMcallF f σ e form = some (.ok none) →
      mexpandF (f + 1) σ e form = some (.ok σ form 0)) ∧
    (∀ f σ e form fn args items σ1 expanded d σ2 v d2,
      isMcallF f σ e form = some (.ok (some (fn, args))) →
      intoSliceF f args = some (.ok items) →
      applyFnF f σ fn items = some (.ok σ1 expanded d) →
      mexpandF f σ1 e expanded = some (.ok σ2 v d2) →
      mexpandF (f + 1) σ e form = some (.ok σ2 v (max d d2))) ∧
    (∀ f σ e form σ' v d, mexpandF f σ e form = some (.ok σ' v d) →
      ∃ g, isMcallF g σ' e v = some (.ok none)) := by
  refine ⟨?_, ?_, ?_⟩
  · intro f σ e form h
    simp only [mexpandF, h]
  · intro f σ e form fn args items σ1 expanded d σ2 v d2 hm hi ha hr
    simp only [mexpandF, hm, hi, ha, hr]
  · intro f
    induction f with
    | zero => intro σ e form σ' v d h; simp [mexpandF] at h
    | succ f ih =>
      intro σ e form σ' v d h
      simp only [mexpandF] at h
      cases hmc : isMcallF f σ e form with
      | none => rw [hmc] at h; cases h
      | some r =>
        rw [hmc] at h
        cases r with
        | fault => cases h
        | err e' => cases h
        | ok mo =>
          cases mo with
          | none =>
            simp only at h
            cases h
            exact ⟨f, hmc⟩
          | some p =>
            obtain ⟨fn, argsSeq⟩ := p
            simp only at h
            cases his : intoSliceF f argsSeq with
            | none => rw [his] at h; cases h
            | some ri =>
              rw [his] at h
              cases ri with
              | fault => cases h
              | err e' => cases h
              | ok items =>
                simp only at h
                cases hap : applyFnF f σ fn items with
                | none => rw [hap] at h; cases h
                | some ra =>
                  rw [hap] at h
                  cases ra with
                  | fault => cases h
                  | err σ1 e' d1 => cases h
                  | ok σ1 expanded d1 =>
                    simp only at h
                    cases hre : mexpandF f σ1 e expanded with
                    | none => rw [hre] at h; cases h
                    | some rr =>
                      rw [hre] at h
                      cases rr with
                      | fault => cases h
                      | err σ2 e' d2 => cases h
                      | ok σ2 v2 d2 =>
                        simp only at h
                        cases h
                        exact ih σ1 e expanded _ _ _ hre

/-- Witness for C5: a concrete identity macro expands once to its argument,
a non-macro form is returned unchanged, and the expansion result is no
longer a macro call. -/
theorem claim_C5_witness :
    mexpandF 9 [⟨none, [("m", MalType.func 0 (some (.symbol "x")) [.symbol "x"] 0 true)]⟩]
        0 (.list [.symbol "m", .integer 5]) =
      some (.ok ([⟨none, [("m", MalType.func 0 (some (.symbol "x")) [.symbol "x"] 0 true)]⟩] ++
        [⟨some 0, [("x", MalType.integer 5)]⟩]) (.integer 5) (max 1 0)) ∧
    mexpandF 6 [⟨none, [("m", MalType.func 0 (some (.symbol "x")) [.symbol "x"] 0 true)]⟩]
        0 (.integer 7) =
      some (.ok [⟨none, [("m", MalType.func 0 (some (.symbol "x")) [.symbol "x"] 0 true)]⟩]
        (.integer 7) 0) ∧
    ∃ g, isMcallF g ([⟨none, [("m", MalType.func 0 (some (.symbol "x")) [.symbol "x"] 0 true)]⟩] ++
        [⟨some 0, [("x", MalType.integer 5)]⟩]) 0 (.integer 5) = some (.ok none) := by
  refine ⟨?_, ?_, ?_⟩
  · exact claim_C5.2.1 8 [⟨none, [("m", MalType.func 0 (some (.symbol "x")) [.symbol "x"] 0 true)]⟩] 0 (.list [.symbol "m", .integer 5]) (MalType.func 0 (some (.symbol "x")) [.symbol "x"] 0 true) (MalType.listIteratorSeq [.symbol "m", .integer 5] 1)
      [.integer 5] ([⟨none, [("m", MalType.func 0 (some (.symbol "x")) [.symbol "x"] 0 true)]⟩] ++ [⟨some 0, [("x", MalType.integer 5)]⟩]) (.integer 5) 1 ([⟨none, [("m", MalType.func 0 (some (.symbol "x")) [.symbol "x"] 0 true)]⟩] ++ [⟨some 0, [("x", MalType.integer 5)]⟩]) (.integer 5) 0 (by rfl) (by rfl) (by rfl) (by rfl)
  · exact claim_C5.1 5 [⟨none, [("m", MalType.func 0 (some (.symbol "x")) [.symbol "x"] 0 true)]⟩] 0 (.integer 7) rfl
  · exact claim_C5.2.2 9 [⟨none, [("m", MalType.func 0 (some (.symbol "x")) [.symbol "x"] 0 true)]⟩] 0 (.list [.symbol "m", .integer 5]) ([⟨none, [("m", MalType.func 0 (some (.symbol "x")) [.symbol "x"] 0 true)]⟩] ++ [⟨some 0, [("x", MalType.integer 5)]⟩]) (.integer 5) (max 1 0)
      (claim_C5.2.1 8 [⟨none, [("m", MalType.func 0 (some (.symbol "x")) [.symbol "x"] 0 true)]⟩] 0 (.list [.symbol "m", .integer 5]) (MalType.func 0 (some (.symbol "x")) [.symbol "x"] 0 true) (MalType.listIteratorSeq [.symbol "m", .integer 5] 1)
        [.integer 5] ([⟨none, [("m", MalType.func 0 (some (.symbol "x")) [.symbol "x"] 0 true)]⟩] ++ [⟨some 0, [("x", MalType.integer 5)]⟩]) (.integer 5) 1 ([⟨none, [("m", MalType.func 0 (some (.symbol "x")) [.symbol "x"] 0 true)]⟩] ++ [⟨some 0, [("x", MalType.integer 5)]⟩]) (.integer 5) 0 (by rfl) (by rfl) (by rfl) (by rfl))


/-- Unfolding equation for `evalDispatchF` under a successful item slice. -/
theorem evalDispatchF_eq (f : Nat) (σ : Store) (e : Nat) (value : MalType)
    (dm : Nat) (s0 head : MalType) (args : List MalType)
    (hseq : seqOf value = some s0)
    (hsl : intoSliceF f s0 = some (.ok (head :: args))) :
    evalDispatchF (f + 1) σ e value dm =
      match specialOf head with
      | some .sdef => evalDefF f σ e args dm
      | some .sdmac => evalDefmacroF f σ e args dm
      | some .slet => evalLetF f σ e args dm
      | some .sdo => evalDoF f σ e args dm
      | some .sif => evalIfCaseF f σ e args dm
      | some .sfn => evalFnF f σ e args dm
      | some .squote => evalQuoteF f σ args dm
      | some .sqq => evalQQF f σ e args dm
      | some .smexp => evalMexpF f σ e args dm
      | some .stry => evalTryF f σ e args dm
      | none => evalApplyF f σ e value dm := by
  simp only [evalDispatchF, hseq, hsl]

/-- Unfolding equation for `EVAL` on an applicable form whose expansion is
still applicable. -/
theorem evalF_app_eq (f : Nat) (σ : Store) (e : Nat) (form : MalType)
    (s0 : MalType) (items : List MalType) (σ1 : Store) (expanded : MalType) (dmx : Nat)
    (hap : form.isApplicableI = true)
    (hseq : seqOf form = some s0)
    (hsl : intoSliceF f s0 = some (.ok items))
    (hne : items.isEmpty = false)
    (hmx : mexpandF f σ e (.list items) = some (.ok σ1 expanded dmx))
    (hap2 : expanded.isApplicableI = true) :
    evalF (f + 1) σ e form = evalDispatchF f σ1 e expanded dmx := by
  simp only [evalF, hap, hseq, hsl, hne, hmx, hap2, if_true, if_false, Bool.false_eq_true]

/-- Unfolding equation for `EVAL` on a non-applicable form. -/
theorem evalF_ast_eq (f : Nat) (σ : Store) (e : Nat) (form : MalType)
    (hap : form.isApplicableI = false) :
    evalF (f + 1) σ e form =
      match evalAstF f σ e form with
      | none => none
      | some .fault => some .fault
      | some (.err σ2 e' d) => some (.err σ2 e' d)
      | some (.ok σ2 v d) => some (.ok σ2 v d) := by
  simp only [evalF, hap, Bool.false_eq_true, if_false]


/-- Claim C6: the `if` special form errors unless given exactly 2 or 3
operand forms; the evaluated test is falsy exactly when it is boolean false
or nil (every other value, including integer 0 and empty collections, is
truthy); a truthy test continues with the then-branch, a falsy one with the
else-branch when present, and yields nil when falsy with no else-branch. -/
theorem claim_C6 :
    (∀ v, truthy v = true ↔ (v ≠ .boolean false ∧ v ≠ .nilv)) ∧
    (∀ f σ e args dm,
      intoSliceF f (.listIteratorSeq (MalType.symbol "if" :: args) 0) =
        some (.ok (.symbol "if" :: args)) →
      evalDispatchF (f + 1) σ e (.list (.symbol "if" :: args)) dm =
        evalIfCaseF f σ e args dm) ∧
    (∀ f σ e args dm, args.length ≠ 2 → args.length ≠ 3 →
      evalIfCaseF (f + 1) σ e args dm =
        some (.err σ (.goErr "if requires 2 or 3 args") dm)) ∧
    (∀ f σ e test thenB dm,
      evalIfCaseF (f + 1) σ e [test, thenB] dm = evalIfF f σ e test thenB none dm) ∧
    (∀ f σ e test thenB elseB dm,
      evalIfCaseF (f + 1) σ e [test, thenB, elseB] dm =
        evalIfF f σ e test thenB (some elseB) dm) ∧
    (∀ f σ e test thenB elseB dm σ1 v d,
      evalF f σ e test = some (.ok σ1 v d) → truthy v = true →
      evalIfF (f + 1) σ e test thenB elseB dm =
        mergeDepth (max dm (1 + d)) (evalF f σ1 e thenB)) ∧
    (∀ f σ e test thenB elseB dm σ1 v d,
      evalF f σ e test = some (.ok σ1 v d) → truthy v = false →
      evalIfF (f + 1) σ e test thenB (some elseB) dm =
        mergeDepth (max dm (1 + d)) (evalF f σ1 e elseB)) ∧
    (∀ f σ e test thenB dm σ1 v d,
      evalF f σ e test = some (.ok σ1 v d) → truthy v = false →
      evalIfF (f + 1) σ e test thenB none dm =
        some (.ok σ1 .nilv (max dm (1 + d)))) := by
  refine ⟨?_, ?_, ?_, ?_, ?_, ?_, ?_, ?_⟩
  · intro v
    cases v with
    | boolean b => cases b <;> simp [truthy]
    | _ => simp [truthy]
  · intro f σ e args dm hsl
    rw [evalDispatchF_eq f σ e _ dm _ _ _ (by rfl) hsl]
    rfl
  · intro f σ e args dm h2 h3
    rcases args with _ | ⟨a, _ | ⟨b, _ | ⟨c, _ | ⟨d, rest⟩⟩⟩⟩ <;>
      first
        | rfl
        | simp at h2 h3
  · intro f σ e test thenB dm
    rfl
  · intro f σ e test thenB elseB dm
    rfl
  · intro f σ e test thenB elseB dm σ1 v d hv ht
    simp only [evalIfF, hv, ht]
    cases hb : evalF f σ1 e thenB with
    | none => simp [hb, mergeDepth]
    | some r => cases r <;> simp [hb, mergeDepth]
  · intro f σ e test thenB elseB dm σ1 v d hv ht
    simp only [evalIfF, hv, ht]
    cases hb : evalF f σ1 e elseB with
    | none => simp [hb, mergeDepth]
    | some r => cases r <;> simp [hb, mergeDepth]
  · intro f σ e test thenB dm σ1 v d hv ht
    simp only [evalIfF, hv, ht]
    simp

/-- Witness for C6: concrete dispatch, the arity error, a truthy integer-0
test, and a falsy nil test with no else-branch. -/
theorem claim_C6_witness :
    evalDispatchF 9 [⟨none, []⟩] 0 (.list [.symbol "if", .integer 1, .integer 2]) 0 =
      evalIfCaseF 8 [⟨none, []⟩] 0 [.integer 1, .integer 2] 0 ∧
    evalIfCaseF 9 [⟨none, []⟩] 0 [.integer 1] 0 =
      some (.err [⟨none, []⟩] (.goErr "if requires 2 or 3 args") 0) ∧
    evalIfF 6 [⟨none, []⟩] 0 (.integer 0) (.integer 7) none 0 =
      mergeDepth (max 0 (1 + 0)) (evalF 5 [⟨none, []⟩] 0 (.integer 7)) ∧
    evalIfF 6 [⟨none, []⟩] 0 .nilv (.integer 7) none 0 =
      some (.ok [⟨none, []⟩] .nilv (max 0 (1 + 0))) ∧
    (truthy (.integer 0) = true ↔
      (MalType.integer 0 ≠ .boolean false ∧ MalType.integer 0 ≠ .nilv)) := by
  refine ⟨claim_C6.2.1 8 _ 0 _ 0 (by rfl),
          claim_C6.2.2.1 8 _ 0 _ 0 (by decide) (by decide),
          claim_C6.2.2.2.2.2.1 5 _ 0 _ _ none 0 _ _ 0 (by rfl) (by rfl),
          claim_C6.2.2.2.2.2.2.2 5 _ 0 _ _ 0 _ _ 0 (by rfl) (by rfl),
          claim_C6.1 (.integer 0)⟩


/-- Claim C2 (code bug): evaluating `(try* (throw "boom") (catch* e e))` in
an environment binding `throw` to the native thrower yields the Go nil
interface value (`hostNil`), not the string `"boom"`.  In the Go `try*`
case, `catchItems, err := runtime.IntoSlice(applicable.Seq())` reassigns the
local `err` that held the thrown error, so `DeriveEnv` binds the catch
symbol to the now-nil error instead of the thrown reason. -/
theorem claim_C2 :
    (∃ σ d, evalF 20 [⟨none, [("throw", .func 0 none [] 0 false)]⟩] 0
      (.list [.symbol "try*", .list [.symbol "throw", .strv "boom"],
        .list [.symbol "catch*", .symbol "e", .symbol "e"]]) =
      some (.ok σ .hostNil d)) ∧ MalType.hostNil ≠ .strv "boom" := by
  exact ⟨⟨_, _, rfl⟩, by simp⟩


/-- A seq value whose first `Next()` call yields a step — the non-emptiness
`Concat` checks before keeping a member. -/
def FirstStep (s : MalType) : Prop :=
  ∃ h t, seqNextF (cd s + 1) s = some (.step h t)

mutual

/-- The invariant `Concatenation.Next` relies on: the value implements
`Seq`, and every nested Concatenation has a non-empty member list of
well-formed, non-empty members. -/
def SeqWF : MalType → Prop
  | .nilv => True
  | .sliceSeq _ => True
  | .listIteratorSeq _ _ => True
  | .rangev _ _ _ _ _ => True
  | .consCell _ t => SeqWF t
  | .concatenation seqs => seqs ≠ [] ∧ SeqWFList seqs
  | _ => False

/-- All members well-formed and non-empty. -/
def SeqWFList : List MalType → Prop
  | [] => True
  | s :: rest => (SeqWF s ∧ FirstStep s) ∧ SeqWFList rest

end

theorem cdList_le_of_mem {s : MalType} {seqs : List MalType} (h : s ∈ seqs) :
    cd s ≤ cdList seqs := by
  induction seqs with
  | nil => cases h
  | cons a rest ih =>
    rcases List.mem_cons.mp h with rfl | h'
    · simp [cdList]
    · calc cd s ≤ cdList rest := ih h'
        _ ≤ cdList (a :: rest) := by simp [cdList]

theorem seqWF_next (n : Nat) : ∀ s, cd s ≤ n → SeqWF s →
    ∃ r, seqNextF (cd s + 1) s = some r ∧ r ≠ .fault ∧
      (∀ h t, r = .step h t → SeqWF t ∧ cd t ≤ cd s) ∧
      (∀ seqs, s = .concatenation seqs → ∃ h t, r = .step h t) := by
  induction n with
  | zero =>
    intro s hcd hwf
    cases s with
    | nilv => exact ⟨.empty, rfl, by simp, by simp, by simp⟩
    | sliceSeq items =>
      cases items with
      | nil => exact ⟨.empty, rfl, by simp, by simp, by simp⟩
      | cons h t =>
        refine ⟨.step h (.sliceSeq t), rfl, by simp, ?_, by simp⟩
        intro h' t' he
        cases he
        exact ⟨trivial, le_refl _⟩
    | listIteratorSeq items i =>
      cases hg : items[i]? with
      | none =>
        refine ⟨.empty, ?_, by simp, by simp, by simp⟩
        simp [seqNextF, hg]
      | some x =>
        refine ⟨.step x (.listIteratorSeq items (i + 1)), ?_, by simp, ?_, by simp⟩
        · simp [seqNextF, hg]
        · intro h' t' he
          cases he
          exact ⟨trivial, le_refl _⟩
    | rangev l u st nv fin =>
      by_cases hf : fin ∧ u ≤ nv
      · refine ⟨.empty, ?_, by simp, by simp, by simp⟩
        simp [seqNextF, hf]
      · refine ⟨.step (.integer nv) (.rangev l u st (wrap64 (nv + st)) fin), ?_, by simp, ?_, by simp⟩
        · simp [seqNextF, hf]
        · intro h' t' he
          cases he
          exact ⟨trivial, le_refl _⟩
    | consCell hd tl =>
      refine ⟨.step hd tl, rfl, by simp, ?_, by simp⟩
      intro h' t' he
      cases he
      exact ⟨hwf, le_refl _⟩
    | concatenation seqs =>
      exfalso
      simp [cd] at hcd
    | integer i => exact absurd hwf (by simp [SeqWF])
    | strv s => exact absurd hwf (by simp [SeqWF])
    | symbol s => exact absurd hwf (by simp [SeqWF])
    | keyword s => exact absurd hwf (by simp [SeqWF])
    | boolean b => exact absurd hwf (by simp [SeqWF])
    | runev c => exact absurd hwf (by simp [SeqWF])
    | list l => exact absurd hwf (by simp [SeqWF])
    | vector l => exact absurd hwf (by simp [SeqWF])
    | mapv l => exact absurd hwf (by simp [SeqWF])
    | func a b c d e => exact absurd hwf (by simp [SeqWF])
    | atom a => exact absurd hwf (by simp [SeqWF])
    | hostNil => exact absurd hwf (by simp [SeqWF])
  | succ n ih =>
    intro s hcd hwf
    cases s with
    | concatenation seqs =>
      cases seqs with
      | nil => exact absurd hwf (by simp [SeqWF])
      | cons s0 rest =>
        have hwf' : SeqWFList (s0 :: rest) := by simpa [SeqWF] using hwf
        simp only [SeqWFList] at hwf'
        have hs0 : SeqWF s0 ∧ FirstStep s0 := hwf'.1
        have hrest : SeqWFList rest := hwf'.2
        have hcd0 : cd s0 ≤ cdList (s0 :: rest) := cdList_le_of_mem (by simp)
        have hcds : cd (.concatenation (s0 :: rest)) = 1 + cdList (s0 :: rest) := by
          simp [cd]
        -- first member's next
        obtain ⟨r0, hr0, _, hstep0, _⟩ := ih s0 (by omega) hs0.1
        obtain ⟨h0, t0, hfs⟩ := hs0.2
        rw [hfs] at hr0
        obtain rfl : r0 = .step h0 t0 := by
          cases hr0
          rfl
        obtain ⟨hwf_t0, hcd_t0⟩ := hstep0 h0 t0 rfl
        -- tail's next
        obtain ⟨r1, hr1, hnf1, hstep1, _⟩ := ih t0 (by omega) hwf_t0
        -- compute
        rw [hcds]
        have hm0 : seqNextF (1 + cdList (s0 :: rest)) s0 = some (.step h0 t0) :=
          seqNextF_mono hfs (by omega)
        have hm1 : seqNextF (1 + cdList (s0 :: rest)) t0 = some r1 :=
          seqNextF_mono hr1 (by omega)
        cases r1 with
        | fault => exact absurd rfl hnf1
        | empty =>
          cases rest with
          | nil =>
            refine ⟨.step h0 .nilv, ?_, by simp, ?_, by simp⟩
            · simp only [seqNextF, hm0, hm1]
            · intro h' t' he
              cases he
              exact ⟨trivial, by simp [cd]⟩
          | cons s1 rest2 =>
            cases rest2 with
            | nil =>
              refine ⟨.step h0 s1, ?_, by simp, ?_, by simp⟩
              · simp only [seqNextF, hm0, hm1]
              · intro h' t' he
                cases he
                have hr1' : (SeqWF s1 ∧ FirstStep s1) ∧ SeqWFList [] := by
                  simpa only [SeqWFList] using hrest
                have : SeqWF s1 := hr1'.1.1
                refine ⟨this, ?_⟩
                have : cd s1 ≤ cdList (s0 :: [s1]) := cdList_le_of_mem (by simp)
                simp [cd]
                omega
            | cons s2 rest3 =>
              refine ⟨.step h0 (.concatenation (s1 :: s2 :: rest3)), ?_, by simp, ?_, by simp⟩
              · simp only [seqNextF, hm0, hm1]
              · intro h' t' he
                cases he
                constructor
                · simp only [SeqWF]
                  exact ⟨by simp, hrest⟩
                · simp only [cd, cdList]
                  omega
        | step h1 t1 =>
          refine ⟨.step h0 (.concatenation (t0 :: rest)), ?_, by simp, ?_, by simp⟩
          · simp only [seqNextF, hm0, hm1]
          · intro h' t' he
            cases he
            constructor
            · simp only [SeqWF]
              refine ⟨by simp, ?_⟩
              simp only [SeqWFList]
              refine ⟨⟨hwf_t0, ?_⟩, hrest⟩
              exact ⟨h1, t1, seqNextF_mono hr1 (by omega)⟩
            · simp only [cd, cdList] at hcd ⊢
              omega
    | nilv => exact ⟨.empty, rfl, by simp, by simp, by simp⟩
    | sliceSeq items =>
      cases items with
      | nil => exact ⟨.empty, rfl, by simp, by simp, by simp⟩
      | cons h t =>
        refine ⟨.step h (.sliceSeq t), rfl, by simp, ?_, by simp⟩
        intro h' t' he
        cases he
        exact ⟨trivial, le_refl _⟩
    | listIteratorSeq items i =>
      cases hg : items[i]? with
      | none =>
        refine ⟨.empty, ?_, by simp, by simp, by simp⟩
        simp [seqNextF, hg]
      | some x =>
        refine ⟨.step x (.listIteratorSeq items (i + 1)), ?_, by simp, ?_, by simp⟩
        · simp [seqNextF, hg]
        · intro h' t' he
          cases he
          exact ⟨trivial, le_refl _⟩
    | rangev l u st nv fin =>
      by_cases hf : fin ∧ u ≤ nv
      · refine ⟨.empty, ?_, by simp, by simp, by simp⟩
        simp [seqNextF, hf]
      · refine ⟨.step (.integer nv) (.rangev l u st (wrap64 (nv + st)) fin), ?_, by simp, ?_, by simp⟩
        · simp [seqNextF, hf]
        · intro h' t' he
          cases he
          exact ⟨trivial, le_refl _⟩
    | consCell hd tl =>
      refine ⟨.step hd tl, rfl, by simp, ?_, by simp⟩
      intro h' t' he
      cases he
      exact ⟨hwf, le_refl _⟩
    | integer i => exact absurd hwf (by simp [SeqWF])
    | strv s => exact absurd hwf (by simp [SeqWF])
    | symbol s => exact absurd hwf (by simp [SeqWF])
    | keyword s => exact absurd hwf (by simp [SeqWF])
    | boolean b => exact absurd hwf (by simp [SeqWF])
    | runev c => exact absurd hwf (by simp [SeqWF])
    | list l => exact absurd hwf (by simp [SeqWF])
    | vector l => exact absurd hwf (by simp [SeqWF])
    | mapv l => exact absurd hwf (by simp [SeqWF])
    | func a b c d e => exact absurd hwf (by simp [SeqWF])
    | atom a => exact absurd hwf (by simp [SeqWF])
    | hostNil => exact absurd hwf (by simp [SeqWF])

theorem seqF_wf {f : Nat} {v s : MalType} (hv : v.isSeqI = true → SeqWF v)
    (h : seqF f v = some (.ok s)) : SeqWF s := by
  unfold seqF at h
  cases hc : (if v.isSeqI then some v else seqOf v) with
  | none => rw [hc] at h; cases h
  | some s0 =>
    rw [hc] at h
    simp only at h
    cases hn : seqNextF f s0 with
    | none => rw [hn] at h; cases h
    | some r =>
      rw [hn] at h
      cases r with
      | fault => cases h
      | empty =>
        cases h
        simp [SeqWF]
      | step a b =>
        cases h
        by_cases hsq : v.isSeqI
        · rw [if_pos hsq] at hc
          cases hc
          exact hv hsq
        · rw [if_neg hsq] at hc
          cases v with
          | list items => cases hc; simp [SeqWF]
          | vector items => cases hc; simp [SeqWF]
          | mapv entries =>
            cases entries with
            | nil => simp [seqOf] at hc; cases hc; simp [SeqWF]
            | cons kv rest =>
              simp only [seqOf, List.map_cons] at hc
              cases hc
              simp [SeqWF]
          | nilv => simp [MalType.isSeqI] at hsq
          | sliceSeq items => simp [MalType.isSeqI] at hsq
          | listIteratorSeq items i => simp [MalType.isSeqI] at hsq
          | consCell a b => simp [MalType.isSeqI] at hsq
          | concatenation seqs => simp [MalType.isSeqI] at hsq
          | rangev a b c d e => simp [MalType.isSeqI] at hsq
          | integer i => simp [seqOf] at hc
          | strv t => simp [seqOf] at hc
          | symbol t => simp [seqOf] at hc
          | keyword t => simp [seqOf] at hc
          | boolean t => simp [seqOf] at hc
          | runev t => simp [seqOf] at hc
          | func a b c d e => simp [seqOf] at hc
          | atom a => simp [seqOf] at hc
          | hostNil => simp [seqOf] at hc

theorem firstStep_of_step {s h t : MalType} {g : Nat} (hwf : SeqWF s)
    (hst : seqNextF g s = some (.step h t)) : FirstStep s := by
  obtain ⟨r, hr, _, _, _⟩ := seqWF_next (cd s) s (le_refl _) hwf
  have h1 := seqNextF_mono hr (le_max_right g (cd s + 1))
  have h2 := seqNextF_mono hst (le_max_left g (cd s + 1))
  rw [h1] at h2
  cases h2
  exact ⟨h, t, hr⟩

theorem concatSeqsF_wf (f : Nat) : ∀ (values seqs : List MalType),
    (∀ v ∈ values, v.isSeqI = true → SeqWF v) →
    concatSeqsF f values = some (.ok seqs) → SeqWFList seqs := by
  intro values
  induction values with
  | nil =>
    intro seqs _ h
    simp only [concatSeqsF] at h
    cases h
    simp [SeqWFList]
  | cons v rest ih =>
    intro seqs hall h
    simp only [concatSeqsF] at h
    cases hsf : seqF f v with
    | none => rw [hsf] at h; cases h
    | some rs =>
      rw [hsf] at h
      cases rs with
      | fault => cases h
      | err e' => cases h
      | ok s =>
        simp only at h
        cases hn : seqNextF f s with
        | none => rw [hn] at h; cases h
        | some rn =>
          rw [hn] at h
          cases rn with
          | fault => cases h
          | empty => exact ih seqs (fun u hu => hall u (List.mem_cons_of_mem _ hu)) h
          | step h0 t0 =>
            simp only at h
            cases hcr : concatSeqsF f rest with
            | none => rw [hcr] at h; cases h
            | some rc =>
              rw [hcr] at h
              cases rc with
              | fault => cases h
              | err e' => cases h
              | ok seqs2 =>
                cases h
                have hwf_s : SeqWF s :=
                  seqF_wf (hall v (List.mem_cons_self _ _)) hsf
                simp only [SeqWFList]
                exact ⟨⟨hwf_s, firstStep_of_step hwf_s hn⟩,
                  ih seqs2 (fun u hu => hall u (List.mem_cons_of_mem _ hu)) hcr⟩

/-- Claim C8: every Concatenation the `Concat` operation constructs (it
builds one exactly when at least two non-empty member seqs remain) has only
well-formed, non-empty member sequences; under that invariant
`Concatenation.Next` never faults — the access of the first member succeeds
and a non-empty step (a head and a tail) is always returned.  All-empty
inputs yield an empty List and a single non-empty member is returned
directly. -/
theorem claim_C8 :
    (∀ f values seqs, (∀ v ∈ values, v.isSeqI = true → SeqWF v) →
      concatSeqsF f values = some (.ok seqs) → 2 ≤ seqs.length →
      concatF f values = some (.ok (.concatenation seqs)) ∧ SeqWFList seqs) ∧
    (∀ seqs, seqs ≠ [] → SeqWFList seqs →
      ∃ h t, seqNextF (cd (.concatenation seqs) + 1) (.concatenation seqs) =
        some (.step h t)) ∧
    (∀ f values, concatSeqsF f values = some (.ok []) →
      concatF f values = some (.ok (.list []))) ∧
    (∀ f values s, concatSeqsF f values = some (.ok [s]) →
      concatF f values = some (.ok s)) := by
  refine ⟨?_, ?_, ?_, ?_⟩
  · intro f values seqs hall hcs hlen
    refine ⟨?_, concatSeqsF_wf f values seqs hall hcs⟩
    simp only [concatF, hcs]
    match seqs, hlen with
    | s1 :: s2 :: rest, _ => rfl
  · intro seqs hne hwf
    have hwfc : SeqWF (.concatenation seqs) := by
      simp only [SeqWF]
      exact ⟨hne, hwf⟩
    obtain ⟨r, hr, _, _, hconc⟩ :=
      seqWF_next (cd (.concatenation seqs)) _ (le_refl _) hwfc
    obtain ⟨h, t, rfl⟩ := hconc seqs rfl
    exact ⟨h, t, hr⟩
  · intro f values h
    simp only [concatF, h]
  · intro f values s h
    simp only [concatF, h]

/-- Witness for C8 on concrete inputs: two non-empty lists and one empty
list concatenate to a well-formed two-member Concatenation whose `Next` is a
step; all-empty inputs give the empty list; a single survivor passes
through. -/
theorem claim_C8_witness :
    (concatF 9 [.list [.integer 1], .list [], .list [.integer 2]] =
      some (.ok (.concatenation
        [.listIteratorSeq [.integer 1] 0, .listIteratorSeq [.integer 2] 0])) ∧
     SeqWFList [.listIteratorSeq [.integer 1] 0, .listIteratorSeq [.integer 2] 0]) ∧
    (∃ h t, seqNextF
        (cd (.concatenation [.listIteratorSeq [.integer 1] 0, .listIteratorSeq [.integer 2] 0]) + 1)
        (.concatenation [.listIteratorSeq [.integer 1] 0, .listIteratorSeq [.integer 2] 0]) =
      some (.step h t)) ∧
    concatF 9 [.list []] = some (.ok (.list [])) ∧
    concatF 9 [.list [.integer 1], .list []] =
      some (.ok (.listIteratorSeq [.integer 1] 0)) := by
  have hall : ∀ v ∈ [MalType.list [.integer 1], .list [], .list [.integer 2]],
      v.isSeqI = true → SeqWF v := by
    intro v hv hs
    fin_cases hv <;> simp [MalType.isSeqI] at hs
  have h1 := claim_C8.1 9 [.list [.integer 1], .list [], .list [.integer 2]]
    [.listIteratorSeq [.integer 1] 0, .listIteratorSeq [.integer 2] 0]
    hall (by rfl) (by decide)
  refine ⟨h1, claim_C8.2.1 _ (by simp) h1.2, claim_C8.2.2.1 9 _ (by rfl),
    claim_C8.2.2.2 9 _ _ (by rfl)⟩

/-! ### Claim C1: structural equality vs hashing

Fuel-monotonicity and determinism for the `types.Equals` family and the
`hashAnyValue` byte-stream family. -/

theorem equalsF_family_mono : ∀ f : Nat,
    (∀ a b r, equalsF f a b = some r → ∀ g, f ≤ g → equalsF g a b = some r) ∧
    (∀ sa sb r, seqEqF f sa sb = some r → ∀ g, f ≤ g → seqEqF g sa sb = some r) ∧
    (∀ es1 es2 r, mapIterF f es1 es2 = some r → ∀ g, f ≤ g → mapIterF g es1 es2 = some r) ∧
    (∀ es k r, lookupF f es k = some r → ∀ g, f ≤ g → lookupF g es k = some r) := by
  intro f
  induction f with
  | zero =>
    refine ⟨?_, ?_, ?_, ?_⟩ <;> intro _ _ _ h <;> simp [equalsF, seqEqF, mapIterF, lookupF] at h
  | succ f ih =>
    obtain ⟨ihE, ihS, ihM, ihL⟩ := ih
    refine ⟨?_, ?_, ?_, ?_⟩
    · intro a b r h g hg
      obtain ⟨g, rfl⟩ : ∃ g', g = g' + 1 := ⟨g - 1, by omega⟩
      have hfg : f ≤ g := by omega
      by_cases hs : a.isSimple
      · simp only [equalsF] at h ⊢
        simpa [hs] using h
      · simp only [equalsF, hs, Bool.false_eq_true, if_false] at h ⊢
        cases a <;>
          first
          | exact h
          | (rename_i es1
             cases b <;>
               first
               | exact h
               | (rename_i es2
                  by_cases hl : es1.length = es2.length
                  · simp only [hl, if_pos] at h ⊢
                    exact ihM es1 es2 r h _ hfg
                  · simpa [hl] using h))
          | (by_cases hb : b.isSequentialI
             · rw [if_pos hb] at h ⊢
               cases hob : seqOf b with
               | none => rw [hob] at h; exact h
               | some sb => rw [hob] at h; exact ihS _ sb r h _ hfg
             · rw [if_neg hb] at h ⊢
               exact h)
    · intro sa sb r h g hg
      obtain ⟨g, rfl⟩ : ∃ g', g = g' + 1 := ⟨g - 1, by omega⟩
      have hfg : f ≤ g := by omega
      simp only [seqEqF] at h ⊢
      cases hna : seqNextF f sa with
      | none => rw [hna] at h; cases h
      | some r1 =>
        rw [hna] at h
        rw [seqNextF_mono hna hfg]
        cases r1 with
        | fault => exact h
        | empty =>
          cases hnb : seqNextF f sb with
          | none => rw [hnb] at h; cases h
          | some r2 =>
            rw [hnb] at h
            rw [seqNextF_mono hnb hfg]
            cases r2 <;> exact h
        | step h1 t1 =>
          cases hnb : seqNextF f sb with
          | none => rw [hnb] at h; cases h
          | some r2 =>
            rw [hnb] at h
            rw [seqNextF_mono hnb hfg]
            cases r2 with
            | fault => exact h
            | empty => exact h
            | step h2 t2 =>
              simp only at h ⊢
              cases he : equalsF f h1 h2 with
              | none => rw [he] at h; cases h
              | some re =>
                rw [he] at h
                rw [ihE h1 h2 re he g hfg]
                cases re with
                | fault => exact h
                | err e' => exact h
                | ok bb =>
                  cases bb with
                  | false => exact h
                  | true => exact ihS t1 t2 r h g hfg
    · intro es1 es2 r h g hg
      obtain ⟨g, rfl⟩ : ∃ g', g = g' + 1 := ⟨g - 1, by omega⟩
      have hfg : f ≤ g := by omega
      cases es1 with
      | nil => simpa [mapIterF] using h
      | cons kv rest =>
        obtain ⟨k, v⟩ := kv
        simp only [mapIterF] at h ⊢
        cases hlk : lookupF f es2 k with
        | none => rw [hlk] at h; cases h
        | some rl =>
          rw [hlk] at h
          rw [ihL es2 k rl hlk g hfg]
          cases rl with
          | fault => exact h
          | err e' => exact h
          | ok mo =>
            cases mo with
            | none => exact h
            | some v2 =>
              simp only at h ⊢
              cases he : equalsF f v v2 with
              | none => rw [he] at h; cases h
              | some re =>
                rw [he] at h
                rw [ihE v v2 re he g hfg]
                cases re with
                | fault => exact h
                | err e' => exact h
                | ok bb =>
                  cases bb with
                  | false => exact h
                  | true => exact ihM rest es2 r h g hfg
    · intro es k r h g hg
      obtain ⟨g, rfl⟩ : ∃ g', g = g' + 1 := ⟨g - 1, by omega⟩
      have hfg : f ≤ g := by omega
      cases es with
      | nil => simpa [lookupF] using h
      | cons kv rest =>
        obtain ⟨ek, ev⟩ := kv
        simp only [lookupF] at h ⊢
        cases he : equalsF f k ek with
        | none => rw [he] at h; cases h
        | some re =>
          rw [he] at h
          rw [ihE k ek re he g hfg]
          cases re with
          | fault => exact h
          | err e' => exact h
          | ok bb =>
            cases bb with
            | false => exact ihL rest k r h g hfg
            | true => exact h

theorem streamF_family_mono : ∀ f : Nat,
    (∀ a r, streamF f a = some r → ∀ g, f ≤ g → streamF g a = some r) ∧
    (∀ s r, streamSeqF f s = some r → ∀ g, f ≤ g → streamSeqF g s = some r) := by
  intro f
  induction f with
  | zero =>
    refine ⟨?_, ?_⟩ <;> intro _ _ h <;> simp [streamF, streamSeqF] at h
  | succ f ih =>
    obtain ⟨ihA, ihS⟩ := ih
    refine ⟨?_, ?_⟩
    · intro a r h g hg
      obtain ⟨g, rfl⟩ : ∃ g', g = g' + 1 := ⟨g - 1, by omega⟩
      have hfg : f ≤ g := by omega
      simp only [streamF] at h ⊢
      by_cases hs : a.isSimple
      · simpa [hs] using h
      · simp only [hs, Bool.false_eq_true, if_false] at h ⊢
        by_cases hq : a.isSequentialI
        · rw [if_pos hq] at h ⊢
          cases ho : seqOf a with
          | none => rw [ho] at h; exact h
          | some sa => rw [ho] at h; exact ihS sa r h g hfg
        · rw [if_neg hq] at h ⊢
          cases a <;>
            first
            | exact h
            | (rename_i es
               simp only at h ⊢
               cases ho : seqOf (MalType.mapv es) with
               | none => rw [ho] at h; exact h
               | some sa =>
                 rw [ho] at h
                 simp only at h ⊢
                 cases hss : streamSeqF f sa with
                 | none => rw [hss] at h; cases h
                 | some rs =>
                   rw [hss] at h
                   rw [ihS sa rs hss g hfg]
                   cases rs <;> exact h)
    · intro s r h g hg
      obtain ⟨g, rfl⟩ : ∃ g', g = g' + 1 := ⟨g - 1, by omega⟩
      have hfg : f ≤ g := by omega
      simp only [streamSeqF] at h ⊢
      cases hn : seqNextF f s with
      | none => rw [hn] at h; cases h
      | some r1 =>
        rw [hn] at h
        rw [seqNextF_mono hn hfg]
        cases r1 with
        | fault => exact h
        | empty => exact h
        | step hd t =>
          simp only at h ⊢
          cases hh : streamF f hd with
          | none => rw [hh] at h; cases h
          | some rh =>
            rw [hh] at h
            rw [ihA hd rh hh g hfg]
            cases rh with
            | fault => exact h
            | err e' => exact h
            | ok bs =>
              simp only at h ⊢
              cases ht : streamSeqF f t with
              | none => rw [ht] at h; cases h
              | some rt =>
                rw [ht] at h
                rw [ihS t rt ht g hfg]
                cases rt <;> exact h

theorem equalsF_mono {f g : Nat} {a b : MalType} {r : Res Bool}
    (h : equalsF f a b = some r) (hfg : f ≤ g) : equalsF g a b = some r :=
  (equalsF_family_mono f).1 a b r h g hfg

theorem seqEqF_mono {f g : Nat} {sa sb : MalType} {r : Res Bool}
    (h : seqEqF f sa sb = some r) (hfg : f ≤ g) : seqEqF g sa sb = some r :=
  (equalsF_family_mono f).2.1 sa sb r h g hfg

theorem mapIterF_mono {f g : Nat} {es1 es2 : List (MalType × MalType)} {r : Res Bool}
    (h : mapIterF f es1 es2 = some r) (hfg : f ≤ g) : mapIterF g es1 es2 = some r :=
  (equalsF_family_mono f).2.2.1 es1 es2 r h g hfg

theorem lookupF_mono {f g : Nat} {es : List (MalType × MalType)} {k : MalType}
    {r : Res (Option MalType)}
    (h : lookupF f es k = some r) (hfg : f ≤ g) : lookupF g es k = some r :=
  (equalsF_family_mono f).2.2.2 es k r h g hfg

theorem streamF_mono {f g : Nat} {a : MalType} {r : Res (List Nat)}
    (h : streamF f a = some r) (hfg : f ≤ g) : streamF g a = some r :=
  (streamF_family_mono f).1 a r h g hfg

theorem streamSeqF_mono {f g : Nat} {s : MalType} {r : Res (List Nat)}
    (h : streamSeqF f s = some r) (hfg : f ≤ g) : streamSeqF g s = some r :=
  (streamF_family_mono f).2 s r h g hfg

theorem equalsF_det {f g : Nat} {a b : MalType} {r1 r2 : Res Bool}
    (h1 : equalsF f a b = some r1) (h2 : equalsF g a b = some r2) : r1 = r2 := by
  rcases Nat.le_total f g with hle | hle
  · have := equalsF_mono h1 hle
    rw [this] at h2
    exact Option.some.inj h2
  · have := equalsF_mono h2 hle
    rw [this] at h1
    exact (Option.some.inj h1).symm

theorem streamF_det {f g : Nat} {a : MalType} {r1 r2 : Res (List Nat)}
    (h1 : streamF f a = some r1) (h2 : streamF g a = some r2) : r1 = r2 := by
  rcases Nat.le_total f g with hle | hle
  · have := streamF_mono h1 hle
    rw [this] at h2
    exact Option.some.inj h2
  · have := streamF_mono h2 hle
    rw [this] at h1
    exact (Option.some.inj h1).symm

theorem lexLtBytes_irrefl : ∀ s, lexLtBytes s s = false := by
  intro s
  induction s with
  | nil => rfl
  | cons a as ih => simp [lexLtBytes, ih]

theorem lexLtBytes_trans : ∀ {a b c : List Nat},
    lexLtBytes a b = true → lexLtBytes b c = true → lexLtBytes a c = true := by
  intro a
  induction a with
  | nil =>
    intro b c hab hbc
    cases b with
    | nil => simp [lexLtBytes] at hab
    | cons y ys =>
      cases c with
      | nil => simp [lexLtBytes] at hbc
      | cons z zs => simp [lexLtBytes]
  | cons x xs ih =>
    intro b c hab hbc
    cases b with
    | nil => simp [lexLtBytes] at hab
    | cons y ys =>
      cases c with
      | nil => simp [lexLtBytes] at hbc
      | cons z zs =>
        simp only [lexLtBytes, Bool.or_eq_true, Bool.and_eq_true, decide_eq_true_eq] at hab hbc ⊢
        rcases hab with h1 | ⟨he1, h1⟩ <;> rcases hbc with h2 | ⟨he2, h2⟩
        · exact Or.inl (lt_trans h1 h2)
        · exact Or.inl (he2 ▸ h1)
        · exact Or.inl (he1 ▸ h2)
        · exact Or.inr ⟨he1.trans he2, ih h1 h2⟩

theorem lexLtBytes_asymm {a b : List Nat} (h : lexLtBytes a b = true) :
    lexLtBytes b a = false := by
  by_contra hc
  have hba : lexLtBytes b a = true := by
    cases hx : lexLtBytes b a
    · exact absurd hx hc
    · rfl
  have := lexLtBytes_trans h hba
  rw [lexLtBytes_irrefl] at this
  cases this

theorem lexLtBytes_ne {a b : List Nat} (h : lexLtBytes a b = true) : a ≠ b := by
  rintro rfl
  rw [lexLtBytes_irrefl] at h
  cases h

theorem valueEquals_symm : ∀ a b, valueEquals a b = valueEquals b a := by
  intro a b
  cases a <;> cases b <;> simp [valueEquals] <;> exact eq_comm

theorem valueEquals_simple : ∀ a b, valueEquals a b = true → b.isSimple = true := by
  intro a b h
  cases a <;> cases b <;> simp_all [valueEquals, MalType.isSimple]

theorem hashBytes_consistent : ∀ a b, valueEquals a b = true → hashBytes a = hashBytes b := by
  intro a b h
  cases a <;> cases b <;> simp_all [valueEquals, hashBytes]

/-- A seq value traverses (via repeated `Next`) to exactly this list of
elements; fuel is existential per step. -/
inductive Traverses : MalType → List MalType → Prop where
  | empty {s : MalType} (f : Nat) (h : seqNextF f s = some .empty) : Traverses s []
  | step {s hd t : MalType} (f : Nat) (hs : seqNextF f s = some (.step hd t))
      {l : List MalType} (ht : Traverses t l) : Traverses s (hd :: l)

theorem seqNextF_det {f g : Nat} {s : MalType} {r1 r2 : NextRes}
    (h1 : seqNextF f s = some r1) (h2 : seqNextF g s = some r2) : r1 = r2 := by
  rcases Nat.le_total f g with hle | hle
  · have := seqNextF_mono h1 hle
    rw [this] at h2
    exact Option.some.inj h2
  · have := seqNextF_mono h2 hle
    rw [this] at h1
    exact (Option.some.inj h1).symm

theorem traverses_det {s : MalType} {l1 : List MalType} (h1 : Traverses s l1) :
    ∀ {l2 : List MalType}, Traverses s l2 → l1 = l2 := by
  induction h1 with
  | empty f h =>
    intro l2 h2
    cases h2 with
    | empty g hg => rfl
    | step g hs ht => cases seqNextF_det h hs
  | step f hs ht ih =>
    intro l2 h2
    cases h2 with
    | empty g hg => cases seqNextF_det hs hg
    | step g hs2 ht2 =>
      cases seqNextF_det hs hs2
      rw [ih ht2]

theorem traverses_sliceSeq : ∀ items : List MalType, Traverses (.sliceSeq items) items := by
  intro items
  induction items with
  | nil => exact .empty 1 rfl
  | cons h t ih => refine .step 1 ?_ ih; rfl

theorem traverses_listIterator (items : List MalType) :
    ∀ i, Traverses (.listIteratorSeq items i) (items.drop i) := by
  have key : ∀ n i, items.length - i ≤ n → Traverses (.listIteratorSeq items i) (items.drop i) := by
    intro n
    induction n with
    | zero =>
      intro i hle
      have hlen : items.length ≤ i := by omega
      rw [List.drop_eq_nil_of_le hlen]
      refine .empty 1 ?_
      simp [seqNextF, List.getElem?_eq_none hlen]
    | succ n ih =>
      intro i hle
      cases hx : items[i]? with
      | none =>
        have hlen : items.length ≤ i := by
          by_contra hc
          push_neg at hc
          rw [List.getElem?_eq_getElem hc] at hx
          cases hx
        rw [List.drop_eq_nil_of_le hlen]
        refine .empty 1 ?_
        simp [seqNextF, hx]
      | some x =>
        have hlt : i < items.length := by
          by_contra hc
          push_neg at hc
          rw [List.getElem?_eq_none hc] at hx
          cases hx
        have hxv : items[i] = x := by
          rw [List.getElem?_eq_getElem hlt] at hx
          exact Option.some.inj hx
        have hdrop : items.drop i = x :: items.drop (i + 1) := by
          rw [List.drop_eq_getElem_cons hlt, hxv]
        rw [hdrop]
        refine .step 1 ?_ (ih (i + 1) (by omega))
        simp [seqNextF, hx]
  intro i
  exact key items.length i (by omega)

/-- The value's `hashAnyValue` byte stream is defined (all traversals are
finite and panic-free). -/
def Streamable (a : MalType) : Prop := ∃ f s, streamF f a = some (.ok s)

/-- The canonical entry list of an `immutable.Map` with no hash-stream
collisions among its keys: key streams strictly increase in trie iteration
order (so keys are pairwise distinct as byte streams). -/
def StrictKeys (entries : List (MalType × MalType)) : Prop :=
  ∃ ss : List (List Nat),
    List.Forall₂ (fun kv s => ∃ f, streamF f kv.1 = some (.ok s)) entries ss ∧
    List.Chain' (fun s1 s2 => lexLtBytes s1 s2 = true) ss

mutual
/-- Well-formed value: every Map subterm holds its entries in canonical
strictly-sorted key-hash order (the reachable-map invariant, restricted to
collision-free key sets). -/
def WFS : MalType → Prop
  | .list items => WFSList items
  | .vector items => WFSList items
  | .sliceSeq items => WFSList items
  | .listIteratorSeq items _ => WFSList items
  | .consCell h t => WFS h ∧ WFS t
  | .concatenation seqs => WFSList seqs
  | .mapv entries => WFSPairs entries ∧ StrictKeys entries
  | _ => True

/-- All members of the list are well-formed. -/
def WFSList : List MalType → Prop
  | [] => True
  | x :: rest => WFS x ∧ WFSList rest

/-- All keys and values of the entry list are well-formed. -/
def WFSPairs : List (MalType × MalType) → Prop
  | [] => True
  | kv :: rest => WFS kv.1 ∧ WFS kv.2 ∧ WFSPairs rest
end

theorem wfsList_mem : ∀ {l : List MalType}, WFSList l → ∀ {x}, x ∈ l → WFS x := by
  intro l
  induction l with
  | nil => intro _ x hx; cases hx
  | cons h t ih =>
    intro hwf x hx
    rw [WFSList] at hwf
    rcases List.mem_cons.mp hx with rfl | hx
    · exact hwf.1
    · exact ih hwf.2 hx

theorem wfsPairs_mem : ∀ {es : List (MalType × MalType)}, WFSPairs es →
    ∀ {kv}, kv ∈ es → WFS kv.1 ∧ WFS kv.2 := by
  intro es
  induction es with
  | nil => intro _ kv hkv; cases hkv
  | cons h t ih =>
    intro hwf kv hkv
    rw [WFSPairs] at hwf
    rcases List.mem_cons.mp hkv with rfl | hkv
    · exact ⟨hwf.1, hwf.2.1⟩
    · exact ih hwf.2.2 hkv

theorem wfsList_of_pairs : ∀ {es : List (MalType × MalType)}, WFSPairs es →
    WFSList (es.map fun kv => MalType.vector [kv.1, kv.2]) := by
  intro es
  induction es with
  | nil => intro _; rw [List.map_nil, WFSList]; trivial
  | cons h t ih =>
    intro hwf
    rw [WFSPairs] at hwf
    rw [List.map_cons, WFSList]
    refine ⟨?_, ih hwf.2.2⟩
    show WFSList [h.1, h.2]
    rw [WFSList, WFSList, WFSList]
    exact ⟨hwf.1, hwf.2.1, trivial⟩

theorem wfs_next : ∀ (f : Nat) (s hd t : MalType), WFS s →
    seqNextF f s = some (.step hd t) → WFS hd ∧ WFS t := by
  intro f
  induction f with
  | zero => intro s hd t _ h; simp [seqNextF] at h
  | succ f ih =>
    intro s hd t hwf h
    cases s with
    | integer i => simp [seqNextF] at h
    | strv s => simp [seqNextF] at h
    | symbol n => simp [seqNextF] at h
    | keyword n => simp [seqNextF] at h
    | boolean b => simp [seqNextF] at h
    | nilv => simp [seqNextF] at h
    | runev c => simp [seqNextF] at h
    | list items => simp [seqNextF] at h
    | vector items => simp [seqNextF] at h
    | mapv es => simp [seqNextF] at h
    | func a b c d e => simp [seqNextF] at h
    | atom i => simp [seqNextF] at h
    | hostNil => simp [seqNextF] at h
    | sliceSeq items =>
      cases items with
      | nil => simp [seqNextF] at h
      | cons x rest =>
        simp only [seqNextF, Option.some.injEq, NextRes.step.injEq] at h
        obtain ⟨rfl, rfl⟩ := h
        rw [WFS, WFSList] at hwf
        refine ⟨hwf.1, ?_⟩
        rw [WFS]
        exact hwf.2
    | listIteratorSeq items i =>
      simp only [seqNextF] at h
      rw [WFS] at hwf
      cases hx : items.get? i with
      | none => rw [hx] at h; cases h
      | some x =>
        rw [hx] at h
        simp only [Option.some.injEq, NextRes.step.injEq] at h
        obtain ⟨rfl, rfl⟩ := h
        rw [List.get?_eq_getElem?] at hx
        have hlt : i < items.length := by
          by_contra hc
          push_neg at hc
          rw [List.getElem?_eq_none hc] at hx
          cases hx
        rw [List.getElem?_eq_getElem hlt] at hx
        constructor
        · refine wfsList_mem hwf ?_
          rw [← Option.some.inj hx]
          exact List.getElem_mem hlt
        · rw [WFS]
          exact hwf
    | consCell h0 t0 =>
      simp only [seqNextF, Option.some.injEq, NextRes.step.injEq] at h
      obtain ⟨rfl, rfl⟩ := h
      rw [WFS] at hwf
      exact ⟨hwf.1, hwf.2⟩
    | rangev l u st nv fin =>
      simp only [seqNextF] at h
      by_cases hc : fin = true ∧ u ≤ nv
      · rw [if_pos hc] at h; cases h
      · rw [if_neg hc] at h
        simp only [Option.some.injEq, NextRes.step.injEq] at h
        obtain ⟨rfl, rfl⟩ := h
        exact ⟨trivial, trivial⟩
    | concatenation seqs =>
      cases seqs with
      | nil => simp [seqNextF] at h
      | cons s0 rest =>
        rw [WFS, WFSList] at hwf
        simp only [seqNextF] at h
        cases h0 : seqNextF f s0 with
        | none => rw [h0] at h; cases h
        | some r0 =>
          rw [h0] at h
          cases r0 with
          | fault => cases h
          | empty => cases h
          | step h0v t0 =>
            obtain ⟨hh0, ht0⟩ := ih s0 h0v t0 hwf.1 h0
            simp only at h
            cases h1 : seqNextF f t0 with
            | none => rw [h1] at h; cases h
            | some r1 =>
              rw [h1] at h
              cases r1 with
              | fault => cases h
              | empty =>
                cases rest with
                | nil =>
                  simp only [Option.some.injEq, NextRes.step.injEq] at h
                  obtain ⟨rfl, rfl⟩ := h
                  exact ⟨hh0, trivial⟩
                | cons s1 rest2 =>
                  cases rest2 with
                  | nil =>
                    simp only [Option.some.injEq, NextRes.step.injEq] at h
                    obtain ⟨rfl, rfl⟩ := h
                    have h2 := hwf.2
                    rw [WFSList] at h2
                    exact ⟨hh0, h2.1⟩
                  | cons s2 rest3 =>
                    simp only [Option.some.injEq, NextRes.step.injEq] at h
                    obtain ⟨rfl, rfl⟩ := h
                    refine ⟨hh0, ?_⟩
                    rw [WFS]
                    exact hwf.2
              | step h1v t1 =>
                simp only [Option.some.injEq, NextRes.step.injEq] at h
                obtain ⟨rfl, rfl⟩ := h
                refine ⟨hh0, ?_⟩
                rw [WFS, WFSList]
                exact ⟨ht0, hwf.2⟩

theorem wfs_traverses {s : MalType} {elems : List MalType} (h : Traverses s elems)
    (hwf : WFS s) : ∀ e ∈ elems, WFS e := by
  induction h with
  | empty f he => intro e he2; cases he2
  | step f hs ht ih =>
    intro e hmem
    rename_i s' hd t l
    obtain ⟨hh, htl⟩ := wfs_next _ _ _ _ hwf hs
    rcases List.mem_cons.mp hmem with rfl | hmem
    · exact hh
    · exact ih htl e hmem

theorem wfs_seqOf : ∀ {a sa : MalType}, WFS a → seqOf a = some sa → WFS sa := by
  intro a sa hwf h
  cases a with
  | list items => cases Option.some.inj h; exact hwf
  | vector items => cases Option.some.inj h; exact hwf
  | nilv => cases Option.some.inj h; trivial
  | consCell h0 t0 => cases Option.some.inj h; exact hwf
  | concatenation seqs => cases Option.some.inj h; exact hwf
  | rangev l u st nv fin => cases Option.some.inj h; trivial
  | mapv es =>
    rw [WFS] at hwf
    have hl := wfsList_of_pairs hwf.1
    simp only [seqOf] at h
    cases hm : es.map (fun kv => MalType.vector [kv.1, kv.2]) with
    | nil => rw [hm] at h; cases Option.some.inj h; trivial
    | cons v0 vrest =>
      rw [hm] at h
      cases Option.some.inj h
      rw [hm] at hl
      rw [WFS]
      exact hl
  | _ => cases h

theorem streamSeqF_inv : ∀ (g : Nat) (s : MalType) (bs : List Nat),
    streamSeqF g s = some (.ok bs) →
    ∃ (elems : List MalType) (bss : List (List Nat)),
      Traverses s elems ∧ bs = bss.join ∧
      List.Forall₂ (fun e b => ∃ g' < g, streamF g' e = some (.ok b)) elems bss := by
  intro g
  induction g with
  | zero => intro s bs h; simp [streamSeqF] at h
  | succ g ih =>
    intro s bs h
    simp only [streamSeqF] at h
    cases hn : seqNextF g s with
    | none => rw [hn] at h; cases h
    | some r =>
      rw [hn] at h
      cases r with
      | fault => cases h
      | empty =>
        simp only [Option.some.injEq, Res.ok.injEq] at h
        subst h
        exact ⟨[], [], .empty g hn, rfl, List.Forall₂.nil⟩
      | step hd t =>
        simp only at h
        cases hh : streamF g hd with
        | none => rw [hh] at h; cases h
        | some rh =>
          rw [hh] at h
          cases rh with
          | fault => cases h
          | err e => cases h
          | ok bh =>
            simp only at h
            cases ht : streamSeqF g t with
            | none => rw [ht] at h; cases h
            | some rt =>
              rw [ht] at h
              cases rt with
              | fault => cases h
              | err e => cases h
              | ok bt =>
                simp only [Option.some.injEq, Res.ok.injEq] at h
                subst h
                obtain ⟨elems, bss, htrav, rfl, hforall⟩ := ih t bt ht
                refine ⟨hd :: elems, bh :: bss, .step g hn htrav, by simp, ?_⟩
                refine List.Forall₂.cons ⟨g, Nat.lt_succ_self g, hh⟩ ?_
                refine hforall.imp ?_
                rintro e b ⟨g', hg', hst⟩
                exact ⟨g', by omega, hst⟩

theorem streamF_vector_pair_inv : ∀ {g : Nat} {k v : MalType} {b : List Nat},
    streamF g (.vector [k, v]) = some (.ok b) →
    ∃ bk bv, b = bk ++ bv ∧ (∃ gk < g, streamF gk k = some (.ok bk)) ∧
      ∃ gv < g, streamF gv v = some (.ok bv) := by
  intro g k v b h
  cases g with
  | zero => simp [streamF] at h
  | succ g =>
    have h2 : streamSeqF g (.listIteratorSeq [k, v] 0) = some (.ok b) := by
      simpa [streamF, MalType.isSimple, MalType.isSequentialI, seqOf] using h
    obtain ⟨elems, bss, htrav, rfl, hforall⟩ := streamSeqF_inv g _ b h2
    have helems : elems = [k, v] := by
      have := traverses_det htrav (traverses_listIterator [k, v] 0)
      simpa using this
    subst helems
    cases hforall with
    | cons hk hrest =>
      cases hrest with
      | cons hv hnil =>
        cases hnil
        obtain ⟨gk, hgk, hsk⟩ := hk
        obtain ⟨gv, hgv, hsv⟩ := hv
        rename_i bk bv
        refine ⟨bk, bv, by simp, ⟨gk, by omega, hsk⟩, ⟨gv, by omega, hsv⟩⟩

theorem mapv_pairs_of_forall {g : Nat} : ∀ (es : List (MalType × MalType)) (bss : List (List Nat)),
    List.Forall₂ (fun e b => ∃ g' < g, streamF g' e = some (.ok b))
      (es.map fun kv => MalType.vector [kv.1, kv.2]) bss →
    ∃ pairs : List (List Nat × List Nat),
      List.Forall₂ (fun kv p => (∃ gk < g, streamF gk kv.1 = some (.ok p.1)) ∧
        ∃ gv < g, streamF gv kv.2 = some (.ok p.2)) es pairs ∧
      bss.join = (pairs.map fun p => p.1 ++ p.2).join := by
  intro es
  induction es with
  | nil =>
    intro bss hf
    rw [List.map_nil] at hf
    cases hf
    exact ⟨[], List.Forall₂.nil, rfl⟩
  | cons kv rest ih =>
    intro bss hf
    rw [List.map_cons] at hf
    cases hf with
    | cons hhead htail =>
      rename_i b bss'
      obtain ⟨g', hg', hsb⟩ := hhead
      obtain ⟨bk, bv, rfl, ⟨gk, hgk, hsk⟩, ⟨gv, hgv, hsv⟩⟩ := streamF_vector_pair_inv hsb
      obtain ⟨pairs, hfp, hjoin⟩ := ih bss' htail
      refine ⟨(bk, bv) :: pairs, ?_, ?_⟩
      · exact List.Forall₂.cons ⟨⟨gk, by omega, hsk⟩, ⟨gv, by omega, hsv⟩⟩ hfp
      · simp [hjoin]

theorem streamF_mapv_inv : ∀ {g : Nat} {es : List (MalType × MalType)} {s : List Nat},
    streamF g (.mapv es) = some (.ok s) →
    ∃ pairs : List (List Nat × List Nat),
      List.Forall₂ (fun kv p => (∃ gk < g, streamF gk kv.1 = some (.ok p.1)) ∧
        ∃ gv < g, streamF gv kv.2 = some (.ok p.2)) es pairs ∧
      s = 123 :: 125 :: (pairs.map fun p => p.1 ++ p.2).join := by
  intro g es s h
  cases g with
  | zero => simp [streamF] at h
  | succ g =>
    simp only [streamF, MalType.isSimple, MalType.isSequentialI, Bool.false_eq_true,
      if_false, seqOf] at h
    cases hm : es.map (fun kv => MalType.vector [kv.1, kv.2]) with
    | nil =>
      rw [hm] at h
      simp only at h
      cases hss : streamSeqF g MalType.nilv with
      | none => rw [hss] at h; cases h
      | some rs =>
        rw [hss] at h
        cases rs with
        | fault => cases h
        | err e => cases h
        | ok s' =>
          simp only [Option.some.injEq, Res.ok.injEq] at h
          obtain ⟨elems, bss, htrav, rfl, hforall⟩ := streamSeqF_inv g _ s' hss
          have helems : elems = [] := traverses_det htrav (.empty 1 (by simp [seqNextF]))
          subst helems
          cases hforall
          have hes : es = [] := List.map_eq_nil.mp hm
          subst hes
          exact ⟨[], List.Forall₂.nil, by simp [← h]⟩
    | cons v0 vrest =>
      rw [hm] at h
      simp only at h
      cases hss : streamSeqF g (MalType.sliceSeq (v0 :: vrest)) with
      | none => rw [hss] at h; cases h
      | some rs =>
        rw [hss] at h
        cases rs with
        | fault => cases h
        | err e => cases h
        | ok s' =>
          simp only [Option.some.injEq, Res.ok.injEq] at h
          obtain ⟨elems, bss, htrav, rfl, hforall⟩ := streamSeqF_inv g _ s' hss
          have helems : elems = v0 :: vrest :=
            traverses_det htrav (traverses_sliceSeq (v0 :: vrest))
          subst helems
          rw [← hm] at hforall
          obtain ⟨pairs, hfp, hjoin⟩ := mapv_pairs_of_forall es bss hforall
          refine ⟨pairs, hfp.imp ?_, ?_⟩
          · rintro kv p ⟨⟨gk, hgk, hsk⟩, ⟨gv, hgv, hsv⟩⟩
            exact ⟨⟨gk, by omega, hsk⟩, ⟨gv, by omega, hsv⟩⟩
          · rw [← h, hjoin]

theorem streamF_sequential_inv {g : Nat} {a : MalType} {s : List Nat}
    (hns : a.isSimple = false) (hsq : a.isSequentialI = true)
    (h : streamF g a = some (.ok s)) :
    ∃ g' sa, g = g' + 1 ∧ seqOf a = some sa ∧ streamSeqF g' sa = some (.ok s) := by
  cases g with
  | zero => simp [streamF] at h
  | succ g =>
    simp only [streamF, hns, Bool.false_eq_true, if_false, hsq, if_true] at h
    cases ho : seqOf a with
    | none => rw [ho] at h; cases h
    | some sa =>
      rw [ho] at h
      exact ⟨g, sa, rfl, rfl, h⟩

theorem seqEqF_true_inv : ∀ (f : Nat) (s1 s2 : MalType),
    seqEqF f s1 s2 = some (.ok true) →
    ∃ elems1 elems2, Traverses s1 elems1 ∧ Traverses s2 elems2 ∧
      List.Forall₂ (fun x y => ∃ f' < f, equalsF f' x y = some (.ok true)) elems1 elems2 := by
  intro f
  induction f with
  | zero => intro s1 s2 h; simp [seqEqF] at h
  | succ f ih =>
    intro s1 s2 h
    simp only [seqEqF] at h
    cases h1 : seqNextF f s1 with
    | none => rw [h1] at h; cases h
    | some r1 =>
      rw [h1] at h
      cases r1 with
      | fault => cases h
      | empty =>
        cases h2 : seqNextF f s2 with
        | none => rw [h2] at h; cases h
        | some r2 =>
          rw [h2] at h
          cases r2 with
          | fault => cases h
          | empty => exact ⟨[], [], .empty f h1, .empty f h2, List.Forall₂.nil⟩
          | step y t2 => cases h
      | step x t1 =>
        cases h2 : seqNextF f s2 with
        | none => rw [h2] at h; cases h
        | some r2 =>
          rw [h2] at h
          cases r2 with
          | fault => cases h
          | empty => cases h
          | step y t2 =>
            simp only at h
            cases he : equalsF f x y with
            | none => rw [he] at h; cases h
            | some re =>
              rw [he] at h
              cases re with
              | fault => cases h
              | err e => cases h
              | ok bb =>
                cases bb with
                | false => cases h
                | true =>
                  obtain ⟨elems1, elems2, ht1, ht2, hfa⟩ := ih t1 t2 h
                  refine ⟨x :: elems1, y :: elems2, .step f h1 ht1, .step f h2 ht2, ?_⟩
                  refine List.Forall₂.cons ⟨f, Nat.lt_succ_self f, he⟩ (hfa.imp ?_)
                  rintro a b ⟨f', hf', hab⟩
                  exact ⟨f', by omega, hab⟩

theorem mapIterF_true_inv : ∀ (f : Nat) (es1 es2 : List (MalType × MalType)),
    mapIterF f es1 es2 = some (.ok true) →
    ∀ kv ∈ es1, ∃ w, (∃ f' < f, lookupF f' es2 kv.1 = some (.ok (some w))) ∧
      ∃ f'' < f, equalsF f'' kv.2 w = some (.ok true) := by
  intro f
  induction f with
  | zero => intro es1 es2 h; simp [mapIterF] at h
  | succ f ih =>
    intro es1 es2 h kv hkv
    cases es1 with
    | nil => cases hkv
    | cons kv0 rest =>
      obtain ⟨k, v⟩ := kv0
      simp only [mapIterF] at h
      cases hlk : lookupF f es2 k with
      | none => rw [hlk] at h; cases h
      | some rl =>
        rw [hlk] at h
        cases rl with
        | fault => cases h
        | err e => cases h
        | ok mo =>
          cases mo with
          | none => cases h
          | some w =>
            simp only at h
            cases he : equalsF f v w with
            | none => rw [he] at h; cases h
            | some re =>
              rw [he] at h
              cases re with
              | fault => cases h
              | err e => cases h
              | ok bb =>
                cases bb with
                | false => cases h
                | true =>
                  rcases List.mem_cons.mp hkv with rfl | hkv2
                  · exact ⟨w, ⟨f, Nat.lt_succ_self f, hlk⟩, ⟨f, Nat.lt_succ_self f, he⟩⟩
                  · obtain ⟨w2, ⟨f1, hf1, hl1⟩, ⟨f2, hf2, he2⟩⟩ := ih rest es2 h kv hkv2
                    exact ⟨w2, ⟨f1, by omega, hl1⟩, ⟨f2, by omega, he2⟩⟩

theorem lookupF_some_inv : ∀ (f : Nat) (es : List (MalType × MalType)) (k w : MalType),
    lookupF f es k = some (.ok (some w)) →
    ∃ pre ky post, es = pre ++ (ky, w) :: post ∧
      (∀ kv ∈ pre, ∃ f', equalsF f' k kv.1 = some (.ok false)) ∧
      ∃ f' < f, equalsF f' k ky = some (.ok true) := by
  intro f
  induction f with
  | zero => intro es k w h; simp [lookupF] at h
  | succ f ih =>
    intro es k w h
    cases es with
    | nil => simp [lookupF] at h
    | cons kv0 rest =>
      obtain ⟨ek, ev⟩ := kv0
      simp only [lookupF] at h
      cases he : equalsF f k ek with
      | none => rw [he] at h; cases h
      | some re =>
        rw [he] at h
        cases re with
        | fault => cases h
        | err e => cases h
        | ok bb =>
          cases bb with
          | true =>
            simp only [Option.some.injEq, Res.ok.injEq] at h
            subst h
            refine ⟨[], ek, rest, rfl, ?_, ⟨f, Nat.lt_succ_self f, he⟩⟩
            intro kv hkv
            cases hkv
          | false =>
            obtain ⟨pre, ky, post, rfl, hpre, ⟨f', hf', hky⟩⟩ := ih rest k w h
            refine ⟨(ek, ev) :: pre, ky, post, rfl, ?_, ⟨f', by omega, hky⟩⟩
            intro kv hkv
            rcases List.mem_cons.mp hkv with rfl | hkv2
            · exact ⟨f + 1, equalsF_mono he (by omega)⟩
            · exact hpre kv hkv2

theorem seq_not_simple {a : MalType} (h : a.isSequentialI = true) : a.isSimple = false := by
  cases a <;> first | rfl | (simp [MalType.isSequentialI] at h)

theorem forall₂_mem_left {α β : Type} {R : α → β → Prop} :
    ∀ {l1 : List α} {l2 : List β}, List.Forall₂ R l1 l2 →
      ∀ {x}, x ∈ l1 → ∃ y, y ∈ l2 ∧ R x y := by
  intro l1 l2 h
  induction h with
  | nil => intro x hx; cases hx
  | cons hR htail ih =>
    intro x hx
    rcases List.mem_cons.mp hx with rfl | hx2
    · exact ⟨_, List.mem_cons_self _ _, hR⟩
    · obtain ⟨y, hy, hRy⟩ := ih hx2
      exact ⟨y, List.mem_cons_of_mem _ hy, hRy⟩

theorem equalsF_mapv_mapv {f : Nat} {es1 es2 : List (MalType × MalType)} :
    equalsF (f + 1) (.mapv es1) (.mapv es2) =
      if es1.length = es2.length then mapIterF f es1 es2 else some (.ok false) := rfl

theorem equalsF_mapv_notmap {f : Nat} {es1 : List (MalType × MalType)} {b : MalType}
    (hb : ∀ es2, b ≠ MalType.mapv es2) :
    equalsF (f + 1) (.mapv es1) b = some (.ok false) := by
  cases b <;> first | rfl | (exact absurd rfl (hb _))

theorem equalsF_other {f : Nat} {a b : MalType} (hs : a.isSimple = false)
    (hq : a.isSequentialI = false) (hnm : ∀ es, a ≠ MalType.mapv es) :
    equalsF (f + 1) a b = some (.ok false) := by
  cases a with
  | integer i => simp [MalType.isSimple] at hs
  | strv s => simp [MalType.isSimple] at hs
  | symbol n => simp [MalType.isSimple] at hs
  | keyword n => simp [MalType.isSimple] at hs
  | boolean b2 => simp [MalType.isSimple] at hs
  | nilv => simp [MalType.isSimple] at hs
  | runev c => simp [MalType.isSimple] at hs
  | atom i => simp [MalType.isSimple] at hs
  | list items => simp [MalType.isSequentialI] at hq
  | vector items => simp [MalType.isSequentialI] at hq
  | consCell h t => simp [MalType.isSequentialI] at hq
  | concatenation seqs => simp [MalType.isSequentialI] at hq
  | mapv es => exact absurd rfl (hnm es)
  | sliceSeq items => rfl
  | listIteratorSeq items i => rfl
  | rangev l u st nv fin => rfl
  | func a1 a2 a3 a4 a5 => rfl
  | hostNil => rfl

theorem equalsF_seq_notseq {f : Nat} {a b : MalType} (hs : a.isSimple = false)
    (hsa : a.isSequentialI = true) (hsb : b.isSequentialI = false) :
    equalsF (f + 1) a b = some (.ok false) := by
  cases a with
  | list items =>
    simp only [equalsF, hsb]
    simp [MalType.isSimple, MalType.isSequentialI]
  | vector items =>
    simp only [equalsF, hsb]
    simp [MalType.isSimple, MalType.isSequentialI]
  | consCell h t =>
    simp only [equalsF, hsb]
    simp [MalType.isSimple, MalType.isSequentialI]
  | concatenation seqs =>
    simp only [equalsF, hsb]
    simp [MalType.isSimple, MalType.isSequentialI]
  | _ => simp [MalType.isSequentialI] at hsa

theorem equalsF_seq_build {f : Nat} {a b sa sb : MalType} (hs : a.isSimple = false)
    (hsa : a.isSequentialI = true) (hsb : b.isSequentialI = true)
    (hoa : seqOf a = some sa) (hob : seqOf b = some sb) :
    equalsF (f + 1) a b = seqEqF f sa sb := by
  cases a with
  | list items =>
    simp only [seqOf, Option.some.injEq] at hoa
    simp only [equalsF, hsb, hob]
    simp [MalType.isSimple, MalType.isSequentialI, seqOf, ← hoa]
  | vector items =>
    simp only [seqOf, Option.some.injEq] at hoa
    simp only [equalsF, hsb, hob]
    simp [MalType.isSimple, MalType.isSequentialI, seqOf, ← hoa]
  | consCell h t =>
    simp only [seqOf, Option.some.injEq] at hoa
    simp only [equalsF, hsb, hob]
    simp [MalType.isSimple, MalType.isSequentialI, seqOf, ← hoa]
  | concatenation seqs =>
    simp only [seqOf, Option.some.injEq] at hoa
    simp only [equalsF, hsb, hob]
    simp [MalType.isSimple, MalType.isSequentialI, seqOf, ← hoa]
  | _ => simp [MalType.isSequentialI] at hsa

theorem lookupF_total : ∀ (es2 : List (MalType × MalType)) (k : MalType),
    (∀ kv ∈ es2, ∃ f r, equalsF f k kv.1 = some (.ok r)) →
    ∃ f r, lookupF f es2 k = some (.ok r) := by
  intro es2
  induction es2 with
  | nil => intro k _; exact ⟨1, none, rfl⟩
  | cons kv0 rest ih =>
    intro k hcmp
    obtain ⟨ek, ev⟩ := kv0
    obtain ⟨f0, r0, h0⟩ := hcmp (ek, ev) (List.mem_cons_self _ _)
    simp only at h0
    cases r0 with
    | true =>
      refine ⟨f0 + 1, some ev, ?_⟩
      simp only [lookupF]
      rw [h0]
    | false =>
      obtain ⟨f1, r1, h1⟩ := ih k fun kv hkv => hcmp kv (List.mem_cons_of_mem _ hkv)
      refine ⟨max f0 f1 + 1, r1, ?_⟩
      simp only [lookupF]
      rw [equalsF_mono h0 (Nat.le_max_left f0 f1)]
      exact lookupF_mono h1 (Nat.le_max_right f0 f1)

theorem lookupF_found_mem : ∀ {f : Nat} {es : List (MalType × MalType)} {k w : MalType},
    lookupF f es k = some (.ok (some w)) → ∃ ek, (ek, w) ∈ es := by
  intro f es k w h
  obtain ⟨pre, ky, post, rfl, -, -⟩ := lookupF_some_inv f es k w h
  exact ⟨ky, List.mem_append_right _ (List.mem_cons_self _ _)⟩

theorem mapIterF_total : ∀ (es1 es2 : List (MalType × MalType)),
    (∀ kv ∈ es1, ∃ f r, lookupF f es2 kv.1 = some (.ok r)) →
    (∀ kv ∈ es1, ∀ kv2 ∈ es2, ∃ f r, equalsF f kv.2 kv2.2 = some (.ok r)) →
    ∃ f r, mapIterF f es1 es2 = some (.ok r) := by
  intro es1
  induction es1 with
  | nil => intro es2 _ _; exact ⟨1, true, rfl⟩
  | cons kv0 rest ih =>
    intro es2 hlook hval
    obtain ⟨k, v⟩ := kv0
    obtain ⟨f0, r0, h0⟩ := hlook (k, v) (List.mem_cons_self _ _)
    simp only at h0
    cases r0 with
    | none =>
      refine ⟨f0 + 1, false, ?_⟩
      simp only [mapIterF]
      rw [h0]
    | some w =>
      obtain ⟨ek, hmem⟩ := lookupF_found_mem h0
      obtain ⟨f1, r1, h1⟩ := hval (k, v) (List.mem_cons_self _ _) (ek, w) hmem
      simp only at h1
      cases r1 with
      | false =>
        refine ⟨max f0 f1 + 1, false, ?_⟩
        simp only [mapIterF]
        rw [lookupF_mono h0 (Nat.le_max_left f0 f1)]
        simp only
        rw [equalsF_mono h1 (Nat.le_max_right f0 f1)]
      | true =>
        obtain ⟨f2, r2, h2⟩ := ih es2
          (fun kv hkv => hlook kv (List.mem_cons_of_mem _ hkv))
          (fun kv hkv kv2 hkv2 => hval kv (List.mem_cons_of_mem _ hkv) kv2 hkv2)
        refine ⟨max (max f0 f1) f2 + 1, r2, ?_⟩
        simp only [mapIterF]
        rw [lookupF_mono h0 (by omega)]
        simp only
        rw [equalsF_mono h1 (by omega)]
        exact mapIterF_mono h2 (by omega)

theorem seqEqF_total : ∀ (elems1 : List MalType) (s1 s2 : MalType) (elems2 : List MalType),
    Traverses s1 elems1 → Traverses s2 elems2 →
    (∀ x ∈ elems1, ∀ y ∈ elems2, ∃ f r, equalsF f x y = some (.ok r)) →
    ∃ f r, seqEqF f s1 s2 = some (.ok r) := by
  intro elems1
  induction elems1 with
  | nil =>
    intro s1 s2 elems2 ht1 ht2 _
    cases ht1 with
    | empty f0 h0 =>
      cases ht2 with
      | empty f1 h1 =>
        refine ⟨max f0 f1 + 1, true, ?_⟩
        simp only [seqEqF]
        rw [seqNextF_mono h0 (Nat.le_max_left f0 f1)]
        rw [seqNextF_mono h1 (Nat.le_max_right f0 f1)]
      | step f1 h1 ht2t =>
        refine ⟨max f0 f1 + 1, false, ?_⟩
        simp only [seqEqF]
        rw [seqNextF_mono h0 (Nat.le_max_left f0 f1)]
        rw [seqNextF_mono h1 (Nat.le_max_right f0 f1)]
  | cons x rest1 ih =>
    intro s1 s2 elems2 ht1 ht2 hcmp
    cases ht1 with
    | step f0 h0 ht1t =>
      rename_i t1
      cases ht2 with
      | empty f1 h1 =>
        refine ⟨max f0 f1 + 1, false, ?_⟩
        simp only [seqEqF]
        rw [seqNextF_mono h0 (Nat.le_max_left f0 f1)]
        rw [seqNextF_mono h1 (Nat.le_max_right f0 f1)]
      | step f1 h1 ht2t =>
        rename_i y t2 rest2
        obtain ⟨fe, re, he⟩ := hcmp x (List.mem_cons_self _ _) y (List.mem_cons_self _ _)
        cases re with
        | false =>
          refine ⟨max (max f0 f1) fe + 1, false, ?_⟩
          simp only [seqEqF]
          rw [seqNextF_mono h0 (by omega)]
          rw [seqNextF_mono h1 (by omega)]
          simp only
          rw [equalsF_mono he (by omega)]
        | true =>
          obtain ⟨fr, rr, hr⟩ := ih t1 t2 rest2 ht1t ht2t
            (fun u hu w hw => hcmp u (List.mem_cons_of_mem _ hu) w (List.mem_cons_of_mem _ hw))
          refine ⟨max (max f0 f1) (max fe fr) + 1, rr, ?_⟩
          simp only [seqEqF]
          rw [seqNextF_mono h0 (by omega)]
          rw [seqNextF_mono h1 (by omega)]
          simp only
          rw [equalsF_mono he (by omega)]
          exact seqEqF_mono hr (by omega)

theorem equalsF_total_aux : ∀ (n : Nat), ∀ ga gb : Nat, ga + gb ≤ n →
    ∀ (a b : MalType) (sa sb : List Nat),
    streamF ga a = some (.ok sa) → streamF gb b = some (.ok sb) →
    ∃ f r, equalsF f a b = some (.ok r) := by
  intro n
  induction n with
  | zero =>
    intro ga gb hle a b sa sb hA hB
    obtain rfl : ga = 0 := by omega
    simp [streamF] at hA
  | succ n ih =>
    intro ga gb hle a b sa sb hA hB
    by_cases hs : a.isSimple = true
    · exact ⟨1, valueEquals a b, by simp [equalsF, hs]⟩
    have hs2 : a.isSimple = false := by
      cases hh : a.isSimple with
      | false => rfl
      | true => exact absurd hh hs
    by_cases hq : a.isSequentialI = true
    · by_cases hqb : b.isSequentialI = true
      · obtain ⟨ga2, sa2, rfl, hoa, hssa⟩ := streamF_sequential_inv hs2 hq hA
        obtain ⟨gb2, sb2, rfl, hob, hssb⟩ :=
          streamF_sequential_inv (seq_not_simple hqb) hqb hB
        obtain ⟨elems1, bss1, htrav1, -, hfa1⟩ := streamSeqF_inv ga2 sa2 _ hssa
        obtain ⟨elems2, bss2, htrav2, -, hfa2⟩ := streamSeqF_inv gb2 sb2 _ hssb
        have hcmp : ∀ x ∈ elems1, ∀ y ∈ elems2, ∃ f r, equalsF f x y = some (.ok r) := by
          intro x hx y hy
          obtain ⟨bx, hbx, gx, hgx, hsx⟩ := forall₂_mem_left hfa1 hx
          obtain ⟨yb, hyb, gy, hgy, hsy⟩ := forall₂_mem_left hfa2 hy
          exact ih gx gy (by omega) x y bx yb hsx hsy
        obtain ⟨f0, r0, hseq⟩ := seqEqF_total elems1 sa2 sb2 elems2 htrav1 htrav2 hcmp
        exact ⟨f0 + 1, r0, by rw [equalsF_seq_build hs2 hq hqb hoa hob]; exact hseq⟩
      · have hqb2 : b.isSequentialI = false := by
          cases hh : b.isSequentialI with
          | false => rfl
          | true => exact absurd hh hqb
        exact ⟨1, false, equalsF_seq_notseq hs2 hq hqb2⟩
    · have hq2 : a.isSequentialI = false := by
        cases hh : a.isSequentialI with
        | false => rfl
        | true => exact absurd hh hq
      by_cases hma : ∃ es1, a = MalType.mapv es1
      · obtain ⟨es1, rfl⟩ := hma
        obtain ⟨pairs1, hfp1, rfl⟩ := streamF_mapv_inv hA
        by_cases hmb : ∃ es2, b = MalType.mapv es2
        · obtain ⟨es2, rfl⟩ := hmb
          obtain ⟨pairs2, hfp2, rfl⟩ := streamF_mapv_inv hB
          by_cases hlen : es1.length = es2.length
          · have hlook : ∀ kv ∈ es1, ∃ f r, lookupF f es2 kv.1 = some (.ok r) := by
              intro kv hkv
              obtain ⟨p, hp, ⟨gk, hgk, hsk⟩, -⟩ := forall₂_mem_left hfp1 hkv
              refine lookupF_total es2 kv.1 ?_
              intro kv2 hkv2
              obtain ⟨p2, hp2, ⟨gk2, hgk2, hsk2⟩, -⟩ := forall₂_mem_left hfp2 hkv2
              exact ih gk gk2 (by omega) _ _ _ _ hsk hsk2
            have hval : ∀ kv ∈ es1, ∀ kv2 ∈ es2, ∃ f r, equalsF f kv.2 kv2.2 = some (.ok r) := by
              intro kv hkv kv2 hkv2
              obtain ⟨p, hp, -, ⟨gv, hgv, hsv⟩⟩ := forall₂_mem_left hfp1 hkv
              obtain ⟨p2, hp2, -, ⟨gv2, hgv2, hsv2⟩⟩ := forall₂_mem_left hfp2 hkv2
              exact ih gv gv2 (by omega) _ _ _ _ hsv hsv2
            obtain ⟨f0, r0, hmi⟩ := mapIterF_total es1 es2 hlook hval
            refine ⟨f0 + 1, r0, ?_⟩
            rw [equalsF_mapv_mapv, if_pos hlen]
            exact hmi
          · exact ⟨1, false, by rw [equalsF_mapv_mapv, if_neg hlen]⟩
        · exact ⟨1, false, equalsF_mapv_notmap fun es h => hmb ⟨es, h⟩⟩
      · exact ⟨1, false, equalsF_other hs2 hq2 fun es h => hma ⟨es, h⟩⟩

theorem equalsF_total {ga gb : Nat} {a b : MalType} {sa sb : List Nat}
    (hA : streamF ga a = some (.ok sa)) (hB : streamF gb b = some (.ok sb)) :
    ∃ f r, equalsF f a b = some (.ok r) :=
  equalsF_total_aux (ga + gb) ga gb (Nat.le_refl _) a b sa sb hA hB

theorem forall₂_mem_right {α β : Type} {R : α → β → Prop} :
    ∀ {l1 : List α} {l2 : List β}, List.Forall₂ R l1 l2 →
      ∀ {y}, y ∈ l2 → ∃ x, x ∈ l1 ∧ R x y := by
  intro l1 l2 h
  induction h with
  | nil => intro y hy; cases hy
  | cons hR htail ih =>
    intro y hy
    rcases List.mem_cons.mp hy with rfl | hy2
    · exact ⟨_, List.mem_cons_self _ _, hR⟩
    · obtain ⟨x, hx, hRx⟩ := ih hy2
      exact ⟨x, List.mem_cons_of_mem _ hx, hRx⟩

theorem key_streams_det {g : Nat} : ∀ {es : List (MalType × MalType)}
    {ss : List (List Nat)} {pairs : List (List Nat × List Nat)},
    List.Forall₂ (fun kv s => ∃ f, streamF f kv.1 = some (.ok s)) es ss →
    List.Forall₂ (fun kv p => (∃ gk < g, streamF gk kv.1 = some (.ok p.1)) ∧
      ∃ gv < g, streamF gv kv.2 = some (.ok p.2)) es pairs →
    ss = pairs.map Prod.fst := by
  intro es
  induction es with
  | nil =>
    intro ss pairs h1 h2
    cases h1
    cases h2
    rfl
  | cons kv rest ih =>
    intro ss pairs h1 h2
    cases h1 with
    | cons hh1 ht1 =>
      cases h2 with
      | cons hh2 ht2 =>
        rename_i s ss' p pairs'
        obtain ⟨f1, hs1⟩ := hh1
        obtain ⟨⟨gk, -, hs2⟩, -⟩ := hh2
        rw [List.map_cons, ih ht1 ht2]
        congr 1
        exact Res.ok.inj (streamF_det hs1 hs2)

theorem streamF_simple_val {g : Nat} {a : MalType} (hs : a.isSimple = true) {s : List Nat}
    (h : streamF g a = some (.ok s)) : s = hashBytes a := by
  cases g with
  | zero => simp [streamF] at h
  | succ g =>
    have hv : streamF (g + 1) a = some (.ok (hashBytes a)) := by simp [streamF, hs]
    rw [hv] at h
    exact (Res.ok.inj (Option.some.inj h)).symm

theorem lexLt_nodup {ss : List (List Nat)}
    (h : List.Chain' (fun s1 s2 => lexLtBytes s1 s2 = true) ss) : ss.Nodup := by
  haveI : IsTrans (List Nat) (fun s1 s2 => lexLtBytes s1 s2 = true) :=
    ⟨fun a b c hab hbc => lexLtBytes_trans hab hbc⟩
  have hp := List.chain'_iff_pairwise.mp h
  exact hp.imp fun hxy => lexLtBytes_ne hxy

theorem lexLt_sorted_eq {ss1 ss2 : List (List Nat)}
    (h1 : List.Chain' (fun s1 s2 => lexLtBytes s1 s2 = true) ss1)
    (h2 : List.Chain' (fun s1 s2 => lexLtBytes s1 s2 = true) ss2)
    (hsub : ss1 ⊆ ss2) (hlen : ss2.length ≤ ss1.length) : ss1 = ss2 := by
  haveI : IsTrans (List Nat) (fun s1 s2 => lexLtBytes s1 s2 = true) :=
    ⟨fun a b c hab hbc => lexLtBytes_trans hab hbc⟩
  haveI : IsAntisymm (List Nat) (fun s1 s2 => lexLtBytes s1 s2 = true) :=
    ⟨fun a b hab hba => by
      rw [lexLtBytes_asymm hab] at hba
      cases hba⟩
  have hperm := (List.subperm_of_subset (lexLt_nodup h1) hsub).perm_of_length_le hlen
  exact List.eq_of_perm_of_sorted hperm
    (List.chain'_iff_pairwise.mp h1) (List.chain'_iff_pairwise.mp h2)

theorem equalsF_hash_aux : ∀ F : Nat, ∀ (a b : MalType) (F2 ga gb : Nat) (sa sb : List Nat),
    F2 < F → WFS a → WFS b → equalsF F2 a b = some (.ok true) →
    streamF ga a = some (.ok sa) → streamF gb b = some (.ok sb) → sa = sb := by
  intro F
  induction F with
  | zero => intro a b F2 ga gb sa sb hF; omega
  | succ F ihF =>
    intro a b F2 ga gb sa sb hFlt hwa hwb heq hA hB
    obtain ⟨F1, rfl⟩ : ∃ k, F2 = k + 1 := by
      cases F2 with
      | zero => simp [equalsF] at heq
      | succ k => exact ⟨k, rfl⟩
    by_cases hs : a.isSimple = true
    · have hveq : valueEquals a b = true := by
        have hv : equalsF (F1 + 1) a b = some (.ok (valueEquals a b)) := by
          simp [equalsF, hs]
        rw [hv] at heq
        exact Res.ok.inj (Option.some.inj heq)
      rw [streamF_simple_val hs hA, streamF_simple_val (valueEquals_simple a b hveq) hB]
      exact hashBytes_consistent a b hveq
    have hs2 : a.isSimple = false := by
      cases hh : a.isSimple with
      | false => rfl
      | true => exact absurd hh hs
    by_cases hq : a.isSequentialI = true
    · by_cases hqb : b.isSequentialI = true
      · obtain ⟨ga2, sa2, rfl, hoa, hssa⟩ := streamF_sequential_inv hs2 hq hA
        obtain ⟨gb2, sb2, rfl, hob, hssb⟩ :=
          streamF_sequential_inv (seq_not_simple hqb) hqb hB
        rw [equalsF_seq_build hs2 hq hqb hoa hob] at heq
        obtain ⟨elems1, elems2, htrav1, htrav2, hfa⟩ := seqEqF_true_inv F1 sa2 sb2 heq
        obtain ⟨elems1x, bss1, htrav1x, rfl, hfs1⟩ := streamSeqF_inv ga2 sa2 _ hssa
        obtain ⟨elems2x, bss2, htrav2x, rfl, hfs2⟩ := streamSeqF_inv gb2 sb2 _ hssb
        obtain rfl : elems1 = elems1x := traverses_det htrav1 htrav1x
        obtain rfl : elems2 = elems2x := traverses_det htrav2 htrav2x
        have hwsa : WFS sa2 := wfs_seqOf hwa hoa
        have hwsb : WFS sb2 := wfs_seqOf hwb hob
        suffices hbs : bss1 = bss2 by rw [hbs]
        apply List.ext_getElem
        · rw [← hfs1.length_eq, ← hfs2.length_eq, hfa.length_eq]
        · intro i hi1 hi2
          have hie1 : i < elems1.length := by rw [hfs1.length_eq]; exact hi1
          have hie2 : i < elems2.length := by rw [hfs2.length_eq]; exact hi2
          obtain ⟨fe, hfe, htr⟩ := hfa.get hie1 hie2
          obtain ⟨g1, -, hst1⟩ := hfs1.get hie1 hi1
          obtain ⟨g2, -, hst2⟩ := hfs2.get hie2 hi2
          have := ihF _ _ fe g1 g2 _ _ (by omega)
            (wfs_traverses htrav1 hwsa _ (List.get_mem _ _ _))
            (wfs_traverses htrav2 hwsb _ (List.get_mem _ _ _)) htr hst1 hst2
          simpa [List.get_eq_getElem] using this
      · have hqb2 : b.isSequentialI = false := by
          cases hh : b.isSequentialI with
          | false => rfl
          | true => exact absurd hh hqb
        rw [equalsF_seq_notseq hs2 hq hqb2] at heq
        simp at heq
    · have hq2 : a.isSequentialI = false := by
        cases hh : a.isSequentialI with
        | false => rfl
        | true => exact absurd hh hq
      by_cases hma : ∃ es1, a = MalType.mapv es1
      · obtain ⟨es1, rfl⟩ := hma
        by_cases hmb : ∃ es2, b = MalType.mapv es2
        · obtain ⟨es2, rfl⟩ := hmb
          rw [equalsF_mapv_mapv] at heq
          by_cases hlen : es1.length = es2.length
          · rw [if_pos hlen] at heq
            obtain ⟨pairs1, hfp1, rfl⟩ := streamF_mapv_inv hA
            obtain ⟨pairs2, hfp2, rfl⟩ := streamF_mapv_inv hB
            rw [WFS] at hwa hwb
            obtain ⟨hwp1, hsk1⟩ := hwa
            obtain ⟨hwp2, hsk2⟩ := hwb
            simp only [StrictKeys] at hsk1 hsk2
            obtain ⟨ss1, hss1, hch1⟩ := hsk1
            obtain ⟨ss2, hss2, hch2⟩ := hsk2
            have hks1 : ss1 = pairs1.map Prod.fst := key_streams_det hss1 hfp1
            have hks2 : ss2 = pairs2.map Prod.fst := key_streams_det hss2 hfp2
            rw [hks1] at hch1
            rw [hks2] at hch2
            have hsub : pairs1.map Prod.fst ⊆ pairs2.map Prod.fst := by
              intro x hx
              obtain ⟨p1, hp1, rfl⟩ := List.mem_map.mp hx
              obtain ⟨kv1, hkv1, hR1⟩ := forall₂_mem_right hfp1 hp1
              obtain ⟨w, ⟨fl, hfl, hlook⟩, -⟩ := mapIterF_true_inv F1 es1 es2 heq kv1 hkv1
              obtain ⟨pre, ky, post, heq2, -, fe, hfe, hktrue⟩ :=
                lookupF_some_inv fl es2 kv1.1 w hlook
              have hkymem : (ky, w) ∈ es2 := by
                rw [heq2]
                exact List.mem_append_right _ (List.mem_cons_self _ _)
              obtain ⟨p2, hp2, hR2⟩ := forall₂_mem_left hfp2 hkymem
              obtain ⟨⟨gk1, -, hsk1b⟩, -⟩ := hR1
              obtain ⟨⟨gk2, -, hsk2b⟩, -⟩ := hR2
              simp only at hsk2b
              have hkey : p1.1 = p2.1 :=
                ihF _ _ fe gk1 gk2 _ _ (by omega) (wfsPairs_mem hwp1 hkv1).1
                  (wfsPairs_mem hwp2 hkymem).1 hktrue hsk1b hsk2b
              rw [hkey]
              exact List.mem_map_of_mem Prod.fst hp2
            have hkseq : pairs1.map Prod.fst = pairs2.map Prod.fst := by
              refine lexLt_sorted_eq hch1 hch2 hsub ?_
              rw [List.length_map, List.length_map, ← hfp1.length_eq, ← hfp2.length_eq, hlen]
            have hpairs : pairs1 = pairs2 := by
              apply List.ext_getElem
              · rw [← hfp1.length_eq, ← hfp2.length_eq, hlen]
              · intro i hi1 hi2
                have hie1 : i < es1.length := by rw [hfp1.length_eq]; exact hi1
                obtain ⟨w, ⟨fl, hfl, hlook⟩, fv, hfv, hvtrue⟩ :=
                  mapIterF_true_inv F1 es1 es2 heq _ (List.get_mem es1 i hie1)
                obtain ⟨pre, ky, post, heq2, -, fe, hfe, hktrue⟩ :=
                  lookupF_some_inv fl es2 (es1.get ⟨i, hie1⟩).1 w hlook
                have hprelen : pre.length < es2.length := by
                  rw [heq2, List.length_append, List.length_cons]
                  omega
                have hgetky : es2.get ⟨pre.length, hprelen⟩ = (ky, w) := by
                  have h1 : es2[pre.length]? = some (ky, w) := by
                    rw [heq2]
                    rw [List.getElem?_append_right (Nat.le_refl pre.length)]
                    simp
                  have h2 : es2[pre.length]? = some (es2.get ⟨pre.length, hprelen⟩) := by
                    rw [List.get_eq_getElem, List.getElem?_eq_getElem hprelen]
                  rw [h1] at h2
                  exact (Option.some.inj h2).symm
                obtain ⟨⟨gk1, -, hsk1b⟩, ⟨gv1, -, hsv1⟩⟩ := hfp1.get hie1 hi1
                have hie2p : pre.length < pairs2.length := by
                  rw [← hfp2.length_eq]; exact hprelen
                have hS2 := hfp2.get hprelen hie2p
                rw [hgetky] at hS2
                obtain ⟨⟨gk2, -, hsk2b⟩, ⟨gv2, -, hsv2⟩⟩ := hS2
                simp only at hsk2b hsv2
                have hkymem : (ky, w) ∈ es2 := by
                  rw [heq2]
                  exact List.mem_append_right _ (List.mem_cons_self _ _)
                have hkstream : (pairs1.get ⟨i, hi1⟩).1 = (pairs2.get ⟨pre.length, hie2p⟩).1 :=
                  ihF _ _ fe gk1 gk2 _ _ (by omega)
                    (wfsPairs_mem hwp1 (List.get_mem es1 i hie1)).1
                    (wfsPairs_mem hwp2 hkymem).1 hktrue hsk1b hsk2b
                have hnd2 : (pairs2.map Prod.fst).Nodup := lexLt_nodup hch2
                have hmapi : i < (pairs2.map Prod.fst).length := by
                  rw [List.length_map]; exact hi2
                have hmapp : pre.length < (pairs2.map Prod.fst).length := by
                  rw [List.length_map]; exact hie2p
                have hkey_i : pairs1[i].1 = pairs2[i].1 := by
                  have h1 := congrArg (fun l => l[i]?) hkseq
                  simp only [List.getElem?_map] at h1
                  rw [List.getElem?_eq_getElem hi1, List.getElem?_eq_getElem hi2] at h1
                  simpa using h1
                have hpos : pre.length = i := by
                  have h2 : (pairs2.map Prod.fst).get ⟨pre.length, hmapp⟩ =
                      (pairs2.map Prod.fst).get ⟨i, hmapi⟩ := by
                    rw [List.get_eq_getElem, List.get_eq_getElem]
                    rw [List.getElem_map, List.getElem_map]
                    show pairs2[pre.length].1 = pairs2[i].1
                    rw [← hkey_i]
                    rw [List.get_eq_getElem, List.get_eq_getElem] at hkstream
                    exact hkstream.symm
                  exact congrArg Fin.val (hnd2.get_inj_iff.mp h2)
                have hvstream : (pairs1.get ⟨i, hi1⟩).2 = (pairs2.get ⟨pre.length, hie2p⟩).2 := by
                  refine ihF _ _ fv gv1 gv2 _ _ (by omega)
                    (wfsPairs_mem hwp1 (List.get_mem es1 i hie1)).2
                    (wfsPairs_mem hwp2 hkymem).2 hvtrue hsv1 hsv2
                have hpos2 : (⟨pre.length, hie2p⟩ : Fin pairs2.length) = ⟨i, hi2⟩ :=
                  Fin.mk_eq_mk.mpr hpos
                rw [hpos2] at hkstream hvstream
                rw [List.get_eq_getElem, List.get_eq_getElem] at hkstream hvstream
                exact Prod.ext_iff.mpr ⟨hkstream, hvstream⟩
            rw [hpairs]
          · rw [if_neg hlen] at heq
            simp at heq
        · rw [equalsF_mapv_notmap fun es h => hmb ⟨es, h⟩] at heq
          simp at heq
      · rw [equalsF_other hs2 hq2 fun es h => hma ⟨es, h⟩] at heq
        simp at heq

theorem seqEqF_build : ∀ (elems1 : List MalType) (s1 s2 : MalType) (elems2 : List MalType),
    Traverses s1 elems1 → Traverses s2 elems2 →
    List.Forall₂ (fun x y => ∃ f, equalsF f x y = some (.ok true)) elems1 elems2 →
    ∃ f, seqEqF f s1 s2 = some (.ok true) := by
  intro elems1
  induction elems1 with
  | nil =>
    intro s1 s2 elems2 ht1 ht2 hfa
    cases hfa
    cases ht1 with
    | empty f0 h0 =>
      cases ht2 with
      | empty f1 h1 =>
        refine ⟨max f0 f1 + 1, ?_⟩
        simp only [seqEqF]
        rw [seqNextF_mono h0 (Nat.le_max_left f0 f1)]
        rw [seqNextF_mono h1 (Nat.le_max_right f0 f1)]
  | cons x rest1 ih =>
    intro s1 s2 elems2 ht1 ht2 hfa
    cases hfa with
    | cons hxy hrest =>
      rename_i y rest2
      cases ht1 with
      | step f0 h0 ht1t =>
        rename_i t1
        cases ht2 with
        | step f1 h1 ht2t =>
          rename_i t2
          obtain ⟨fe, he⟩ := hxy
          obtain ⟨fr, hr⟩ := ih t1 t2 rest2 ht1t ht2t hrest
          refine ⟨max (max f0 f1) (max fe fr) + 1, ?_⟩
          simp only [seqEqF]
          rw [seqNextF_mono h0 (by omega)]
          rw [seqNextF_mono h1 (by omega)]
          simp only
          rw [equalsF_mono he (by omega)]
          exact seqEqF_mono hr (by omega)

theorem lookupF_build : ∀ (pre : List (MalType × MalType)) (k ky w : MalType)
    (post : List (MalType × MalType)),
    (∀ kv ∈ pre, ∃ f, equalsF f k kv.1 = some (.ok false)) →
    (∃ f, equalsF f k ky = some (.ok true)) →
    ∃ f, lookupF f (pre ++ (ky, w) :: post) k = some (.ok (some w)) := by
  intro pre
  induction pre with
  | nil =>
    intro k ky w post _ hkt
    obtain ⟨fe, he⟩ := hkt
    refine ⟨fe + 1, ?_⟩
    simp only [List.nil_append, lookupF]
    rw [he]
  | cons e0 rest ih =>
    intro k ky w post hpre hkt
    obtain ⟨f0, h0⟩ := hpre e0 (List.mem_cons_self _ _)
    obtain ⟨f1, h1⟩ := ih k ky w post
      (fun kv hkv => hpre kv (List.mem_cons_of_mem _ hkv)) hkt
    obtain ⟨ek, ev⟩ := e0
    refine ⟨max f0 f1 + 1, ?_⟩
    simp only [List.cons_append, lookupF]
    simp only at h0
    rw [equalsF_mono h0 (Nat.le_max_left f0 f1)]
    exact lookupF_mono h1 (Nat.le_max_right f0 f1)

theorem mapIterF_build : ∀ (es1 es2 : List (MalType × MalType)),
    (∀ kv ∈ es1, ∃ w, (∃ f, lookupF f es2 kv.1 = some (.ok (some w))) ∧
      ∃ f, equalsF f kv.2 w = some (.ok true)) →
    ∃ f, mapIterF f es1 es2 = some (.ok true) := by
  intro es1
  induction es1 with
  | nil => intro es2 _; exact ⟨1, rfl⟩
  | cons kv0 rest ih =>
    intro es2 h
    obtain ⟨k, v⟩ := kv0
    obtain ⟨w, ⟨f0, h0⟩, f1, h1⟩ := h (k, v) (List.mem_cons_self _ _)
    obtain ⟨f2, h2⟩ := ih es2 fun kv hkv => h kv (List.mem_cons_of_mem _ hkv)
    refine ⟨max (max f0 f1) f2 + 1, ?_⟩
    simp only [mapIterF]
    simp only at h0 h1
    rw [lookupF_mono h0 (by omega)]
    simp only
    rw [equalsF_mono h1 (by omega)]
    exact mapIterF_mono h2 (by omega)

theorem equalsF_hash {F2 ga gb : Nat} {a b : MalType} {sa sb : List Nat}
    (hwa : WFS a) (hwb : WFS b) (heq : equalsF F2 a b = some (.ok true))
    (hA : streamF ga a = some (.ok sa)) (hB : streamF gb b = some (.ok sb)) : sa = sb :=
  equalsF_hash_aux (F2 + 1) a b F2 ga gb sa sb (Nat.lt_succ_self _) hwa hwb heq hA hB

theorem map_align {F1 ga gb : Nat} {es1 es2 : List (MalType × MalType)}
    {pairs1 pairs2 : List (List Nat × List Nat)}
    (hwp1 : WFSPairs es1) (hwp2 : WFSPairs es2)
    (hch1 : List.Chain' (fun s1 s2 => lexLtBytes s1 s2 = true) (pairs1.map Prod.fst))
    (hch2 : List.Chain' (fun s1 s2 => lexLtBytes s1 s2 = true) (pairs2.map Prod.fst))
    (hfp1 : List.Forall₂ (fun kv p => (∃ gk < ga, streamF gk kv.1 = some (.ok p.1)) ∧
        ∃ gv < ga, streamF gv kv.2 = some (.ok p.2)) es1 pairs1)
    (hfp2 : List.Forall₂ (fun kv p => (∃ gk < gb, streamF gk kv.1 = some (.ok p.1)) ∧
        ∃ gv < gb, streamF gv kv.2 = some (.ok p.2)) es2 pairs2)
    (hlen : es1.length = es2.length)
    (hiter : mapIterF F1 es1 es2 = some (.ok true)) :
    pairs1 = pairs2 ∧
    ∀ i (hi1 : i < es1.length) (hi2 : i < es2.length),
      (∃ f < F1, equalsF f (es1.get ⟨i, hi1⟩).1 (es2.get ⟨i, hi2⟩).1 = some (.ok true)) ∧
      ∃ f < F1, equalsF f (es1.get ⟨i, hi1⟩).2 (es2.get ⟨i, hi2⟩).2 = some (.ok true) := by
  have hsub : pairs1.map Prod.fst ⊆ pairs2.map Prod.fst := by
    intro x hx
    obtain ⟨p1, hp1, rfl⟩ := List.mem_map.mp hx
    obtain ⟨kv1, hkv1, hR1⟩ := forall₂_mem_right hfp1 hp1
    obtain ⟨w, ⟨fl, hfl, hlook⟩, -⟩ := mapIterF_true_inv F1 es1 es2 hiter kv1 hkv1
    obtain ⟨pre, ky, post, heq2, -, fe, hfe, hktrue⟩ :=
      lookupF_some_inv fl es2 kv1.1 w hlook
    have hkymem : (ky, w) ∈ es2 := by
      rw [heq2]
      exact List.mem_append_right _ (List.mem_cons_self _ _)
    obtain ⟨p2, hp2, hR2⟩ := forall₂_mem_left hfp2 hkymem
    obtain ⟨⟨gk1, -, hsk1b⟩, -⟩ := hR1
    obtain ⟨⟨gk2, -, hsk2b⟩, -⟩ := hR2
    simp only at hsk2b
    have hkey : p1.1 = p2.1 :=
      equalsF_hash (wfsPairs_mem hwp1 hkv1).1 (wfsPairs_mem hwp2 hkymem).1
        hktrue hsk1b hsk2b
    rw [hkey]
    exact List.mem_map_of_mem Prod.fst hp2
  have hkseq : pairs1.map Prod.fst = pairs2.map Prod.fst := by
    refine lexLt_sorted_eq hch1 hch2 hsub ?_
    rw [List.length_map, List.length_map, ← hfp1.length_eq, ← hfp2.length_eq, hlen]
  have hidx : ∀ i (hi1 : i < es1.length) (hi2 : i < es2.length)
      (hp1 : i < pairs1.length) (hp2 : i < pairs2.length),
      ((∃ f < F1, equalsF f (es1.get ⟨i, hi1⟩).1 (es2.get ⟨i, hi2⟩).1 = some (.ok true)) ∧
        ∃ f < F1, equalsF f (es1.get ⟨i, hi1⟩).2 (es2.get ⟨i, hi2⟩).2 = some (.ok true)) ∧
      pairs1[i] = pairs2[i] := by
    intro i hie1 hie2 hi1 hi2
    obtain ⟨w, ⟨fl, hfl, hlook⟩, fv, hfv, hvtrue⟩ :=
      mapIterF_true_inv F1 es1 es2 hiter _ (List.get_mem es1 i hie1)
    obtain ⟨pre, ky, post, heq2, -, fe, hfe, hktrue⟩ :=
      lookupF_some_inv fl es2 (es1.get ⟨i, hie1⟩).1 w hlook
    have hprelen : pre.length < es2.length := by
      rw [heq2, List.length_append, List.length_cons]
      omega
    have hgetky : es2.get ⟨pre.length, hprelen⟩ = (ky, w) := by
      have h1 : es2[pre.length]? = some (ky, w) := by
        rw [heq2]
        rw [List.getElem?_append_right (Nat.le_refl pre.length)]
        simp
      have h2 : es2[pre.length]? = some (es2.get ⟨pre.length, hprelen⟩) := by
        rw [List.get_eq_getElem, List.getElem?_eq_getElem hprelen]
      rw [h1] at h2
      exact (Option.some.inj h2).symm
    obtain ⟨⟨gk1, -, hsk1b⟩, ⟨gv1, -, hsv1⟩⟩ := hfp1.get hie1 hi1
    have hie2p : pre.length < pairs2.length := by
      rw [← hfp2.length_eq]; exact hprelen
    have hS2 := hfp2.get hprelen hie2p
    rw [hgetky] at hS2
    obtain ⟨⟨gk2, -, hsk2b⟩, ⟨gv2, -, hsv2⟩⟩ := hS2
    simp only at hsk2b hsv2
    have hkymem : (ky, w) ∈ es2 := by
      rw [heq2]
      exact List.mem_append_right _ (List.mem_cons_self _ _)
    have hkstream : (pairs1.get ⟨i, hi1⟩).1 = (pairs2.get ⟨pre.length, hie2p⟩).1 :=
      equalsF_hash (wfsPairs_mem hwp1 (List.get_mem es1 i hie1)).1
        (wfsPairs_mem hwp2 hkymem).1 hktrue hsk1b hsk2b
    have hnd2 : (pairs2.map Prod.fst).Nodup := lexLt_nodup hch2
    have hmapi : i < (pairs2.map Prod.fst).length := by
      rw [List.length_map]; exact hi2
    have hmapp : pre.length < (pairs2.map Prod.fst).length := by
      rw [List.length_map]; exact hie2p
    have hkey_i : pairs1[i].1 = pairs2[i].1 := by
      have h1 := congrArg (fun l => l[i]?) hkseq
      simp only [List.getElem?_map] at h1
      rw [List.getElem?_eq_getElem hi1, List.getElem?_eq_getElem hi2] at h1
      simpa using h1
    have hpos : pre.length = i := by
      have h2 : (pairs2.map Prod.fst).get ⟨pre.length, hmapp⟩ =
          (pairs2.map Prod.fst).get ⟨i, hmapi⟩ := by
        rw [List.get_eq_getElem, List.get_eq_getElem]
        rw [List.getElem_map, List.getElem_map]
        show pairs2[pre.length].1 = pairs2[i].1
        rw [← hkey_i]
        rw [List.get_eq_getElem, List.get_eq_getElem] at hkstream
        exact hkstream.symm
      exact congrArg Fin.val (hnd2.get_inj_iff.mp h2)
    have hvstream : (pairs1.get ⟨i, hi1⟩).2 = (pairs2.get ⟨pre.length, hie2p⟩).2 :=
      equalsF_hash (wfsPairs_mem hwp1 (List.get_mem es1 i hie1)).2
        (wfsPairs_mem hwp2 hkymem).2 hvtrue hsv1 hsv2
    have hfin : (⟨pre.length, hprelen⟩ : Fin es2.length) = ⟨i, hie2⟩ :=
      Fin.mk_eq_mk.mpr hpos
    rw [hfin] at hgetky
    have hfin2 : (⟨pre.length, hie2p⟩ : Fin pairs2.length) = ⟨i, hi2⟩ :=
      Fin.mk_eq_mk.mpr hpos
    rw [hfin2] at hkstream hvstream
    refine ⟨⟨⟨fe, by omega, ?_⟩, ⟨fv, by omega, ?_⟩⟩, ?_⟩
    · rw [hgetky]
      exact hktrue
    · rw [hgetky]
      exact hvtrue
    · rw [List.get_eq_getElem, List.get_eq_getElem] at hkstream hvstream
      exact Prod.ext_iff.mpr ⟨hkstream, hvstream⟩
  constructor
  · apply List.ext_getElem
    · rw [← hfp1.length_eq, ← hfp2.length_eq, hlen]
    · intro i hi1 hi2
      have hie1 : i < es1.length := by rw [hfp1.length_eq]; exact hi1
      have hie2 : i < es2.length := by rw [hfp2.length_eq]; exact hi2
      exact (hidx i hie1 hie2 hi1 hi2).2
  · intro i hie1 hie2
    have hi1 : i < pairs1.length := by rw [← hfp1.length_eq]; exact hie1
    have hi2 : i < pairs2.length := by rw [← hfp2.length_eq]; exact hie2
    exact (hidx i hie1 hie2 hi1 hi2).1

theorem equalsF_symm_true_aux : ∀ F : Nat, ∀ (a b : MalType) (F2 : Nat),
    F2 < F → WFS a → WFS b → Streamable a → Streamable b →
    equalsF F2 a b = some (.ok true) → ∃ G, equalsF G b a = some (.ok true) := by
  intro F
  induction F with
  | zero => intro a b F2 hF; omega
  | succ F ihF =>
    intro a b F2 hFlt hwa hwb hStrA hStrB heq
    obtain ⟨F1, rfl⟩ : ∃ k, F2 = k + 1 := by
      cases F2 with
      | zero => simp [equalsF] at heq
      | succ k => exact ⟨k, rfl⟩
    by_cases hs : a.isSimple = true
    · have hveq : valueEquals a b = true := by
        have hv : equalsF (F1 + 1) a b = some (.ok (valueEquals a b)) := by
          simp [equalsF, hs]
        rw [hv] at heq
        exact Res.ok.inj (Option.some.inj heq)
      have hbs : b.isSimple = true := valueEquals_simple a b hveq
      refine ⟨1, ?_⟩
      have hv2 : equalsF 1 b a = some (.ok (valueEquals b a)) := by
        simp [equalsF, hbs]
      rw [hv2, valueEquals_symm b a, hveq]
    have hs2 : a.isSimple = false := by
      cases hh : a.isSimple with
      | false => rfl
      | true => exact absurd hh hs
    by_cases hq : a.isSequentialI = true
    · by_cases hqb : b.isSequentialI = true
      · obtain ⟨ga, sax, hsta⟩ := hStrA
        obtain ⟨gb, sbx, hstb⟩ := hStrB
        obtain ⟨ga2, sa2, -, hoa, hssa⟩ := streamF_sequential_inv hs2 hq hsta
        obtain ⟨gb2, sb2, -, hob, hssb⟩ :=
          streamF_sequential_inv (seq_not_simple hqb) hqb hstb
        rw [equalsF_seq_build hs2 hq hqb hoa hob] at heq
        obtain ⟨elems1, elems2, htrav1, htrav2, hfa⟩ := seqEqF_true_inv F1 sa2 sb2 heq
        obtain ⟨elems1x, bss1, htrav1x, -, hfs1⟩ := streamSeqF_inv ga2 sa2 _ hssa
        obtain ⟨elems2x, bss2, htrav2x, -, hfs2⟩ := streamSeqF_inv gb2 sb2 _ hssb
        obtain rfl : elems1 = elems1x := traverses_det htrav1 htrav1x
        obtain rfl : elems2 = elems2x := traverses_det htrav2 htrav2x
        have hwsa : WFS sa2 := wfs_seqOf hwa hoa
        have hwsb : WFS sb2 := wfs_seqOf hwb hob
        have hrev : List.Forall₂ (fun y x => ∃ G, equalsF G y x = some (.ok true))
            elems2 elems1 := by
          refine List.forall₂_of_length_eq_of_get hfa.length_eq.symm ?_
          intro i h2 h1
          obtain ⟨fe, hfe, htr⟩ := hfa.get h1 h2
          obtain ⟨g1, -, hst1⟩ := hfs1.get h1 (by rw [← hfs1.length_eq]; exact h1)
          obtain ⟨g2, -, hst2⟩ := hfs2.get h2 (by rw [← hfs2.length_eq]; exact h2)
          exact ihF _ _ fe (by omega)
            (wfs_traverses htrav1 hwsa _ (List.get_mem _ _ _))
            (wfs_traverses htrav2 hwsb _ (List.get_mem _ _ _))
            ⟨g1, _, hst1⟩ ⟨g2, _, hst2⟩ htr
        obtain ⟨f0, hr⟩ := seqEqF_build elems2 sb2 sa2 elems1 htrav2 htrav1 hrev
        refine ⟨f0 + 1, ?_⟩
        rw [equalsF_seq_build (seq_not_simple hqb) hqb hq hob hoa]
        exact hr
      · have hqb2 : b.isSequentialI = false := by
          cases hh : b.isSequentialI with
          | false => rfl
          | true => exact absurd hh hqb
        rw [equalsF_seq_notseq hs2 hq hqb2] at heq
        simp at heq
    · have hq2 : a.isSequentialI = false := by
        cases hh : a.isSequentialI with
        | false => rfl
        | true => exact absurd hh hq
      by_cases hma : ∃ es1, a = MalType.mapv es1
      · obtain ⟨es1, rfl⟩ := hma
        by_cases hmb : ∃ es2, b = MalType.mapv es2
        · obtain ⟨es2, rfl⟩ := hmb
          rw [equalsF_mapv_mapv] at heq
          by_cases hlen : es1.length = es2.length
          · rw [if_pos hlen] at heq
            obtain ⟨ga, sax, hsta⟩ := hStrA
            obtain ⟨gb, sbx, hstb⟩ := hStrB
            obtain ⟨pairs1, hfp1, -⟩ := streamF_mapv_inv hsta
            obtain ⟨pairs2, hfp2, -⟩ := streamF_mapv_inv hstb
            rw [WFS] at hwa hwb
            obtain ⟨hwp1, hstk1⟩ := hwa
            obtain ⟨hwp2, hstk2⟩ := hwb
            simp only [StrictKeys] at hstk1 hstk2
            obtain ⟨ss1, hss1, hch1⟩ := hstk1
            obtain ⟨ss2, hss2, hch2⟩ := hstk2
            rw [key_streams_det hss1 hfp1] at hch1
            rw [key_streams_det hss2 hfp2] at hch2
            obtain ⟨hpeq, hidx⟩ :=
              map_align hwp1 hwp2 hch1 hch2 hfp1 hfp2 hlen heq
            have hnd1 : (pairs1.map Prod.fst).Nodup := lexLt_nodup hch1
            obtain ⟨G0, hmi⟩ : ∃ G, mapIterF G es2 es1 = some (.ok true) := by
              refine mapIterF_build es2 es1 ?_
              intro kv2 hkv2
              obtain ⟨j, hj2, rfl⟩ := List.mem_iff_getElem.mp hkv2
              have hj1 : j < es1.length := by omega
              have hp1j : j < pairs1.length := by rw [← hfp1.length_eq]; exact hj1
              have hp2j : j < pairs2.length := by rw [← hfp2.length_eq]; exact hj2
              obtain ⟨⟨fk, hfk, hktrue⟩, ⟨fv, hfv, hvtrue⟩⟩ := hidx j hj1 hj2
              obtain ⟨⟨gk1, -, hsk1b⟩, ⟨gv1, -, hsv1⟩⟩ := hfp1.get hj1 hp1j
              obtain ⟨⟨gk2, -, hsk2b⟩, ⟨gv2, -, hsv2⟩⟩ := hfp2.get hj2 hp2j
              simp only [List.get_eq_getElem] at hktrue hvtrue hsk1b hsv1 hsk2b hsv2
              have hwk1 : WFS (es1[j]).1 :=
                (wfsPairs_mem hwp1 (List.getElem_mem hj1)).1
              have hwv1 : WFS (es1[j]).2 :=
                (wfsPairs_mem hwp1 (List.getElem_mem hj1)).2
              have hwk2 : WFS (es2[j]).1 :=
                (wfsPairs_mem hwp2 (List.getElem_mem hj2)).1
              have hwv2 : WFS (es2[j]).2 :=
                (wfsPairs_mem hwp2 (List.getElem_mem hj2)).2
              obtain ⟨Gk, hGk⟩ := ihF _ _ fk (by omega) hwk1 hwk2
                ⟨gk1, _, hsk1b⟩ ⟨gk2, _, hsk2b⟩ hktrue
              obtain ⟨Gv, hGv⟩ := ihF _ _ fv (by omega) hwv1 hwv2
                ⟨gv1, _, hsv1⟩ ⟨gv2, _, hsv2⟩ hvtrue
              have hsplit : es1 = es1.take j ++ es1[j] :: es1.drop (j + 1) := by
                conv_lhs => rw [← List.take_append_drop j es1]
                rw [List.drop_eq_getElem_cons hj1]
              have hpre : ∀ kv ∈ es1.take j, ∃ f,
                  equalsF f (es2[j]).1 kv.1 = some (.ok false) := by
                intro kv hkv
                obtain ⟨m, hmt, rfl⟩ := List.mem_iff_getElem.mp hkv
                have hm1 : m < es1.length := by
                  have := List.length_take j es1
                  omega
                have hmj : m < j := by
                  have := List.length_take j es1
                  omega
                have hp1m : m < pairs1.length := by rw [← hfp1.length_eq]; exact hm1
                obtain ⟨⟨gkm, -, hskm⟩, -⟩ := hfp1.get hm1 hp1m
                simp only [List.get_eq_getElem] at hskm
                have hgt : (es1.take j)[m] = es1[m] := List.getElem_take es1
                have hskm2 : streamF gkm ((es1.take j)[m]).1 =
                    some (.ok (pairs1.get ⟨m, hp1m⟩).1) := by
                  rw [hgt]
                  exact hskm
                obtain ⟨ff, rr, hfr⟩ := equalsF_total hsk2b hskm2
                cases rr with
                | false => exact ⟨ff, hfr⟩
                | true =>
                  have hwkm : WFS ((es1.take j)[m]).1 := by
                    rw [hgt]
                    exact (wfsPairs_mem hwp1 (List.getElem_mem hm1)).1
                  have hstreq : (pairs2.get ⟨j, hp2j⟩).1 = (pairs1.get ⟨m, hp1m⟩).1 :=
                    equalsF_hash hwk2 hwkm hfr hsk2b hskm2
                  have hpj : pairs1[j].1 = pairs2[j].1 := by
                    have h1 := congrArg (fun l => l[j]?) hpeq
                    simp only at h1
                    rw [List.getElem?_eq_getElem hp1j, List.getElem?_eq_getElem hp2j] at h1
                    have h2 : pairs1[j] = pairs2[j] := by simpa using h1
                    rw [h2]
                  have hj_eq_m : j = m := by
                    have hmapj : j < (pairs1.map Prod.fst).length := by
                      rw [List.length_map]; exact hp1j
                    have hmapm : m < (pairs1.map Prod.fst).length := by
                      rw [List.length_map]; exact hp1m
                    have h2 : (pairs1.map Prod.fst).get ⟨j, hmapj⟩ =
                        (pairs1.map Prod.fst).get ⟨m, hmapm⟩ := by
                      rw [List.get_eq_getElem, List.get_eq_getElem]
                      rw [List.getElem_map, List.getElem_map]
                      show pairs1[j].1 = pairs1[m].1
                      rw [List.get_eq_getElem, List.get_eq_getElem] at hstreq
                      exact hpj.trans hstreq
                    exact congrArg Fin.val (hnd1.get_inj_iff.mp h2)
                  omega
              obtain ⟨Gl, hGl⟩ := lookupF_build (es1.take j) (es2[j]).1
                (es1[j]).1 (es1[j]).2 (es1.drop (j + 1)) hpre ⟨Gk, hGk⟩
              have heta : es1[j] = ((es1[j]).1, (es1[j]).2) := rfl
              rw [← heta, ← hsplit] at hGl
              exact ⟨(es1[j]).2, ⟨Gl, hGl⟩, ⟨Gv, hGv⟩⟩
            refine ⟨G0 + 1, ?_⟩
            rw [equalsF_mapv_mapv, if_pos hlen.symm]
            exact hmi
          · rw [if_neg hlen] at heq
            simp at heq
        · rw [equalsF_mapv_notmap fun es h => hmb ⟨es, h⟩] at heq
          simp at heq
      · rw [equalsF_other hs2 hq2 fun es h => hma ⟨es, h⟩] at heq
        simp at heq

theorem equalsF_symm {f : Nat} {a b : MalType} {r : Bool} {ga gb : Nat} {sa sb : List Nat}
    (hwa : WFS a) (hwb : WFS b)
    (hA : streamF ga a = some (.ok sa)) (hB : streamF gb b = some (.ok sb))
    (heq : equalsF f a b = some (.ok r)) :
    ∃ g, equalsF g b a = some (.ok r) := by
  cases r with
  | true =>
    exact equalsF_symm_true_aux (f + 1) a b f (Nat.lt_succ_self f) hwa hwb
      ⟨ga, sa, hA⟩ ⟨gb, sb, hB⟩ heq
  | false =>
    obtain ⟨g, r2, hg⟩ := equalsF_total hB hA
    cases r2 with
    | false => exact ⟨g, hg⟩
    | true =>
      obtain ⟨G, hG⟩ := equalsF_symm_true_aux (g + 1) b a g (Nat.lt_succ_self g) hwb hwa
        ⟨gb, sb, hB⟩ ⟨ga, sa, hA⟩ hg
      have hcontra := equalsF_det heq hG
      simp at hcontra

/-- The two hash-stream-colliding distinct keys of the C1 counterexample:
`(1 2)` and `((1) 2)` both hash-stream to the 8-byte LE encodings of 1 then
2 (`hashAnyValue` flattens nested sequences), yet they are not `Equals`. -/
def Ck1 : MalType := .list [.integer 1, .integer 2]

/-- See `Ck1`. -/
def Ck2 : MalType := .list [.list [.integer 1], .integer 2]

/-- `{(1 2) 10, ((1) 2) 20}` built by inserting the `Ck1` entry first. -/
def Cm1 : MalType := .mapv [(Ck1, .integer 10), (Ck2, .integer 20)]

/-- The same two entries inserted in the opposite order: colliding keys keep
insertion order in the trie's collision node. -/
def Cm2 : MalType := .mapv [(Ck2, .integer 20), (Ck1, .integer 10)]

/-- C1 counterexample: the distinct keys `Ck1` and `Ck2` have identical hash
byte streams, so the two insertion orders of the same two entries yield the
Maps `Cm1` and `Cm2` (as `immutable.Map.Set` keeps colliding keys in insertion
order); `Equals` holds of them in both directions, yet their murmur3 hashes
differ — refuting the unconditional hash-consistency half of the claim. -/
theorem claim_C1_counterexample :
    streamF 20 Ck1 = some (.ok (intBytes 1 ++ intBytes 2)) ∧
    streamF 20 Ck2 = some (.ok (intBytes 1 ++ intBytes 2)) ∧
    equalsF 20 Ck1 Ck2 = some (.ok false) ∧
    mapInsertF 20 [] Ck1 (.integer 10) = some (.ok [(Ck1, .integer 10)]) ∧
    mapInsertF 20 [(Ck1, .integer 10)] Ck2 (.integer 20) =
      some (.ok [(Ck1, .integer 10), (Ck2, .integer 20)]) ∧
    mapInsertF 20 [] Ck2 (.integer 20) = some (.ok [(Ck2, .integer 20)]) ∧
    mapInsertF 20 [(Ck2, .integer 20)] Ck1 (.integer 10) =
      some (.ok [(Ck2, .integer 20), (Ck1, .integer 10)]) ∧
    equalsF 20 Cm1 Cm2 = some (.ok true) ∧
    equalsF 20 Cm2 Cm1 = some (.ok true) ∧
    hashF 20 Cm1 = some (.ok 2741966623) ∧
    hashF 20 Cm2 = some (.ok 2341386587) ∧
    (2741966623 : Nat) ≠ 2341386587 :=
  ⟨rfl, rfl, rfl, rfl, rfl, rfl, rfl, rfl, rfl, rfl, rfl, by decide⟩

mutual

/-- Structural size of a value: the measure along which `Equals`
sub-comparisons (sequence elements, map keys and values) strictly
decrease. -/
def rankV : MalType → Nat
  | .list items => 1 + rankL items
  | .vector items => 1 + rankL items
  | .sliceSeq items => 1 + rankL items
  | .listIteratorSeq items _ => 1 + rankL items
  | .consCell h t => 1 + rankV h + rankV t
  | .concatenation seqs => 1 + rankL seqs
  | .mapv entries => 1 + rankP entries
  | .rangev _ _ _ _ _ => 2
  | _ => 1

/-- Sum of member ranks. -/
def rankL : List MalType → Nat
  | [] => 0
  | x :: rest => rankV x + rankL rest

/-- Sum of entry component ranks. -/
def rankP : List (MalType × MalType) → Nat
  | [] => 0
  | kv :: rest => rankV kv.1 + rankV kv.2 + rankP rest

end

theorem rankV_pos : ∀ x : MalType, 1 ≤ rankV x := by
  intro x
  cases x <;> (simp only [rankV]; omega)

theorem rankL_mem : ∀ {l : List MalType} {x : MalType}, x ∈ l → rankV x ≤ rankL l := by
  intro l
  induction l with
  | nil => intro x hx; cases hx
  | cons h t ih =>
    intro x hx
    rw [rankL]
    rcases List.mem_cons.mp hx with rfl | hx
    · omega
    · have := ih hx
      omega

theorem rankP_mem : ∀ {es : List (MalType × MalType)} {kv : MalType × MalType},
    kv ∈ es → rankV kv.1 + rankV kv.2 ≤ rankP es := by
  intro es
  induction es with
  | nil => intro kv hkv; cases hkv
  | cons h t ih =>
    intro kv hkv
    rw [rankP]
    rcases List.mem_cons.mp hkv with rfl | hkv
    · omega
    · have := ih hkv
      omega

theorem rank_next : ∀ (f : Nat) (s hd t : MalType),
    seqNextF f s = some (.step hd t) → rankV hd < rankV s ∧ rankV t ≤ rankV s := by
  intro f
  induction f with
  | zero => intro s hd t h; simp [seqNextF] at h
  | succ f ih =>
    intro s hd t h
    cases s with
    | integer i => simp [seqNextF] at h
    | strv s => simp [seqNextF] at h
    | symbol n => simp [seqNextF] at h
    | keyword n => simp [seqNextF] at h
    | boolean b => simp [seqNextF] at h
    | nilv => simp [seqNextF] at h
    | runev c => simp [seqNextF] at h
    | list items => simp [seqNextF] at h
    | vector items => simp [seqNextF] at h
    | mapv es => simp [seqNextF] at h
    | func a b c d e => simp [seqNextF] at h
    | atom i => simp [seqNextF] at h
    | hostNil => simp [seqNextF] at h
    | sliceSeq items =>
      cases items with
      | nil => simp [seqNextF] at h
      | cons x rest =>
        simp only [seqNextF, Option.some.injEq, NextRes.step.injEq] at h
        obtain ⟨rfl, rfl⟩ := h
        simp only [rankV, rankL]
        have := rankV_pos x
        omega
    | listIteratorSeq items i =>
      simp only [seqNextF] at h
      cases hx : items.get? i with
      | none => rw [hx] at h; cases h
      | some x =>
        rw [hx] at h
        simp only [Option.some.injEq, NextRes.step.injEq] at h
        obtain ⟨rfl, rfl⟩ := h
        rw [List.get?_eq_getElem?] at hx
        have hlt : i < items.length := by
          by_contra hc
          push_neg at hc
          rw [List.getElem?_eq_none hc] at hx
          cases hx
        rw [List.getElem?_eq_getElem hlt] at hx
        have hmem : x ∈ items := by
          rw [← Option.some.inj hx]
          exact List.getElem_mem hlt
        have := rankL_mem hmem
        simp only [rankV]
        omega
    | consCell h0 t0 =>
      simp only [seqNextF, Option.some.injEq, NextRes.step.injEq] at h
      obtain ⟨rfl, rfl⟩ := h
      simp only [rankV]
      omega
    | rangev l u st nv fin =>
      simp only [seqNextF] at h
      by_cases hc : fin = true ∧ u ≤ nv
      · rw [if_pos hc] at h; cases h
      · rw [if_neg hc] at h
        simp only [Option.some.injEq, NextRes.step.injEq] at h
        obtain ⟨rfl, rfl⟩ := h
        simp [rankV]
    | concatenation seqs =>
      cases seqs with
      | nil => simp [seqNextF] at h
      | cons s0 rest =>
        simp only [seqNextF] at h
        cases h0 : seqNextF f s0 with
        | none => rw [h0] at h; cases h
        | some r0 =>
          rw [h0] at h
          cases r0 with
          | fault => cases h
          | empty => cases h
          | step h0v t0 =>
            obtain ⟨hh0, ht0⟩ := ih s0 h0v t0 h0
            simp only at h
            cases h1 : seqNextF f t0 with
            | none => rw [h1] at h; cases h
            | some r1 =>
              rw [h1] at h
              cases r1 with
              | fault => cases h
              | empty =>
                cases rest with
                | nil =>
                  simp only [Option.some.injEq, NextRes.step.injEq] at h
                  obtain ⟨rfl, rfl⟩ := h
                  simp only [rankV, rankL]
                  omega
                | cons s1 rest2 =>
                  cases rest2 with
                  | nil =>
                    simp only [Option.some.injEq, NextRes.step.injEq] at h
                    obtain ⟨rfl, rfl⟩ := h
                    simp only [rankV, rankL]
                    have := rankV_pos s0
                    omega
                  | cons s2 rest3 =>
                    simp only [Option.some.injEq, NextRes.step.injEq] at h
                    obtain ⟨rfl, rfl⟩ := h
                    simp only [rankV, rankL]
                    have := rankV_pos s0
                    omega
              | step h1v t1 =>
                simp only [Option.some.injEq, NextRes.step.injEq] at h
                obtain ⟨rfl, rfl⟩ := h
                simp only [rankV, rankL]
                omega

theorem rank_traverses {s : MalType} {elems : List MalType} (h : Traverses s elems) :
    ∀ e ∈ elems, rankV e < rankV s := by
  induction h with
  | empty f he => intro e he2; cases he2
  | step f hs ht ih =>
    intro e hmem
    obtain ⟨hh, htl⟩ := rank_next _ _ _ _ hs
    rcases List.mem_cons.mp hmem with rfl | hmem
    · exact hh
    · exact Nat.lt_of_lt_of_le (ih e hmem) htl

theorem rank_seqOf_seq : ∀ {a sa : MalType}, a.isSequentialI = true →
    seqOf a = some sa → rankV sa = rankV a := by
  intro a sa hq h
  cases a with
  | list items => cases Option.some.inj h; rfl
  | vector items => cases Option.some.inj h; rfl
  | consCell h0 t0 => cases Option.some.inj h; rfl
  | concatenation seqs => cases Option.some.inj h; rfl
  | _ => simp [MalType.isSequentialI] at hq

theorem seqOf_of_sequential {a : MalType} (hq : a.isSequentialI = true) :
    ∃ sa, seqOf a = some sa := by
  cases a with
  | list items => exact ⟨_, rfl⟩
  | vector items => exact ⟨_, rfl⟩
  | consCell h0 t0 => exact ⟨_, rfl⟩
  | concatenation seqs => exact ⟨_, rfl⟩
  | _ => simp [MalType.isSequentialI] at hq

/-- `Equals` returns true at some fuel (the fuel-free comparison
relation). -/
def EqT (a b : MalType) : Prop := ∃ f, equalsF f a b = some (.ok true)

/-- The two values never compare `Equals`-true (at any fuel): they are
either distinguished or incomparable. -/
def NEq (a b : MalType) : Prop := ∀ g, equalsF g a b ≠ some (.ok true)

mutual

/-- The reachable-map key invariant alone: every Map subterm holds
pairwise non-`Equals` keys (`immutable.Map.Set` replaces an `Equals`-equal
key, so no reachable map holds two of them).  Unlike `WFS` this neither
sorts the entries, forbids hash-stream collisions, nor demands
hashability. -/
def KeysOk : MalType → Prop
  | .list items => KeysOkList items
  | .vector items => KeysOkList items
  | .sliceSeq items => KeysOkList items
  | .listIteratorSeq items _ => KeysOkList items
  | .consCell h t => KeysOk h ∧ KeysOk t
  | .concatenation seqs => KeysOkList seqs
  | .mapv entries => KeysOkPairs entries ∧
      List.Pairwise (fun kv1 kv2 => NEq kv1.1 kv2.1 ∧ NEq kv2.1 kv1.1) entries
  | _ => True

/-- All members satisfy `KeysOk`. -/
def KeysOkList : List MalType → Prop
  | [] => True
  | x :: rest => KeysOk x ∧ KeysOkList rest

/-- All keys and values of the entry list satisfy `KeysOk`. -/
def KeysOkPairs : List (MalType × MalType) → Prop
  | [] => True
  | kv :: rest => KeysOk kv.1 ∧ KeysOk kv.2 ∧ KeysOkPairs rest

end

theorem keysOkList_mem : ∀ {l : List MalType}, KeysOkList l → ∀ {x}, x ∈ l → KeysOk x := by
  intro l
  induction l with
  | nil => intro _ x hx; cases hx
  | cons h t ih =>
    intro hwf x hx
    rw [KeysOkList] at hwf
    rcases List.mem_cons.mp hx with rfl | hx
    · exact hwf.1
    · exact ih hwf.2 hx

theorem keysOkPairs_mem : ∀ {es : List (MalType × MalType)}, KeysOkPairs es →
    ∀ {kv}, kv ∈ es → KeysOk kv.1 ∧ KeysOk kv.2 := by
  intro es
  induction es with
  | nil => intro _ kv hkv; cases hkv
  | cons h t ih =>
    intro hwf kv hkv
    rw [KeysOkPairs] at hwf
    rcases List.mem_cons.mp hkv with rfl | hkv
    · exact ⟨hwf.1, hwf.2.1⟩
    · exact ih hwf.2.2 hkv

theorem keysOk_next : ∀ (f : Nat) (s hd t : MalType), KeysOk s →
    seqNextF f s = some (.step hd t) → KeysOk hd ∧ KeysOk t := by
  intro f
  induction f with
  | zero => intro s hd t _ h; simp [seqNextF] at h
  | succ f ih =>
    intro s hd t hwf h
    cases s with
    | integer i => simp [seqNextF] at h
    | strv s => simp [seqNextF] at h
    | symbol n => simp [seqNextF] at h
    | keyword n => simp [seqNextF] at h
    | boolean b => simp [seqNextF] at h
    | nilv => simp [seqNextF] at h
    | runev c => simp [seqNextF] at h
    | list items => simp [seqNextF] at h
    | vector items => simp [seqNextF] at h
    | mapv es => simp [seqNextF] at h
    | func a b c d e => simp [seqNextF] at h
    | atom i => simp [seqNextF] at h
    | hostNil => simp [seqNextF] at h
    | sliceSeq items =>
      cases items with
      | nil => simp [seqNextF] at h
      | cons x rest =>
        simp only [seqNextF, Option.some.injEq, NextRes.step.injEq] at h
        obtain ⟨rfl, rfl⟩ := h
        rw [KeysOk, KeysOkList] at hwf
        refine ⟨hwf.1, ?_⟩
        rw [KeysOk]
        exact hwf.2
    | listIteratorSeq items i =>
      simp only [seqNextF] at h
      rw [KeysOk] at hwf
      cases hx : items.get? i with
      | none => rw [hx] at h; cases h
      | some x =>
        rw [hx] at h
        simp only [Option.some.injEq, NextRes.step.injEq] at h
        obtain ⟨rfl, rfl⟩ := h
        rw [List.get?_eq_getElem?] at hx
        have hlt : i < items.length := by
          by_contra hc
          push_neg at hc
          rw [List.getElem?_eq_none hc] at hx
          cases hx
        rw [List.getElem?_eq_getElem hlt] at hx
        constructor
        · refine keysOkList_mem hwf ?_
          rw [← Option.some.inj hx]
          exact List.getElem_mem hlt
        · rw [KeysOk]
          exact hwf
    | consCell h0 t0 =>
      simp only [seqNextF, Option.some.injEq, NextRes.step.injEq] at h
      obtain ⟨rfl, rfl⟩ := h
      rw [KeysOk] at hwf
      exact ⟨hwf.1, hwf.2⟩
    | rangev l u st nv fin =>
      simp only [seqNextF] at h
      by_cases hc : fin = true ∧ u ≤ nv
      · rw [if_pos hc] at h; cases h
      · rw [if_neg hc] at h
        simp only [Option.some.injEq, NextRes.step.injEq] at h
        obtain ⟨rfl, rfl⟩ := h
        exact ⟨trivial, trivial⟩
    | concatenation seqs =>
      cases seqs with
      | nil => simp [seqNextF] at h
      | cons s0 rest =>
        rw [KeysOk, KeysOkList] at hwf
        simp only [seqNextF] at h
        cases h0 : seqNextF f s0 with
        | none => rw [h0] at h; cases h
        | some r0 =>
          rw [h0] at h
          cases r0 with
          | fault => cases h
          | empty => cases h
          | step h0v t0 =>
            obtain ⟨hh0, ht0⟩ := ih s0 h0v t0 hwf.1 h0
            simp only at h
            cases h1 : seqNextF f t0 with
            | none => rw [h1] at h; cases h
            | some r1 =>
              rw [h1] at h
              cases r1 with
              | fault => cases h
              | empty =>
                cases rest with
                | nil =>
                  simp only [Option.some.injEq, NextRes.step.injEq] at h
                  obtain ⟨rfl, rfl⟩ := h
                  exact ⟨hh0, trivial⟩
                | cons s1 rest2 =>
                  cases rest2 with
                  | nil =>
                    simp only [Option.some.injEq, NextRes.step.injEq] at h
                    obtain ⟨rfl, rfl⟩ := h
                    have h2 := hwf.2
                    rw [KeysOkList] at h2
                    exact ⟨hh0, h2.1⟩
                  | cons s2 rest3 =>
                    simp only [Option.some.injEq, NextRes.step.injEq] at h
                    obtain ⟨rfl, rfl⟩ := h
                    refine ⟨hh0, ?_⟩
                    rw [KeysOk]
                    exact hwf.2
              | step h1v t1 =>
                simp only [Option.some.injEq, NextRes.step.injEq] at h
                obtain ⟨rfl, rfl⟩ := h
                refine ⟨hh0, ?_⟩
                rw [KeysOk, KeysOkList]
                exact ⟨ht0, hwf.2⟩

theorem keysOk_traverses {s : MalType} {elems : List MalType} (h : Traverses s elems)
    (hwf : KeysOk s) : ∀ e ∈ elems, KeysOk e := by
  induction h with
  | empty f he => intro e he2; cases he2
  | step f hs ht ih =>
    intro e hmem
    obtain ⟨hh, htl⟩ := keysOk_next _ _ _ _ hwf hs
    rcases List.mem_cons.mp hmem with rfl | hmem
    · exact hh
    · exact ih htl e hmem

theorem keysOk_seqOf : ∀ {a sa : MalType}, a.isSequentialI = true → KeysOk a →
    seqOf a = some sa → KeysOk sa := by
  intro a sa hq hwf h
  cases a with
  | list items => cases Option.some.inj h; exact hwf
  | vector items => cases Option.some.inj h; exact hwf
  | consCell h0 t0 => cases Option.some.inj h; exact hwf
  | concatenation seqs => cases Option.some.inj h; exact hwf
  | _ => simp [MalType.isSequentialI] at hq

/-- Values whose every `Equals` comparison terminates: simple values and
inert values immediately, sequences with a finite fully-walkable traversal
of totally-comparable elements, maps with totally-comparable keys and
values.  Values reached on either side of an `Equals`-true run satisfy
this (their traversals were walked to the end). -/
inductive TotalV : MalType → Prop where
  | simple {a : MalType} (h : a.isSimple = true) : TotalV a
  | other {a : MalType} (h1 : a.isSimple = false) (h2 : a.isSequentialI = false)
      (h3 : ∀ es, a ≠ .mapv es) : TotalV a
  | seq {a s : MalType} {l : List MalType}
      (h2 : a.isSequentialI = true) (ho : seqOf a = some s) (ht : Traverses s l)
      (hl : ∀ x ∈ l, TotalV x) : TotalV a
  | map {es : List (MalType × MalType)}
      (hk : ∀ kv ∈ es, TotalV kv.1) (hv : ∀ kv ∈ es, TotalV kv.2) :
      TotalV (.mapv es)

theorem equalsF_simple {f : Nat} {a b : MalType} (hs : a.isSimple = true) :
    equalsF (f + 1) a b = some (.ok (valueEquals a b)) := by
  simp [equalsF, hs]

theorem bool_not_true {b : Bool} (h : ¬b = true) : b = false := by
  cases b with
  | false => rfl
  | true => exact absurd rfl h

/-- Inversion of a true `Equals` run into the three productive shapes:
matching simple values, matching Maps with a true entry iteration, or
matching Sequentials with a true lockstep traversal. -/
theorem equalsF_true_cases {f : Nat} {a b : MalType}
    (h : equalsF f a b = some (.ok true)) :
    (a.isSimple = true ∧ valueEquals a b = true) ∨
    (∃ es1 es2 f', a = .mapv es1 ∧ b = .mapv es2 ∧ es1.length = es2.length ∧
      f' < f ∧ mapIterF f' es1 es2 = some (.ok true)) ∨
    (a.isSimple = false ∧ a.isSequentialI = true ∧ b.isSequentialI = true ∧
      ∃ sa sb f', seqOf a = some sa ∧ seqOf b = some sb ∧ f' < f ∧
        seqEqF f' sa sb = some (.ok true)) := by
  cases f with
  | zero => cases h
  | succ f =>
    by_cases hs : a.isSimple = true
    · rw [equalsF_simple hs] at h
      left
      refine ⟨hs, ?_⟩
      cases hv : valueEquals a b with
      | true => rfl
      | false => rw [hv] at h; cases h
    · have hs2 := bool_not_true hs
      by_cases hm : ∃ es1, a = MalType.mapv es1
      · obtain ⟨es1, rfl⟩ := hm
        by_cases hmb : ∃ es2, b = MalType.mapv es2
        · obtain ⟨es2, rfl⟩ := hmb
          rw [equalsF_mapv_mapv] at h
          by_cases hlen : es1.length = es2.length
          · rw [if_pos hlen] at h
            right; left
            exact ⟨es1, es2, f, rfl, rfl, hlen, Nat.lt_succ_self f, h⟩
          · rw [if_neg hlen] at h
            cases h
        · rw [equalsF_mapv_notmap (fun es he => hmb ⟨es, he⟩)] at h
          cases h
      · by_cases hq : a.isSequentialI = true
        · by_cases hqb : b.isSequentialI = true
          · obtain ⟨sa, hoa⟩ := seqOf_of_sequential hq
            obtain ⟨sb, hob⟩ := seqOf_of_sequential hqb
            rw [equalsF_seq_build hs2 hq hqb hoa hob] at h
            right; right
            exact ⟨hs2, hq, hqb, sa, sb, f, hoa, hob, Nat.lt_succ_self f, h⟩
          · rw [equalsF_seq_notseq hs2 hq (bool_not_true hqb)] at h
            cases h
        · rw [equalsF_other hs2 (bool_not_true hq) (fun es he => hm ⟨es, he⟩)] at h
          cases h

theorem valueEquals_eq : ∀ a b, valueEquals a b = true → a = b := by
  intro a b h
  cases a <;> cases b <;> simp [valueEquals] at h <;> simp [h]

theorem valueEquals_trans : ∀ a b c, valueEquals a b = true →
    valueEquals b c = true → valueEquals a c = true := by
  intro a b c hab hbc
  rw [valueEquals_eq a b hab]
  exact hbc

/-- Two totally-comparable values always compare to a boolean at some
fuel: `Equals` terminates on them. -/
theorem equalsF_total_of_totalV : ∀ (N : Nat) (a b : MalType),
    rankV a + rankV b ≤ N → TotalV a → TotalV b →
    ∃ f r, equalsF f a b = some (.ok r) := by
  intro N
  induction N with
  | zero =>
    intro a b hle _ _
    have := rankV_pos a
    have := rankV_pos b
    omega
  | succ N ih =>
    intro a b hle hta htb
    by_cases hs : a.isSimple = true
    · exact ⟨1, valueEquals a b, by rw [equalsF_simple hs]⟩
    have hs2 := bool_not_true hs
    cases hta with
    | simple h => exact absurd h hs
    | other h1 h2 h3 => exact ⟨1, false, equalsF_other hs2 h2 h3⟩
    | seq h2 ho ht hl =>
      rename_i sa la
      by_cases hqb : b.isSequentialI = true
      · cases htb with
        | simple hbs => rw [seq_not_simple hqb] at hbs; cases hbs
        | other hb1 hb2 hb3 => rw [hqb] at hb2; cases hb2
        | map hmap => simp [MalType.isSequentialI] at hqb
        | seq hb2 hob htb2 hlb =>
          rename_i sb lb
          have hcmp : ∀ x ∈ la, ∀ y ∈ lb, ∃ f r, equalsF f x y = some (.ok r) := by
            intro x hx y hy
            have hrx : rankV x < rankV a := by
              rw [← rank_seqOf_seq h2 ho]
              exact rank_traverses ht x hx
            have hry : rankV y < rankV b := by
              rw [← rank_seqOf_seq hb2 hob]
              exact rank_traverses htb2 y hy
            exact ih x y (by omega) (hl x hx) (hlb y hy)
          obtain ⟨f0, r0, hseq⟩ := seqEqF_total la sa sb lb ht htb2 hcmp
          exact ⟨f0 + 1, r0, by rw [equalsF_seq_build hs2 h2 hqb ho hob]; exact hseq⟩
      · exact ⟨1, false, equalsF_seq_notseq hs2 h2 (bool_not_true hqb)⟩
    | map hmapk hmapv =>
      rename_i es1
      by_cases hmb : ∃ es2, b = MalType.mapv es2
      · obtain ⟨es2, rfl⟩ := hmb
        have hmapb : ∀ kv ∈ es2, TotalV kv.1 ∧ TotalV kv.2 := by
          cases htb with
          | simple hbs => simp [MalType.isSimple] at hbs
          | other hb1 hb2 hb3 => exact absurd rfl (hb3 es2)
          | seq hb2 hob htb2 hlb => simp [MalType.isSequentialI] at hb2
          | map hm2k hm2v => exact fun kv hkv => ⟨hm2k kv hkv, hm2v kv hkv⟩
        by_cases hlen : es1.length = es2.length
        · have hlook : ∀ kv ∈ es1, ∃ f r, lookupF f es2 kv.1 = some (.ok r) := by
            intro kv hkv
            refine lookupF_total es2 kv.1 ?_
            intro kv2 hkv2
            have h1 := rankP_mem hkv
            have h2 := rankP_mem hkv2
            have p1 := rankV_pos kv.2
            have p2 := rankV_pos kv2.2
            exact ih kv.1 kv2.1 (by simp only [rankV] at hle; omega)
              (hmapk kv hkv) (hmapb kv2 hkv2).1
          have hval : ∀ kv ∈ es1, ∀ kv2 ∈ es2,
              ∃ f r, equalsF f kv.2 kv2.2 = some (.ok r) := by
            intro kv hkv kv2 hkv2
            have h1 := rankP_mem hkv
            have h2 := rankP_mem hkv2
            have p1 := rankV_pos kv.1
            have p2 := rankV_pos kv2.1
            exact ih kv.2 kv2.2 (by simp only [rankV] at hle; omega)
              (hmapv kv hkv) (hmapb kv2 hkv2).2
          obtain ⟨f0, r0, hmi⟩ := mapIterF_total es1 es2 hlook hval
          refine ⟨f0 + 1, r0, ?_⟩
          rw [equalsF_mapv_mapv, if_pos hlen]
          exact hmi
        · exact ⟨1, false, by rw [equalsF_mapv_mapv, if_neg hlen]⟩
      · exact ⟨1, false, equalsF_mapv_notmap (fun es he => hmb ⟨es, he⟩)⟩

theorem list_split_at {α : Type} (l : List α) (i : Nat) (h : i < l.length) :
    l = l.take i ++ l[i] :: l.drop (i + 1) := by
  conv_lhs => rw [← List.take_append_drop i l]
  rw [List.drop_eq_getElem_cons h]

theorem mem_take_index {α : Type} : ∀ {l : List α} {x : α} {i : Nat},
    x ∈ l.take i → ∃ j, ∃ hj : j < l.length, j < i ∧ l[j] = x := by
  intro l
  induction l with
  | nil => intro x i hx; simp at hx
  | cons h t ih =>
    intro x i hx
    cases i with
    | zero => simp at hx
    | succ i =>
      rw [List.take_succ_cons] at hx
      rcases List.mem_cons.mp hx with rfl | hx2
      · exact ⟨0, by simp, Nat.succ_pos i, rfl⟩
      · obtain ⟨j, hj, hji, hjx⟩ := ih hx2
        exact ⟨j + 1, by simp; omega, by omega, by simpa using hjx⟩

/-- Fin-indexed alignment extracted from a true `mapIterF` run: every
entry of the first list has an `Equals`-true key and value at some index of
the second. -/
theorem mapIter_align_inv {f : Nat} {es1 es2 : List (MalType × MalType)}
    (h : mapIterF f es1 es2 = some (.ok true)) :
    ∀ i, (hi : i < es1.length) → ∃ m, ∃ hm : m < es2.length,
      EqT es1[i].1 es2[m].1 ∧ EqT es1[i].2 es2[m].2 := by
  intro i hi
  have hmem : es1[i] ∈ es1 := List.getElem_mem hi
  obtain ⟨w, ⟨f1, hf1, hl1⟩, f2, hf2, he2⟩ := mapIterF_true_inv f es1 es2 h es1[i] hmem
  obtain ⟨pre, ky, post, hsplit, hpre, f3, hf3, hky⟩ :=
    lookupF_some_inv f1 es2 es1[i].1 w hl1
  have hm : pre.length < es2.length := by
    rw [hsplit, List.length_append, List.length_cons]
    omega
  have hget2 : es2[pre.length]? = some (ky, w) := by
    rw [hsplit]
    rw [List.getElem?_append_right (Nat.le_refl pre.length)]
    simp
  have hget : es2[pre.length] = (ky, w) := by
    rw [List.getElem?_eq_getElem hm] at hget2
    exact Option.some.inj hget2
  refine ⟨pre.length, hm, ?_, ?_⟩
  · rw [hget]
    exact ⟨f3, hky⟩
  · rw [hget]
    exact ⟨f2, he2⟩

/-- Builds a true `mapIterF` run from an alignment into the target list,
provided key comparisons against the target terminate and matches are
unique (so the aligned entry is the lookup's first hit). -/
theorem mapIter_of_align (es_s es_t : List (MalType × MalType))
    (halign : ∀ i, (hi : i < es_s.length) → ∃ m, ∃ hm : m < es_t.length,
      EqT es_s[i].1 es_t[m].1 ∧ EqT es_s[i].2 es_t[m].2)
    (hfalse : ∀ i (hi : i < es_s.length) (m : Nat) (hm : m < es_t.length),
      ¬ EqT es_s[i].1 es_t[m].1 →
        ∃ f, equalsF f es_s[i].1 es_t[m].1 = some (.ok false))
    (huniq : ∀ i (hi : i < es_s.length) (m m' : Nat) (hm : m < es_t.length)
      (hm' : m' < es_t.length),
      EqT es_s[i].1 es_t[m].1 → EqT es_s[i].1 es_t[m'].1 → m = m') :
    ∃ f, mapIterF f es_s es_t = some (.ok true) := by
  refine mapIterF_build es_s es_t ?_
  intro kv hkv
  obtain ⟨i, hi, hkveq⟩ := List.mem_iff_getElem.mp hkv
  obtain ⟨m, hm, hkey, hval⟩ := halign i hi
  refine ⟨es_t[m].2, ?_, ?_⟩
  · have hsp := list_split_at es_t m hm
    have hpre : ∀ kv2 ∈ es_t.take m, ∃ f, equalsF f es_s[i].1 kv2.1 =
        some (.ok false) := by
      intro kv2 hkv2
      obtain ⟨j, hj, hjm, hjx⟩ := mem_take_index hkv2
      have hne : ¬ EqT es_s[i].1 es_t[j].1 := by
        intro hcon
        have := huniq i hi j m hj hm hcon hkey
        omega
      obtain ⟨f0, hf0⟩ := hfalse i hi j hj hne
      rw [hjx] at hf0
      exact ⟨f0, hf0⟩
    have := lookupF_build (es_t.take m) es_s[i].1 es_t[m].1 es_t[m].2
      (es_t.drop (m + 1)) hpre hkey
    rw [← hsp] at this
    rw [← hkveq]
    exact this
  · rw [← hkveq]
    exact hval

/-- An injective total alignment between equal-length lists is surjective:
every target entry is the image of some source entry. -/
theorem align_surj (es1 es2 : List (MalType × MalType)) (hlen : es1.length = es2.length)
    (halign : ∀ i, (hi : i < es1.length) → ∃ m, ∃ hm : m < es2.length,
      EqT es1[i].1 es2[m].1 ∧ EqT es1[i].2 es2[m].2)
    (hinj : ∀ i j (hi : i < es1.length) (hj : j < es1.length) (m : Nat)
      (hm : m < es2.length),
      EqT es1[i].1 es2[m].1 → EqT es1[j].1 es2[m].1 → i = j) :
    ∀ m, (hm : m < es2.length) → ∃ i, ∃ hi : i < es1.length,
      EqT es1[i].1 es2[m].1 ∧ EqT es1[i].2 es2[m].2 := by
  intro m hm
  classical
  have hch : ∀ i : Fin es1.length, ∃ mf : Fin es2.length,
      EqT es1[i.val].1 es2[mf.val].1 ∧ EqT es1[i.val].2 es2[mf.val].2 := by
    intro i
    obtain ⟨m0, hm0, hk, hv⟩ := halign i.val i.2
    exact ⟨⟨m0, hm0⟩, hk, hv⟩
  let φ : Fin es1.length → Fin es2.length := fun i => (hch i).choose
  have hφ : ∀ i : Fin es1.length,
      EqT es1[i.val].1 es2[(φ i).val].1 ∧ EqT es1[i.val].2 es2[(φ i).val].2 :=
    fun i => (hch i).choose_spec
  have hφinj : Function.Injective φ := by
    intro i j hij
    have h1 := (hφ i).1
    have h2 := (hφ j).1
    rw [hij] at h1
    exact Fin.ext (hinj i.val j.val i.2 j.2 (φ j).val (φ j).2 h1 h2)
  have hbij : Function.Bijective φ := by
    rw [Fintype.bijective_iff_injective_and_card]
    exact ⟨hφinj, by simp [hlen]⟩
  obtain ⟨i, hi⟩ := hbij.2 ⟨m, hm⟩
  have h1 := (hφ i).1
  have h2 := (hφ i).2
  rw [hi] at h1 h2
  exact ⟨i.val, i.2, h1, h2⟩

theorem forall₂_compose {l1 l2 l3 : List MalType} {R S T : MalType → MalType → Prop}
    (h1 : List.Forall₂ R l1 l2) :
    ∀ {l3 : List MalType}, List.Forall₂ S l2 l3 →
      (∀ x y z, R x y → S y z → T x z) → List.Forall₂ T l1 l3 := by
  induction h1 with
  | nil =>
    intro l3 h2 hc
    cases h2
    exact List.Forall₂.nil
  | cons hxy hrest ih =>
    intro l3 h2 hc
    cases h2 with
    | cons hyz hrest2 =>
      exact List.Forall₂.cons (hc _ _ _ hxy hyz) (ih hrest2 hc)

theorem forall₂_imp_mem {R S : MalType → MalType → Prop} :
    ∀ {l1 l2 : List MalType}, List.Forall₂ R l1 l2 →
      (∀ x y, x ∈ l1 → y ∈ l2 → R x y → S x y) → List.Forall₂ S l1 l2 := by
  intro l1 l2 h
  induction h with
  | nil => intro _; exact List.Forall₂.nil
  | cons hxy hrest ih =>
    intro hc
    refine List.Forall₂.cons
      (hc _ _ (List.mem_cons_self _ _) (List.mem_cons_self _ _) hxy) (ih ?_)
    intro x y hx hy hr
    exact hc x y (List.mem_cons_of_mem _ hx) (List.mem_cons_of_mem _ hy) hr

theorem forall₂_compose_mem {R S T : MalType → MalType → Prop} :
    ∀ {l1 l2 l3 : List MalType}, List.Forall₂ R l1 l2 → List.Forall₂ S l2 l3 →
      (∀ x y z, x ∈ l1 → y ∈ l2 → z ∈ l3 → R x y → S y z → T x z) →
      List.Forall₂ T l1 l3 := by
  intro l1 l2 l3 h1
  induction h1 generalizing l3 with
  | nil =>
    intro h2 hc
    cases h2
    exact List.Forall₂.nil
  | cons hxy hrest ih =>
    intro h2 hc
    cases h2 with
    | cons hyz hrest2 =>
      refine List.Forall₂.cons
        (hc _ _ _ (List.mem_cons_self _ _) (List.mem_cons_self _ _)
          (List.mem_cons_self _ _) hxy hyz) (ih hrest2 ?_)
      intro x y z hx hy hz hr hs
      exact hc x y z (List.mem_cons_of_mem _ hx) (List.mem_cons_of_mem _ hy)
        (List.mem_cons_of_mem _ hz) hr hs

theorem rank_entry_lt {es : List (MalType × MalType)} {i : Nat} (hi : i < es.length) :
    rankV es[i].1 < rankV (.mapv es) ∧ rankV es[i].2 < rankV (.mapv es) := by
  have h1 := rankP_mem (List.getElem_mem hi)
  have h2 := rankV_pos es[i].1
  have h3 := rankV_pos es[i].2
  simp only [rankV]
  omega

theorem keysOk_entry {es : List (MalType × MalType)} {i : Nat}
    (hk : KeysOk (.mapv es)) (hi : i < es.length) :
    KeysOk es[i].1 ∧ KeysOk es[i].2 := by
  rw [KeysOk] at hk
  exact keysOkPairs_mem hk.1 (List.getElem_mem hi)

theorem pairwise_neq_of {es : List (MalType × MalType)}
    (hpw : List.Pairwise (fun kv1 kv2 => NEq kv1.1 kv2.1 ∧ NEq kv2.1 kv1.1) es) :
    ∀ i j (hi : i < es.length) (hj : j < es.length), i ≠ j →
      NEq es[i].1 es[j].1 := by
  intro i j hi hj hne
  rcases Nat.lt_or_ge i j with hij | hij
  · exact (List.pairwise_iff_getElem.mp hpw i j hi hj hij).1
  · have hji : j < i := by omega
    exact (List.pairwise_iff_getElem.mp hpw j i hj hi hji).2

/-- With pairwise non-`Equals` keys, a probe key `Equals`-true against two
entries forces the same index (given flip and compose oracles for the key
comparisons). -/
theorem map_uniq_of (k : MalType) (es : List (MalType × MalType))
    (hpw : List.Pairwise (fun kv1 kv2 => NEq kv1.1 kv2.1 ∧ NEq kv2.1 kv1.1) es)
    (oS : ∀ p (hp : p < es.length), EqT k es[p].1 → EqT es[p].1 k)
    (oT : ∀ p q (hp : p < es.length) (hq : q < es.length),
      EqT es[p].1 k → EqT k es[q].1 → EqT es[p].1 es[q].1) :
    ∀ p q (hp : p < es.length) (hq : q < es.length),
      EqT k es[p].1 → EqT k es[q].1 → p = q := by
  intro p q hp hq h1 h2
  by_contra hne
  obtain ⟨f0, hf0⟩ := oT p q hp hq (oS p hp h1) h2
  exact pairwise_neq_of hpw p q hp hq hne f0 hf0

/-- With pairwise non-`Equals` keys in the source, two source keys
`Equals`-true against a common target entry force the same source index. -/
theorem map_inj_of (es1 es2 : List (MalType × MalType))
    (hpw : List.Pairwise (fun kv1 kv2 => NEq kv1.1 kv2.1 ∧ NEq kv2.1 kv1.1) es1)
    (oS : ∀ j m (hj : j < es1.length) (hm : m < es2.length),
      EqT es1[j].1 es2[m].1 → EqT es2[m].1 es1[j].1)
    (oT : ∀ i m j (hi : i < es1.length) (hm : m < es2.length) (hj : j < es1.length),
      EqT es1[i].1 es2[m].1 → EqT es2[m].1 es1[j].1 → EqT es1[i].1 es1[j].1) :
    ∀ i j (hi : i < es1.length) (hj : j < es1.length) (m : Nat) (hm : m < es2.length),
      EqT es1[i].1 es2[m].1 → EqT es1[j].1 es2[m].1 → i = j := by
  intro i j hi hj m hm h1 h2
  by_contra hne
  obtain ⟨f0, hf0⟩ := oT i m j hi hm hj h1 (oS j m hj hm h2)
  exact pairwise_neq_of hpw i j hi hj hne f0 hf0

/-- The joint induction on the rank bound `N`: a true `Equals` run forces
total comparability of both sides; under the pairwise-distinct-keys
invariant it is symmetric; and it composes transitively. -/
theorem equalsF_sym_aux : ∀ N : Nat,
    (∀ a b, max (rankV a) (rankV b) ≤ N → KeysOk a → KeysOk b →
      EqT a b → TotalV a ∧ TotalV b) ∧
    (∀ a b, max (rankV a) (rankV b) ≤ N → KeysOk a → KeysOk b →
      EqT a b → EqT b a) ∧
    (∀ a b c, max (rankV a) (max (rankV b) (rankV c)) ≤ N →
      KeysOk a → KeysOk b → KeysOk c →
      EqT a b → EqT b c → EqT a c) := by
  intro N
  induction N with
  | zero =>
    refine ⟨?_, ?_, ?_⟩
    · intro a b hle _ _ _
      have := rankV_pos a
      omega
    · intro a b hle _ _ _
      have := rankV_pos a
      omega
    · intro a b c hle _ _ _ _ _
      have := rankV_pos a
      omega
  | succ N ih =>
    obtain ⟨ihE, ihS, ihT⟩ := ih
    refine ⟨?_, ?_, ?_⟩
    -- E: a true run forces total comparability of both sides.
    · intro a b hle hka hkb ⟨f, heq⟩
      have hra : rankV a ≤ N + 1 := le_trans (Nat.le_max_left _ _) hle
      have hrb : rankV b ≤ N + 1 := le_trans (Nat.le_max_right _ _) hle
      rcases equalsF_true_cases heq with ⟨hs, hv⟩ | hcase | hcase
      · obtain rfl := valueEquals_eq a b hv
        exact ⟨.simple hs, .simple hs⟩
      · obtain ⟨es1, es2, f', rfl, rfl, hlen, hf', hmi⟩ := hcase
        have halign := mapIter_align_inv hmi
        have hEentry : ∀ i, (hi : i < es1.length) → ∃ m, ∃ hm : m < es2.length,
            (TotalV es1[i].1 ∧ TotalV es2[m].1) ∧
            (TotalV es1[i].2 ∧ TotalV es2[m].2) ∧
            EqT es1[i].1 es2[m].1 ∧ EqT es1[i].2 es2[m].2 := by
          intro i hi
          obtain ⟨m, hm, hk, hv⟩ := halign i hi
          obtain ⟨hri1, hri2⟩ := rank_entry_lt hi
          obtain ⟨hrm1, hrm2⟩ := rank_entry_lt hm
          obtain ⟨hki1, hki2⟩ := keysOk_entry hka hi
          obtain ⟨hkm1, hkm2⟩ := keysOk_entry hkb hm
          exact ⟨m, hm, ihE _ _ (by omega) hki1 hkm1 hk,
            ihE _ _ (by omega) hki2 hkm2 hv, hk, hv⟩
        have hpw1 : List.Pairwise
            (fun kv1 kv2 => NEq kv1.1 kv2.1 ∧ NEq kv2.1 kv1.1) es1 := by
          rw [KeysOk] at hka
          exact hka.2
        have hinj := map_inj_of es1 es2 hpw1
          (fun j m hj hm hq => by
            obtain ⟨hrj1, -⟩ := rank_entry_lt hj
            obtain ⟨hrm1, -⟩ := rank_entry_lt hm
            exact ihS _ _ (by omega) (keysOk_entry hka hj).1
              (keysOk_entry hkb hm).1 hq)
          (fun i m j hi hm hj h1 h2 => by
            obtain ⟨hri1, -⟩ := rank_entry_lt hi
            obtain ⟨hrm1, -⟩ := rank_entry_lt hm
            obtain ⟨hrj1, -⟩ := rank_entry_lt hj
            exact ihT _ _ _ (by omega) (keysOk_entry hka hi).1
              (keysOk_entry hkb hm).1 (keysOk_entry hka hj).1 h1 h2)
        have hsurj := align_surj es1 es2 hlen halign hinj
        constructor
        · refine TotalV.map ?_ ?_
          · intro kv hkv
            obtain ⟨i, hi, rfl⟩ := List.mem_iff_getElem.mp hkv
            obtain ⟨m, hm, hE1, -, -⟩ := hEentry i hi
            exact hE1.1
          · intro kv hkv
            obtain ⟨i, hi, rfl⟩ := List.mem_iff_getElem.mp hkv
            obtain ⟨m, hm, -, hE2, -⟩ := hEentry i hi
            exact hE2.1
        · refine TotalV.map ?_ ?_
          · intro kv hkv
            obtain ⟨m, hm, rfl⟩ := List.mem_iff_getElem.mp hkv
            obtain ⟨i, hi, hk, -⟩ := hsurj m hm
            obtain ⟨hri1, -⟩ := rank_entry_lt hi
            obtain ⟨hrm1, -⟩ := rank_entry_lt hm
            exact (ihE _ _ (by omega) (keysOk_entry hka hi).1
              (keysOk_entry hkb hm).1 hk).2
          · intro kv hkv
            obtain ⟨m, hm, rfl⟩ := List.mem_iff_getElem.mp hkv
            obtain ⟨i, hi, -, hv⟩ := hsurj m hm
            obtain ⟨-, hri2⟩ := rank_entry_lt hi
            obtain ⟨-, hrm2⟩ := rank_entry_lt hm
            exact (ihE _ _ (by omega) (keysOk_entry hka hi).2
              (keysOk_entry hkb hm).2 hv).2
      · obtain ⟨hs2, hqa, hqb, sa, sb, f', hoa, hob, hf', hseq⟩ := hcase
        obtain ⟨la, lb, hta, htb, hfa⟩ := seqEqF_true_inv f' sa sb hseq
        have hksa := keysOk_seqOf hqa hka hoa
        have hksb := keysOk_seqOf hqb hkb hob
        have helem : ∀ x ∈ la, ∀ y ∈ lb, EqT x y → TotalV x ∧ TotalV y := by
          intro x hx y hy hq
          have hrx : rankV x < rankV a := by
            rw [← rank_seqOf_seq hqa hoa]
            exact rank_traverses hta x hx
          have hry : rankV y < rankV b := by
            rw [← rank_seqOf_seq hqb hob]
            exact rank_traverses htb y hy
          exact ihE x y (by omega) (keysOk_traverses hta hksa x hx)
            (keysOk_traverses htb hksb y hy) hq
        constructor
        · refine TotalV.seq hqa hoa hta ?_
          intro x hx
          obtain ⟨y, hy, f0, hf0, h0⟩ := forall₂_mem_left hfa hx
          exact (helem x hx y hy ⟨f0, h0⟩).1
        · refine TotalV.seq hqb hob htb ?_
          intro y hy
          obtain ⟨x, hx, f0, hf0, h0⟩ := forall₂_mem_right hfa hy
          exact (helem x hx y hy ⟨f0, h0⟩).2
    -- S: symmetry of the true case.
    · intro a b hle hka hkb hab
      obtain ⟨f, heq⟩ := hab
      have hra : rankV a ≤ N + 1 := le_trans (Nat.le_max_left _ _) hle
      have hrb : rankV b ≤ N + 1 := le_trans (Nat.le_max_right _ _) hle
      rcases equalsF_true_cases heq with ⟨hs, hv⟩ | hcase | hcase
      · obtain rfl := valueEquals_eq a b hv
        exact ⟨f, heq⟩
      · obtain ⟨es1, es2, f', rfl, rfl, hlen, hf', hmi⟩ := hcase
        have halign := mapIter_align_inv hmi
        have hpw1 : List.Pairwise
            (fun kv1 kv2 => NEq kv1.1 kv2.1 ∧ NEq kv2.1 kv1.1) es1 := by
          rw [KeysOk] at hka
          exact hka.2
        have hSkey : ∀ i m (hi : i < es1.length) (hm : m < es2.length),
            EqT es1[i].1 es2[m].1 → EqT es2[m].1 es1[i].1 := by
          intro i m hi hm hq
          obtain ⟨hri1, -⟩ := rank_entry_lt hi
          obtain ⟨hrm1, -⟩ := rank_entry_lt hm
          exact ihS _ _ (by omega) (keysOk_entry hka hi).1 (keysOk_entry hkb hm).1 hq
        have hSval : ∀ i m (hi : i < es1.length) (hm : m < es2.length),
            EqT es1[i].2 es2[m].2 → EqT es2[m].2 es1[i].2 := by
          intro i m hi hm hq
          obtain ⟨-, hri2⟩ := rank_entry_lt hi
          obtain ⟨-, hrm2⟩ := rank_entry_lt hm
          exact ihS _ _ (by omega) (keysOk_entry hka hi).2 (keysOk_entry hkb hm).2 hq
        have hinj := map_inj_of es1 es2 hpw1
          (fun j m hj hm hq => hSkey j m hj hm hq)
          (fun i m j hi hm hj h1 h2 => by
            obtain ⟨hri1, -⟩ := rank_entry_lt hi
            obtain ⟨hrm1, -⟩ := rank_entry_lt hm
            obtain ⟨hrj1, -⟩ := rank_entry_lt hj
            exact ihT _ _ _ (by omega) (keysOk_entry hka hi).1
              (keysOk_entry hkb hm).1 (keysOk_entry hka hj).1 h1 h2)
        have hsurj := align_surj es1 es2 hlen halign hinj
        have hTotal1 : ∀ i, (hi : i < es1.length) → TotalV es1[i].1 := by
          intro i hi
          obtain ⟨m, hm, hk, -⟩ := halign i hi
          obtain ⟨hri1, -⟩ := rank_entry_lt hi
          obtain ⟨hrm1, -⟩ := rank_entry_lt hm
          exact (ihE _ _ (by omega) (keysOk_entry hka hi).1
            (keysOk_entry hkb hm).1 hk).1
        have hTotal2 : ∀ m, (hm : m < es2.length) → TotalV es2[m].1 := by
          intro m hm
          obtain ⟨i, hi, hk, -⟩ := hsurj m hm
          obtain ⟨hri1, -⟩ := rank_entry_lt hi
          obtain ⟨hrm1, -⟩ := rank_entry_lt hm
          exact (ihE _ _ (by omega) (keysOk_entry hka hi).1
            (keysOk_entry hkb hm).1 hk).2
        obtain ⟨fm, hfm⟩ := mapIter_of_align es2 es1
          (fun m hm => by
            obtain ⟨i, hi, hk, hv⟩ := hsurj m hm
            exact ⟨i, hi, hSkey i m hi hm hk, hSval i m hi hm hv⟩)
          (fun m hm j hj hne => by
            have ht1 := hTotal2 m hm
            have ht2 := hTotal1 j hj
            obtain ⟨f0, r0, h0⟩ := equalsF_total_of_totalV
              (rankV es2[m].1 + rankV es1[j].1) es2[m].1 es1[j].1
              (Nat.le_refl _) ht1 ht2
            cases r0 with
            | true => exact absurd ⟨f0, h0⟩ hne
            | false => exact ⟨f0, h0⟩)
          (fun m hm p q hp hq h1 h2 => by
            refine map_uniq_of es2[m].1 es1 hpw1 ?_ ?_ p q hp hq h1 h2
            · intro p2 hp2 hq2
              refine ihS _ _ ?_ (keysOk_entry hkb hm).1 (keysOk_entry hka hp2).1 hq2
              obtain ⟨hrp, -⟩ := rank_entry_lt hp2
              obtain ⟨hrm, -⟩ := rank_entry_lt hm
              omega
            · intro p2 q2 hp2 hq2 h3 h4
              obtain ⟨hrp, -⟩ := rank_entry_lt hp2
              obtain ⟨hrq, -⟩ := rank_entry_lt hq2
              obtain ⟨hrm, -⟩ := rank_entry_lt hm
              exact ihT _ _ _ (by omega) (keysOk_entry hka hp2).1
                (keysOk_entry hkb hm).1 (keysOk_entry hka hq2).1 h3 h4)
        refine ⟨fm + 1, ?_⟩
        rw [equalsF_mapv_mapv, if_pos hlen.symm]
        exact hfm
      · obtain ⟨hs2, hqa, hqb, sa, sb, f', hoa, hob, hf', hseq⟩ := hcase
        obtain ⟨la, lb, hta, htb, hfa⟩ := seqEqF_true_inv f' sa sb hseq
        have hksa := keysOk_seqOf hqa hka hoa
        have hksb := keysOk_seqOf hqb hkb hob
        have hflip : List.Forall₂ (fun y x => ∃ g, equalsF g y x = some (.ok true))
            lb la := by
          refine List.Forall₂.flip (forall₂_imp_mem hfa ?_)
          intro x y hx hy hr
          obtain ⟨f0, hf0, h0⟩ := hr
          have hrx : rankV x < rankV a := by
            rw [← rank_seqOf_seq hqa hoa]
            exact rank_traverses hta x hx
          have hry : rankV y < rankV b := by
            rw [← rank_seqOf_seq hqb hob]
            exact rank_traverses htb y hy
          exact ihS x y (by omega) (keysOk_traverses hta hksa x hx)
            (keysOk_traverses htb hksb y hy) ⟨f0, h0⟩
        obtain ⟨g, hg⟩ := seqEqF_build lb sb sa la htb hta hflip
        exact ⟨g + 1, by
          rw [equalsF_seq_build (seq_not_simple hqb) hqb hqa hob hoa]
          exact hg⟩
    -- T: transitivity of the true case.
    · intro a b c hle hka hkb hkc hab hbc
      have hra : rankV a ≤ N + 1 := le_trans (Nat.le_max_left _ _) hle
      have hrb : rankV b ≤ N + 1 :=
        le_trans (le_trans (Nat.le_max_left _ _) (Nat.le_max_right _ _)) hle
      have hrc : rankV c ≤ N + 1 :=
        le_trans (le_trans (Nat.le_max_right _ _) (Nat.le_max_right _ _)) hle
      obtain ⟨f1, heq1⟩ := hab
      rcases equalsF_true_cases heq1 with ⟨hs, hv⟩ | hcase | hcase
      · obtain rfl := valueEquals_eq a b hv
        exact hbc
      · obtain ⟨es1, es2, f', rfl, rfl, hlen12, hf', hmi12⟩ := hcase
        obtain ⟨f2, heq2⟩ := hbc
        rcases equalsF_true_cases heq2 with ⟨hs2, -⟩ | hcase2 | hcase2
        · simp [MalType.isSimple] at hs2
        · obtain ⟨es2x, es3, f2', heqx, rfl, hlen23, hf2', hmi23⟩ := hcase2
          have hx2 : es2x = es2 := by
            injection heqx with h
            exact h.symm
          rw [hx2] at hlen23 hmi23
          have halign12 := mapIter_align_inv hmi12
          have halign23 := mapIter_align_inv hmi23
          have hpw2 : List.Pairwise
              (fun kv1 kv2 => NEq kv1.1 kv2.1 ∧ NEq kv2.1 kv1.1) es2 := by
            rw [KeysOk] at hkb
            exact hkb.2
          have hpw3 : List.Pairwise
              (fun kv1 kv2 => NEq kv1.1 kv2.1 ∧ NEq kv2.1 kv1.1) es3 := by
            rw [KeysOk] at hkc
            exact hkc.2
          -- compose the alignments
          have halign13 : ∀ i, (hi : i < es1.length) → ∃ p, ∃ hp : p < es3.length,
              EqT es1[i].1 es3[p].1 ∧ EqT es1[i].2 es3[p].2 := by
            intro i hi
            obtain ⟨m, hm, hk12, hv12⟩ := halign12 i hi
            obtain ⟨p, hp, hk23, hv23⟩ := halign23 m hm
            obtain ⟨hri1, hri2⟩ := rank_entry_lt hi
            obtain ⟨hrm1, hrm2⟩ := rank_entry_lt hm
            obtain ⟨hrp1, hrp2⟩ := rank_entry_lt hp
            refine ⟨p, hp, ?_, ?_⟩
            · exact ihT _ _ _ (by omega) (keysOk_entry hka hi).1
                (keysOk_entry hkb hm).1 (keysOk_entry hkc hp).1 hk12 hk23
            · exact ihT _ _ _ (by omega) (keysOk_entry hka hi).2
                (keysOk_entry hkb hm).2 (keysOk_entry hkc hp).2 hv12 hv23
          have hinj23 := map_inj_of es2 es3 hpw2
            (fun j m hj hm hq => by
              obtain ⟨hrj1, -⟩ := rank_entry_lt hj
              obtain ⟨hrm1, -⟩ := rank_entry_lt hm
              exact ihS _ _ (by omega) (keysOk_entry hkb hj).1
                (keysOk_entry hkc hm).1 hq)
            (fun i m j hi hm hj h1 h2 => by
              obtain ⟨hri1, -⟩ := rank_entry_lt hi
              obtain ⟨hrm1, -⟩ := rank_entry_lt hm
              obtain ⟨hrj1, -⟩ := rank_entry_lt hj
              exact ihT _ _ _ (by omega) (keysOk_entry hkb hi).1
                (keysOk_entry hkc hm).1 (keysOk_entry hkb hj).1 h1 h2)
          have hsurj23 := align_surj es2 es3 hlen23 halign23 hinj23
          have hTotal1 : ∀ i, (hi : i < es1.length) → TotalV es1[i].1 := by
            intro i hi
            obtain ⟨m, hm, hk, -⟩ := halign12 i hi
            obtain ⟨hri1, -⟩ := rank_entry_lt hi
            obtain ⟨hrm1, -⟩ := rank_entry_lt hm
            exact (ihE _ _ (by omega) (keysOk_entry hka hi).1
              (keysOk_entry hkb hm).1 hk).1
          have hTotal3 : ∀ p, (hp : p < es3.length) → TotalV es3[p].1 := by
            intro p hp
            obtain ⟨m, hm, hk, -⟩ := hsurj23 p hp
            obtain ⟨hrm1, -⟩ := rank_entry_lt hm
            obtain ⟨hrp1, -⟩ := rank_entry_lt hp
            exact (ihE _ _ (by omega) (keysOk_entry hkb hm).1
              (keysOk_entry hkc hp).1 hk).2
          obtain ⟨fm, hfm⟩ := mapIter_of_align es1 es3 halign13
            (fun i hi p hp hne => by
              obtain ⟨f0, r0, h0⟩ := equalsF_total_of_totalV
                (rankV es1[i].1 + rankV es3[p].1) es1[i].1 es3[p].1
                (Nat.le_refl _) (hTotal1 i hi) (hTotal3 p hp)
              cases r0 with
              | true => exact absurd ⟨f0, h0⟩ hne
              | false => exact ⟨f0, h0⟩)
            (fun i hi p q hp hq h1 h2 => by
              refine map_uniq_of es1[i].1 es3 hpw3 ?_ ?_ p q hp hq h1 h2
              · intro p2 hp2 hq2
                obtain ⟨hri1, -⟩ := rank_entry_lt hi
                obtain ⟨hrp2, -⟩ := rank_entry_lt hp2
                exact ihS _ _ (by omega) (keysOk_entry hka hi).1
                  (keysOk_entry hkc hp2).1 hq2
              · intro p2 q2 hp2 hq2 h3 h4
                obtain ⟨hri1, -⟩ := rank_entry_lt hi
                obtain ⟨hrp2, -⟩ := rank_entry_lt hp2
                obtain ⟨hrq2, -⟩ := rank_entry_lt hq2
                exact ihT _ _ _ (by omega) (keysOk_entry hkc hp2).1
                  (keysOk_entry hka hi).1 (keysOk_entry hkc hq2).1 h3 h4)
          refine ⟨fm + 1, ?_⟩
          rw [equalsF_mapv_mapv, if_pos (hlen12.trans hlen23)]
          exact hfm
        · obtain ⟨hs2x, hq2x, -, -⟩ := hcase2
          simp [MalType.isSequentialI] at hq2x
      · obtain ⟨hs1, hqa, hqb, sa, sb, f', hoa, hob, hf', hseq12⟩ := hcase
        obtain ⟨f2, heq2⟩ := hbc
        rcases equalsF_true_cases heq2 with ⟨hs2, -⟩ | hcase2 | hcase2
        · rw [seq_not_simple hqb] at hs2
          cases hs2
        · obtain ⟨es2, es3, f2', heqx, rfl, -, -, -⟩ := hcase2
          rw [heqx] at hqb
          simp [MalType.isSequentialI] at hqb
        · obtain ⟨hs2, hqb2, hqc, sb2, sc, f2', hob2, hoc, hf2', hseq23⟩ := hcase2
          have hx2 : sb2 = sb := by
            rw [hob] at hob2
            exact (Option.some.inj hob2).symm
          rw [hx2] at hseq23
          obtain ⟨la, lb, hta, htb, hfa12⟩ := seqEqF_true_inv f' sa sb hseq12
          obtain ⟨lb2, lc, htb2, htc, hfa23⟩ := seqEqF_true_inv f2' sb sc hseq23
          obtain rfl : lb2 = lb := traverses_det htb2 htb
          have hksa := keysOk_seqOf hqa hka hoa
          have hksb := keysOk_seqOf hqb hkb hob
          have hksc := keysOk_seqOf hqc hkc hoc
          have hcomp : List.Forall₂ (fun x z => ∃ g, equalsF g x z = some (.ok true))
              la lc := by
            refine forall₂_compose_mem hfa12 hfa23 ?_
            intro x y z hx hy hz h1 h2
            obtain ⟨g1, -, hg1⟩ := h1
            obtain ⟨g2, -, hg2⟩ := h2
            have hrx : rankV x < rankV a := by
              rw [← rank_seqOf_seq hqa hoa]
              exact rank_traverses hta x hx
            have hry : rankV y < rankV b := by
              rw [← rank_seqOf_seq hqb hob]
              exact rank_traverses htb y hy
            have hrz : rankV z < rankV c := by
              rw [← rank_seqOf_seq hqc hoc]
              exact rank_traverses htc z hz
            exact ihT x y z (by omega) (keysOk_traverses hta hksa x hx)
              (keysOk_traverses htb hksb y hy) (keysOk_traverses htc hksc z hz)
              ⟨g1, hg1⟩ ⟨g2, hg2⟩
          obtain ⟨g, hg⟩ := seqEqF_build la sa sc lc hta htc hcomp
          exact ⟨g + 1, by
            rw [equalsF_seq_build hs1 hqa hqc hoa hoc]
            exact hg⟩

/-- True `Equals` runs are symmetric whenever no Map subterm of either side
holds two `Equals`-equal keys. -/
theorem equalsF_symm_true {f : Nat} {a b : MalType} (hka : KeysOk a) (hkb : KeysOk b)
    (h : equalsF f a b = some (.ok true)) : ∃ g, equalsF g b a = some (.ok true) :=
  (equalsF_sym_aux (max (rankV a) (rankV b))).2.1 a b (Nat.le_refl _) hka hkb ⟨f, h⟩

/-- Whenever both comparison orders return a boolean, the booleans agree
(under the pairwise-distinct-keys invariant). -/
theorem equalsF_agree {f g : Nat} {a b : MalType} {r s : Bool}
    (hka : KeysOk a) (hkb : KeysOk b)
    (h1 : equalsF f a b = some (.ok r)) (h2 : equalsF g b a = some (.ok s)) :
    s = r := by
  cases r with
  | true =>
    obtain ⟨g2, hg2⟩ := equalsF_symm_true hka hkb h1
    have hd := equalsF_det h2 hg2
    injection hd
  | false =>
    cases s with
    | false => rfl
    | true =>
      obtain ⟨g2, hg2⟩ := equalsF_symm_true hkb hka h2
      have hd := equalsF_det h1 hg2
      cases hd

/-- The infinite Range `(range 0 0 1)` with `finite = false`: its `Next`
always steps. -/
def Crng : MalType := .rangev 0 0 1 0 false

/-- A value whose self-comparison diverges: a ConsCell over the infinite
Range (`Equals` walks both sides in lockstep forever). -/
def Cdv : MalType := .consCell (.integer 0) Crng

/-- `{1 0, 2 Cdv}`: a reachable map (keys are hashable and distinct; only
the value `Cdv` is non-terminating). -/
def Cda : MalType := .mapv [(.integer 1, .integer 0), (.integer 2, Cdv)]

/-- The same keys with clashing first value and reversed entry order:
comparing `Cda` with `Cdb` fails fast on the value of key 1, but the
reverse comparison first reaches the diverging values of key 2. -/
def Cdb : MalType := .mapv [(.integer 2, Cdv), (.integer 1, .integer 99)]

theorem seqEqF_range_none : ∀ g (nv : Int),
    seqEqF g (.rangev 0 0 1 nv false) (.rangev 0 0 1 nv false) = none := by
  intro g
  induction g using Nat.strong_induction_on with
  | _ g ih =>
    intro nv
    rcases g with _ | g
    · rfl
    rcases g with _ | g
    · rfl
    show seqEqF (g + 1 + 1) _ _ = none
    simp only [seqEqF]
    have hstep : seqNextF (g + 1) (MalType.rangev 0 0 1 nv false) =
        some (.step (.integer nv) (.rangev 0 0 1 (wrap64 (nv + 1)) false)) := by
      simp [seqNextF]
    rw [hstep]
    simp only
    have he : equalsF (g + 1) (.integer nv) (.integer nv) = some (.ok true) := by
      rw [equalsF_simple (show (MalType.integer nv).isSimple = true from rfl)]
      simp [valueEquals]
    rw [he]
    simp only
    exact ih (g + 1) (by omega) (wrap64 (nv + 1))

theorem eq_cdv_none : ∀ g, equalsF g Cdv Cdv = none := by
  intro g
  rcases g with _ | g
  · rfl
  have hseq : seqEqF g Cdv Cdv = none := by
    rcases g with _ | g
    · rfl
    rcases g with _ | g
    · rfl
    show seqEqF (g + 1 + 1) Cdv Cdv = none
    simp only [seqEqF]
    have hstep : seqNextF (g + 1) Cdv = some (.step (.integer 0) Crng) := by
      simp [seqNextF, Cdv]
    rw [hstep]
    simp only
    have he : equalsF (g + 1) (.integer 0) (.integer 0) = some (.ok true) := by
      rw [equalsF_simple (show (MalType.integer 0).isSimple = true from rfl)]
      simp [valueEquals]
    rw [he]
    simp only
    exact seqEqF_range_none (g + 1) 0
  show equalsF (g + 1) Cdv Cdv = none
  rw [equalsF_seq_build (show Cdv.isSimple = false from rfl)
    (show Cdv.isSequentialI = true from rfl) (show Cdv.isSequentialI = true from rfl)
    (show seqOf Cdv = some Cdv from rfl) (show seqOf Cdv = some Cdv from rfl)]
  exact hseq

/-- The reverse comparison of the `Cdb`/`Cda` pair diverges: at every fuel
the run is still inside the lockstep walk of the two infinite ranges. -/
theorem equalsF_cdb_cda_none : ∀ g, equalsF g Cdb Cda = none := by
  intro g
  rcases g with _ | g
  · rfl
  rcases g with _ | g
  · rfl
  rcases g with _ | g
  · rfl
  rcases g with _ | g
  · rfl
  rcases g with _ | g
  · rfl
  show equalsF (g + 4 + 1) (.mapv [(.integer 2, Cdv), (.integer 1, .integer 99)])
      (.mapv [(.integer 1, .integer 0), (.integer 2, Cdv)]) = none
  rw [equalsF_mapv_mapv]
  rw [if_pos (by decide)]
  show mapIterF (g + 3 + 1) [(.integer 2, Cdv), (.integer 1, .integer 99)]
      [(.integer 1, .integer 0), (.integer 2, Cdv)] = none
  simp only [mapIterF]
  have hlook : lookupF (g + 3) [(.integer 1, .integer 0), (.integer 2, Cdv)]
      (.integer 2) = some (.ok (some Cdv)) := by
    simp [lookupF, equalsF, valueEquals, MalType.isSimple]
  rw [hlook]
  simp only
  rw [eq_cdv_none (g + 3)]

theorem neq_int {i j : Int} (hne : i ≠ j) : NEq (.integer i) (.integer j) := by
  intro g
  cases g with
  | zero => simp [equalsF]
  | succ g =>
    rw [equalsF_simple (show (MalType.integer i).isSimple = true from rfl)]
    simp [valueEquals, hne]

theorem keysOk_cdv : KeysOk Cdv := by
  show KeysOk (.consCell (.integer 0) Crng)
  rw [KeysOk]
  exact ⟨trivial, trivial⟩

theorem keysOk_cda : KeysOk Cda := by
  show KeysOk (.mapv [(.integer 1, .integer 0), (.integer 2, Cdv)])
  rw [KeysOk]
  refine ⟨?_, ?_⟩
  · rw [KeysOkPairs]
    refine ⟨trivial, trivial, ?_⟩
    rw [KeysOkPairs]
    exact ⟨trivial, keysOk_cdv, trivial⟩
  · refine List.Pairwise.cons ?_ (List.Pairwise.cons ?_ List.Pairwise.nil)
    · intro y hy
      rcases List.mem_cons.mp hy with rfl | hy2
      · exact ⟨neq_int (by decide), neq_int (by decide)⟩
      · cases hy2
    · intro y hy
      cases hy

theorem keysOk_cdb : KeysOk Cdb := by
  show KeysOk (.mapv [(.integer 2, Cdv), (.integer 1, .integer 99)])
  rw [KeysOk]
  refine ⟨?_, ?_⟩
  · rw [KeysOkPairs]
    refine ⟨trivial, keysOk_cdv, ?_⟩
    rw [KeysOkPairs]
    exact ⟨trivial, trivial, trivial⟩
  · refine List.Pairwise.cons ?_ (List.Pairwise.cons ?_ List.Pairwise.nil)
    · intro y hy
      rcases List.mem_cons.mp hy with rfl | hy2
      · exact ⟨neq_int (by decide), neq_int (by decide)⟩
      · cases hy2
    · intro y hy
      cases hy

/-- C1 (amended): for values none of whose Map subterms hold two
`Equals`-equal keys (every reachable map: `immutable.Map.Set` replaces an
`Equals`-equal key), `types.Equals` is symmetric in the strongest sense the
implementation supports: whenever both comparison orders return a boolean
they return the same boolean, and a true comparison is symmetric with
guaranteed termination.  The false direction need not terminate in reverse:
the reachable pair `Cda`/`Cdb` (distinct integer keys, one value a ConsCell
over an infinite Range) compares false one way while the other way diverges
at every fuel, because only the reverse iteration order reaches the two
infinite values.  For fully hashable values whose maps are in canonical
strictly-sorted collision-free key order (`WFS`) both directions terminate
and agree for every boolean result; and under `WFS` a true comparison
forces equal `hashAnyValue` byte streams, hence equal `types.Hash` values.
Unconditional hash consistency is refuted by `claim_C1_counterexample`. -/
theorem claim_C1 :
    (∀ f g a b r s, KeysOk a → KeysOk b →
        equalsF f a b = some (.ok r) → equalsF g b a = some (.ok s) → s = r) ∧
    (∀ f a b, KeysOk a → KeysOk b →
        equalsF f a b = some (.ok true) → ∃ g, equalsF g b a = some (.ok true)) ∧
    (KeysOk Cda ∧ KeysOk Cdb ∧ equalsF 5 Cda Cdb = some (.ok false) ∧
        ∀ g, equalsF g Cdb Cda = none) ∧
    (∀ f a b r ga gb sa sb, WFS a → WFS b →
        streamF ga a = some (.ok sa) → streamF gb b = some (.ok sb) →
        equalsF f a b = some (.ok r) → ∃ g, equalsF g b a = some (.ok r)) ∧
    (∀ f a b ga gb sa sb, WFS a → WFS b →
        streamF ga a = some (.ok sa) → streamF gb b = some (.ok sb) →
        equalsF f a b = some (.ok true) → sa = sb ∧ hashF ga a = hashF gb b) := by
  refine ⟨?_, ?_, ?_, ?_, ?_⟩
  · intro f g a b r s hka hkb h1 h2
    exact equalsF_agree hka hkb h1 h2
  · intro f a b hka hkb heq
    exact equalsF_symm_true hka hkb heq
  · exact ⟨keysOk_cda, keysOk_cdb, rfl, equalsF_cdb_cda_none⟩
  · intro f a b r ga gb sa sb hwa hwb hA hB heq
    exact equalsF_symm hwa hwb hA hB heq
  · intro f a b ga gb sa sb hwa hwb hA hB heq
    have hss := equalsF_hash hwa hwb heq hA hB
    refine ⟨hss, ?_⟩
    simp only [hashF, hA, hB, hss]

/-- C1 witness: the agreement and true-symmetry halves applied to the
Equals-true pair `(1)` (a List) and `[1]` (a Vector), the hashable-symmetry
half to the same pair, and the hash half to the singleton map `{1 10}`. -/
theorem claim_C1_witness :
    (KeysOk (MalType.list [.integer 1]) ∧ KeysOk (MalType.vector [.integer 1]) ∧
      equalsF 9 (MalType.list [.integer 1]) (MalType.vector [.integer 1]) =
        some (.ok true) ∧
      equalsF 9 (MalType.vector [.integer 1]) (MalType.list [.integer 1]) =
        some (.ok true) ∧
      (true : Bool) = true) ∧
    (∃ g, equalsF g (MalType.vector [.integer 1]) (MalType.list [.integer 1]) =
      some (.ok true)) ∧
    (WFS (MalType.list [.integer 1]) ∧ WFS (MalType.vector [.integer 1]) ∧
      streamF 9 (MalType.list [.integer 1]) = some (.ok [1, 0, 0, 0, 0, 0, 0, 0]) ∧
      streamF 9 (MalType.vector [.integer 1]) = some (.ok [1, 0, 0, 0, 0, 0, 0, 0]) ∧
      ∃ g, equalsF g (MalType.vector [.integer 1]) (MalType.list [.integer 1]) =
        some (.ok true)) ∧
    (WFS (MalType.mapv [(.integer 1, .integer 10)]) ∧
      streamF 9 (MalType.mapv [(.integer 1, .integer 10)]) =
        some (.ok [123, 125, 1, 0, 0, 0, 0, 0, 0, 0, 10, 0, 0, 0, 0, 0, 0, 0]) ∧
      ([123, 125, 1, 0, 0, 0, 0, 0, 0, 0, 10, 0, 0, 0, 0, 0, 0, 0] =
          ([123, 125, 1, 0, 0, 0, 0, 0, 0, 0, 10, 0, 0, 0, 0, 0, 0, 0] : List Nat) ∧
        hashF 9 (MalType.mapv [(.integer 1, .integer 10)]) =
          hashF 9 (MalType.mapv [(.integer 1, .integer 10)]))) := by
  have hkl : KeysOk (MalType.list [.integer 1]) := by
    rw [KeysOk, KeysOkList]
    exact ⟨trivial, trivial⟩
  have hkv : KeysOk (MalType.vector [.integer 1]) := by
    rw [KeysOk, KeysOkList]
    exact ⟨trivial, trivial⟩
  have hwl : WFS (MalType.list [.integer 1]) := ⟨trivial, trivial⟩
  have hwv : WFS (MalType.vector [.integer 1]) := ⟨trivial, trivial⟩
  have hwm : WFS (MalType.mapv [(.integer 1, .integer 10)]) := by
    rw [WFS]
    exact ⟨⟨trivial, trivial, trivial⟩,
      ⟨[intBytes 1], List.Forall₂.cons ⟨3, rfl⟩ List.Forall₂.nil, List.chain'_singleton _⟩⟩
  refine ⟨⟨hkl, hkv, rfl, rfl, ?_⟩, ?_, ⟨hwl, hwv, rfl, rfl, ?_⟩, ⟨hwm, rfl, ?_⟩⟩
  · exact claim_C1.1 9 9 (MalType.list [.integer 1]) (MalType.vector [.integer 1])
      true true hkl hkv rfl rfl
  · exact claim_C1.2.1 9 (MalType.list [.integer 1]) (MalType.vector [.integer 1])
      hkl hkv rfl
  · exact claim_C1.2.2.2.1 9 (MalType.list [.integer 1]) (MalType.vector [.integer 1])
      true 9 9 [1, 0, 0, 0, 0, 0, 0, 0] [1, 0, 0, 0, 0, 0, 0, 0] hwl hwv rfl rfl rfl
  · exact claim_C1.2.2.2.2 9 (MalType.mapv [(.integer 1, .integer 10)])
      (MalType.mapv [(.integer 1, .integer 10)]) 9 9
      [123, 125, 1, 0, 0, 0, 0, 0, 0, 0, 10, 0, 0, 0, 0, 0, 0, 0]
      [123, 125, 1, 0, 0, 0, 0, 0, 0, 0, 10, 0, 0, 0, 0, 0, 0, 0] hwm hwm rfl rfl rfl

/-- The test form `(= n 0)` of the countdown closure. -/
def cdTestF : MalType := .list [.symbol "=", .symbol "n", .integer 0]

/-- The decrement form `(- n 1)`. -/
def cdSubF : MalType := .list [.symbol "-", .symbol "n", .integer 1]

/-- The self-tail-call form `(countdown (- n 1))`. -/
def cdElse : MalType := .list [.symbol "countdown", cdSubF]

/-- The countdown body `(if (= n 0) 0 (countdown (- n 1)))`. -/
def cdBody : MalType := .list [.symbol "if", cdTestF, .integer 0, cdElse]

/-- The countdown closure: `(fn* (n) (if (= n 0) 0 (countdown (- n 1))))`
capturing the base environment (frame 0), where `def!` has bound it. -/
def cdFun : MalType := .func 0 (some cdBody) [.symbol "n"] 0 false

/-- The base frame: `countdown` plus the two used `core.BuildEnv` natives. -/
def cdBase : Frame := ⟨none, [("countdown", cdFun),
  ("=", .func 1 none [] 0 false), ("-", .func 2 none [] 0 false)]⟩

theorem travF_succ (f : Nat) (s : MalType) : travF (f + 1) s =
    match seqNextF f s with
    | none => none
    | some .fault => some .fault
    | some .empty => some (.ok [])
    | some (.step h t) =>
      match travF f t with
      | none => none
      | some .fault => some .fault
      | some (.err e) => some (.err e)
      | some (.ok l) => some (.ok (h :: l)) := rfl

theorem travF_iterator : ∀ (n f i : Nat) (items : List MalType),
    items.length - i ≤ n → n + 1 < f →
    travF f (.listIteratorSeq items i) = some (.ok (items.drop i)) := by
  intro n
  induction n with
  | zero =>
    intro f i items hle hf
    obtain ⟨g, rfl⟩ : ∃ g, f = g + 2 := ⟨f - 2, by omega⟩
    have hlen : items.length ≤ i := by omega
    rw [List.drop_eq_nil_of_le hlen]
    have hemp : seqNextF (g + 1) (.listIteratorSeq items i) = some .empty := by
      simp [seqNextF, List.getElem?_eq_none hlen]
    rw [travF_succ, hemp]
  | succ n ih =>
    intro f i items hle hf
    obtain ⟨g2, rfl⟩ : ∃ g2, f = g2 + 2 := ⟨f - 2, by omega⟩
    cases hx : items[i]? with
    | none =>
      have hlen : items.length ≤ i := by
        by_contra hc
        push_neg at hc
        rw [List.getElem?_eq_getElem hc] at hx
        cases hx
      rw [List.drop_eq_nil_of_le hlen]
      have hemp : seqNextF (g2 + 1) (.listIteratorSeq items i) = some .empty := by
        simp [seqNextF, hx]
      rw [travF_succ, hemp]
    | some x =>
      have hlt : i < items.length := by
        by_contra hc
        push_neg at hc
        rw [List.getElem?_eq_none hc] at hx
        cases hx
      have hxv : items[i] = x := by
        rw [List.getElem?_eq_getElem hlt] at hx
        exact Option.some.inj hx
      have hstep : seqNextF (g2 + 1) (.listIteratorSeq items i) =
          some (.step x (.listIteratorSeq items (i + 1))) := by
        simp [seqNextF, hx]
      have hrec := ih (g2 + 1) (i + 1) items (by omega) (by omega)
      rw [travF_succ, hstep]
      simp only
      rw [hrec]
      simp only
      rw [List.drop_eq_getElem_cons hlt, hxv]

theorem intoSliceF_iterator {f : Nat} (items : List MalType) (hne : items ≠ [])
    (hf : items.length + 1 < f) :
    intoSliceF f (.listIteratorSeq items 0) = some (.ok items) := by
  obtain ⟨x, rest, rfl⟩ : ∃ x rest, items = x :: rest := by
    cases items with
    | nil => exact absurd rfl hne
    | cons x rest => exact ⟨x, rest, rfl⟩
  obtain ⟨g, rfl⟩ : ∃ g, f = g + 1 := ⟨f - 1, by omega⟩
  simp only [intoSliceF, seqF, MalType.isSeqI, if_true, seqNextF,
    List.get?_eq_getElem?, List.getElem?_cons_zero]
  have := travF_iterator (x :: rest).length (g + 1) 0 (x :: rest)
    (by simp only [List.length_cons, Nat.sub_zero]; omega)
    (by simp only [List.length_cons] at hf ⊢; omega)
  rw [List.drop_zero] at this
  rw [this]

theorem cdEnvGet_countdown {f : Nat} {σ : Store} {e : Nat} {bs : List (String × MalType)}
    (hf : 2 ≤ f) (h0 : σ[0]? = some cdBase)
    (he : σ[e]? = some ⟨some 0, bs⟩)
    (hn : bs.find? (fun p => p.1 = "countdown") = none) :
    envGetF f σ e "countdown" = some (.ok cdFun) := by
  obtain ⟨g, rfl⟩ : ∃ g, f = g + 2 := ⟨f - 2, by omega⟩
  simp [envGetF, he, h0, frameGet, hn, cdBase, List.find?]

theorem cdEnvGet_if {f : Nat} {σ : Store} {e : Nat} {bs : List (String × MalType)}
    (hf : 2 ≤ f) (h0 : σ[0]? = some cdBase)
    (he : σ[e]? = some ⟨some 0, bs⟩)
    (hn : bs.find? (fun p => p.1 = "if") = none) :
    envGetF f σ e "if" = some (.err (.undefined "if")) := by
  obtain ⟨g, rfl⟩ : ∃ g, f = g + 2 := ⟨f - 2, by omega⟩
  simp [envGetF, he, h0, frameGet, hn, cdBase, cdFun, List.find?]

theorem isMcallF_undef_head {f : Nat} {σ : Store} {e : Nat} {name : String}
    {rest : List MalType} {er : EvalErr} (hf : 2 ≤ f)
    (hv : envGetF f σ e name = some (.err er)) :
    isMcallF f σ e (.list (.symbol name :: rest)) = some (.ok none) := by
  obtain ⟨g, rfl⟩ : ∃ g, f = g + 2 := ⟨f - 2, by omega⟩
  simp [isMcallF, isPairF, emptyF, seqF, seqOf, seqNextF, MalType.isSeqI,
    MalType.isSequentialI, hv]

theorem isMcallF_fn_head {f : Nat} {σ : Store} {e : Nat} {name : String}
    {rest : List MalType} {fid : Nat} {b : Option MalType} {bs : List MalType} {en : Nat}
    (hf : 2 ≤ f)
    (hv : envGetF f σ e name = some (.ok (.func fid b bs en false))) :
    isMcallF f σ e (.list (.symbol name :: rest)) = some (.ok none) := by
  obtain ⟨g, rfl⟩ : ∃ g, f = g + 2 := ⟨f - 2, by omega⟩
  simp [isMcallF, isPairF, emptyF, seqF, seqOf, seqNextF, MalType.isSeqI,
    MalType.isSequentialI, hv]

theorem mexpand_id {f : Nat} {σ : Store} {e : Nat} {form : MalType}
    (h : isMcallF f σ e form = some (.ok none)) :
    mexpandF (f + 1) σ e form = some (.ok σ form 0) := by
  simp [mexpandF, h]

theorem cdTest {f : Nat} {σ : Store} {e : Nat} {k : Int} {bs : List (String × MalType)}
    (hf : 9 ≤ f) (h0 : σ[0]? = some cdBase)
    (he : σ[e]? = some ⟨some 0, bs⟩)
    (hbs : bs = [("n", .integer k)]) :
    evalF f σ e cdTestF = some (.ok σ (.boolean (decide (k = 0))) 1) := by
  obtain ⟨g, rfl⟩ : ∃ g, f = g + 9 := ⟨f - 9, by omega⟩
  subst hbs
  simp [evalF, evalDispatchF, evalApplyF, evalAstF, evalListF, mexpandF, isMcallF,
    isPairF, emptyF, seqF, seqOf, seqNextF, intoSliceF, travF, envGetF, frameGet,
    specialOf, MalType.isApplicableI, MalType.isSeqI, MalType.isSequentialI,
    applyNativeF, eqChainF, equalsF, valueEquals, MalType.isSimple, cdTestF,
    cdBase, cdFun, h0, he, List.find?]
  cases hd : decide (k = 0) <;> rfl

theorem cdSubArgs {f : Nat} {σ : Store} {e : Nat} {k : Int} {bs : List (String × MalType)}
    (hf : 12 ≤ f) (h0 : σ[0]? = some cdBase)
    (he : σ[e]? = some ⟨some 0, bs⟩)
    (hbs : bs = [("n", .integer k)]) :
    evalAstF f σ e cdElse =
      some (.ok σ (.list [cdFun, .integer (wrap64 (k - 1))]) 2) := by
  obtain ⟨g, rfl⟩ : ∃ g, f = g + 12 := ⟨f - 12, by omega⟩
  subst hbs
  simp [evalF, evalDispatchF, evalApplyF, evalAstF, evalListF, mexpandF, isMcallF,
    isPairF, emptyF, seqF, seqOf, seqNextF, intoSliceF, travF, envGetF, frameGet,
    specialOf, MalType.isApplicableI, MalType.isSeqI, MalType.isSequentialI,
    applyNativeF, intListF, subFold, cdElse, cdSubF,
    cdBase, cdFun, h0, he, List.find?]

theorem wrap64_small {n : Int} (h1 : -(2 ^ 63) ≤ n) (h2 : n < 2 ^ 63) : wrap64 n = n := by
  unfold wrap64
  rw [Int.emod_eq_of_lt (by omega) (by omega)]
  omega

theorem cdBodyStep {F : Nat} {σ : Store} {e : Nat} {k : Int} (hf : 9 ≤ F)
    (h0 : σ[0]? = some cdBase)
    (he : σ[e]? = some ⟨some 0, [("n", .integer k)]⟩) :
    evalF (F + 1 + 1 + 1 + 1) σ e cdBody =
      if decide (k = 0) then mergeDepth 2 (evalF F σ e (.integer 0))
      else mergeDepth 2 (evalF F σ e cdElse) := by
  have hsl1 : intoSliceF (F + 1 + 1 + 1)
      (.listIteratorSeq [.symbol "if", cdTestF, .integer 0, cdElse] 0) =
      some (.ok [.symbol "if", cdTestF, .integer 0, cdElse]) :=
    intoSliceF_iterator _ (by simp) (by simp; omega)
  have hIf : envGetF (F + 1 + 1) σ e "if" = some (.err (.undefined "if")) :=
    cdEnvGet_if (by omega) h0 he rfl
  have hmc : isMcallF (F + 1 + 1) σ e
      (.list [.symbol "if", cdTestF, .integer 0, cdElse]) = some (.ok none) :=
    isMcallF_undef_head (by omega) hIf
  have hmx : mexpandF (F + 1 + 1 + 1) σ e
      (.list [.symbol "if", cdTestF, .integer 0, cdElse]) =
      some (.ok σ (.list [.symbol "if", cdTestF, .integer 0, cdElse]) 0) :=
    mexpand_id hmc
  rw [evalF_app_eq (F + 1 + 1 + 1) σ e cdBody
    (.listIteratorSeq [.symbol "if", cdTestF, .integer 0, cdElse] 0)
    [.symbol "if", cdTestF, .integer 0, cdElse] σ
    (.list [.symbol "if", cdTestF, .integer 0, cdElse]) 0
    rfl rfl hsl1 rfl hmx rfl]
  have hsl2 : intoSliceF (F + 1 + 1)
      (.listIteratorSeq [.symbol "if", cdTestF, .integer 0, cdElse] 0) =
      some (.ok [.symbol "if", cdTestF, .integer 0, cdElse]) :=
    intoSliceF_iterator _ (by simp) (by simp; omega)
  rw [evalDispatchF_eq (F + 1 + 1) σ e
    (.list [.symbol "if", cdTestF, .integer 0, cdElse]) 0
    (.listIteratorSeq [.symbol "if", cdTestF, .integer 0, cdElse] 0)
    (.symbol "if") [cdTestF, .integer 0, cdElse] rfl hsl2]
  show evalIfF (F + 1) σ e cdTestF (.integer 0) (some cdElse) 0 = _
  have htest : evalF F σ e cdTestF = some (.ok σ (.boolean (decide (k = 0))) 1) :=
    cdTest hf h0 he rfl
  simp only [evalIfF, htest]
  cases hd : decide (k = 0) with
  | false =>
    rw [if_neg (by decide : ¬truthy (MalType.boolean false) = true)]
    simp only
    cases hev : evalF F σ e cdElse with
    | none => rfl
    | some r => cases r <;> rfl
  | true =>
    rw [if_pos (by decide : truthy (MalType.boolean true) = true)]
    simp only
    cases hev : evalF F σ e (.integer 0) with
    | none => rfl
    | some r => cases r <;> rfl

theorem cdCallStep {F : Nat} {σ : Store} {e : Nat} {k : Int} (hf : 12 ≤ F)
    (h0 : σ[0]? = some cdBase)
    (he : σ[e]? = some ⟨some 0, [("n", .integer k)]⟩) :
    evalF (F + 1 + 1 + 1) σ e cdElse =
      mergeDepth 2 (evalF F (σ ++ [⟨some 0, [("n", .integer (wrap64 (k - 1)))]⟩])
        σ.length cdBody) := by
  have hsl1 : intoSliceF (F + 1 + 1)
      (.listIteratorSeq [.symbol "countdown", cdSubF] 0) =
      some (.ok [.symbol "countdown", cdSubF]) :=
    intoSliceF_iterator _ (by simp) (by simp; omega)
  have hcd : envGetF (F + 1) σ e "countdown" =
      some (.ok (.func 0 (some cdBody) [.symbol "n"] 0 false)) :=
    cdEnvGet_countdown (by omega) h0 he rfl
  have hmc : isMcallF (F + 1) σ e
      (.list [.symbol "countdown", cdSubF]) = some (.ok none) :=
    isMcallF_fn_head (by omega) hcd
  have hmx : mexpandF (F + 1 + 1) σ e
      (.list [.symbol "countdown", cdSubF]) =
      some (.ok σ (.list [.symbol "countdown", cdSubF]) 0) :=
    mexpand_id hmc
  rw [evalF_app_eq (F + 1 + 1) σ e cdElse
    (.listIteratorSeq [.symbol "countdown", cdSubF] 0)
    [.symbol "countdown", cdSubF] σ
    (.list [.symbol "countdown", cdSubF]) 0
    rfl rfl hsl1 rfl hmx rfl]
  have hsl2 : intoSliceF (F + 1)
      (.listIteratorSeq [.symbol "countdown", cdSubF] 0) =
      some (.ok [.symbol "countdown", cdSubF]) :=
    intoSliceF_iterator _ (by simp) (by simp; omega)
  rw [evalDispatchF_eq (F + 1) σ e
    (.list [.symbol "countdown", cdSubF]) 0
    (.listIteratorSeq [.symbol "countdown", cdSubF] 0)
    (.symbol "countdown") [cdSubF] rfl hsl2]
  show evalApplyF (F + 1) σ e (.list [.symbol "countdown", cdSubF]) 0 = _
  have hargs : evalAstF F σ e (.list [.symbol "countdown", cdSubF]) =
      some (.ok σ (.list [cdFun, .integer (wrap64 (k - 1))]) 2) :=
    cdSubArgs hf h0 he rfl
  have hsl3 : intoSliceF F
      (.listIteratorSeq [.func 0 (some cdBody) [.symbol "n"] 0 false,
        .integer (wrap64 (k - 1))] 0) =
      some (.ok [.func 0 (some cdBody) [.symbol "n"] 0 false,
        .integer (wrap64 (k - 1))]) :=
    intoSliceF_iterator _ (by simp) (by simp; omega)
  have hde : deriveEnvS σ (some 0) [.symbol "n"] [.integer (wrap64 (k - 1))] =
      .ok (σ ++ [⟨some 0, [("n", .integer (wrap64 (k - 1)))]⟩], σ.length) := by
    simp [deriveEnvS, deriveFrame, symbolNames, hasVarargs, positionals]
  simp only [evalApplyF, hargs, MalType.isApplicableI, seqOf, cdFun, if_true, hsl3, hde]
  cases hev : evalF F (σ ++ [⟨some 0, [("n", .integer (wrap64 (k - 1)))]⟩])
      σ.length cdBody with
  | none => rfl
  | some r => cases r <;> rfl

theorem cdRunBody : ∀ (k : Nat), k < 2 ^ 63 → ∀ (σ : Store) (e : Nat),
    σ[0]? = some cdBase →
    σ[e]? = some ⟨some 0, [("n", .integer (Int.ofNat k))]⟩ →
    ∃ σ2, evalF (7 * k + 13) σ e cdBody = some (.ok σ2 (.integer 0) 2) := by
  intro k
  induction k with
  | zero =>
    intro hk σ e h0 he
    refine ⟨σ, ?_⟩
    rw [show 7 * 0 + 13 = 9 + 1 + 1 + 1 + 1 from by norm_num]
    rw [cdBodyStep (show (9 : Nat) ≤ 9 from le_refl 9) h0 he]
    rw [if_pos (by decide : decide ((Int.ofNat 0 : Int) = 0) = true)]
    rfl
  | succ k ih =>
    intro hk σ e h0 he
    have hpn : (2 : Nat) ^ 63 = 9223372036854775808 := by norm_num
    have hpi : (2 : Int) ^ 63 = 9223372036854775808 := by norm_num
    rw [hpn] at hk
    have hw : wrap64 (Int.ofNat (k + 1) - 1) = Int.ofNat k := by
      have h1 : (Int.ofNat (k + 1) : Int) - 1 = Int.ofNat k := by
        simp only [Int.ofNat_eq_coe]
        push_cast
        ring
      rw [h1]
      refine wrap64_small ?_ ?_
      · simp only [Int.ofNat_eq_coe]
        omega
      · simp only [Int.ofNat_eq_coe]
        rw [hpi]
        omega
    have hlen : 0 < σ.length := by
      cases σ with
      | nil => cases h0
      | cons a t => simp
    have h0p : (σ ++ [(⟨some 0, [("n", .integer (Int.ofNat k))]⟩ : Frame)])[0]? =
        some cdBase := by
      rw [List.getElem?_append_left hlen]
      exact h0
    have hep : (σ ++ [(⟨some 0, [("n", .integer (Int.ofNat k))]⟩ : Frame)])[σ.length]? =
        some ⟨some 0, [("n", .integer (Int.ofNat k))]⟩ := by
      simp
    obtain ⟨σ2, hih⟩ := ih (by rw [hpn]; omega)
      (σ ++ [⟨some 0, [("n", .integer (Int.ofNat k))]⟩]) σ.length h0p hep
    refine ⟨σ2, ?_⟩
    rw [show 7 * (k + 1) + 13 = 7 * k + 13 + 1 + 1 + 1 + 1 + 1 + 1 + 1 from by ring]
    rw [cdBodyStep (show 9 ≤ 7 * k + 13 + 1 + 1 + 1 by omega) h0 he]
    rw [if_neg (show ¬decide ((Int.ofNat (k + 1) : Int) = 0) = true by
      simp only [decide_eq_true_eq, Int.ofNat_eq_coe]
      omega)]
    rw [cdCallStep (show 12 ≤ 7 * k + 13 by omega) h0 he]
    rw [hw, hih]
    rfl

/-- Claim C9: a recursive closure that only tail-calls itself completes for
arbitrarily large recursion counts without growing the host call stack: for
every count `k` (up to the 64-bit integer range), evaluating
`(countdown k)` for `countdown = (fn* (n) (if (= n 0) 0 (countdown (- n 1))))`
succeeds with value `0` using fuel linear in `k` (`7k + 16` trampoline
iterations) while the host `EVAL` recursion depth stays at the constant `2`
(the nested argument evaluations), independent of `k`: the `if` and
closure-application tail positions loop in place instead of recursing. -/
theorem claim_C9 : ∀ k : Nat, k < 2 ^ 63 →
    ∃ σ2, evalF (7 * k + 16) [cdBase] 0
      (.list [.symbol "countdown", .integer (Int.ofNat k)]) =
      some (.ok σ2 (.integer 0) 2) := by
  intro k hk
  obtain ⟨σ2, hbody⟩ := cdRunBody k hk
    [cdBase, ⟨some 0, [("n", .integer (Int.ofNat k))]⟩] 1 rfl rfl
  refine ⟨σ2, ?_⟩
  rw [show 7 * k + 16 = 7 * k + 13 + 1 + 1 + 1 from by ring]
  have hsl1 : intoSliceF (7 * k + 13 + 1 + 1)
      (.listIteratorSeq [.symbol "countdown", .integer (Int.ofNat k)] 0) =
      some (.ok [.symbol "countdown", .integer (Int.ofNat k)]) :=
    intoSliceF_iterator _ (by simp) (by simp only [List.length_cons, List.length_nil]; omega)
  have hcd : envGetF (7 * k + 13 + 1) [cdBase] 0 "countdown" =
      some (.ok (.func 0 (some cdBody) [.symbol "n"] 0 false)) := by
    simp [envGetF, frameGet, cdBase, cdFun, List.find?, List.get?]
  have hmc : isMcallF (7 * k + 13 + 1) [cdBase] 0
      (.list [.symbol "countdown", .integer (Int.ofNat k)]) = some (.ok none) :=
    isMcallF_fn_head (by omega) hcd
  have hmx : mexpandF (7 * k + 13 + 1 + 1) [cdBase] 0
      (.list [.symbol "countdown", .integer (Int.ofNat k)]) =
      some (.ok [cdBase] (.list [.symbol "countdown", .integer (Int.ofNat k)]) 0) :=
    mexpand_id hmc
  rw [evalF_app_eq (7 * k + 13 + 1 + 1) [cdBase] 0
    (.list [.symbol "countdown", .integer (Int.ofNat k)])
    (.listIteratorSeq [.symbol "countdown", .integer (Int.ofNat k)] 0)
    [.symbol "countdown", .integer (Int.ofNat k)] [cdBase]
    (.list [.symbol "countdown", .integer (Int.ofNat k)]) 0
    rfl rfl hsl1 rfl hmx rfl]
  have hsl2 : intoSliceF (7 * k + 13 + 1)
      (.listIteratorSeq [.symbol "countdown", .integer (Int.ofNat k)] 0) =
      some (.ok [.symbol "countdown", .integer (Int.ofNat k)]) :=
    intoSliceF_iterator _ (by simp) (by simp only [List.length_cons, List.length_nil]; omega)
  rw [evalDispatchF_eq (7 * k + 13 + 1) [cdBase] 0
    (.list [.symbol "countdown", .integer (Int.ofNat k)]) 0
    (.listIteratorSeq [.symbol "countdown", .integer (Int.ofNat k)] 0)
    (.symbol "countdown") [.integer (Int.ofNat k)] rfl hsl2]
  show evalApplyF (7 * k + 13 + 1) [cdBase] 0
    (.list [.symbol "countdown", .integer (Int.ofNat k)]) 0 = _
  have hargs : evalAstF (7 * k + 13) [cdBase] 0
      (.list [.symbol "countdown", .integer (Int.ofNat k)]) =
      some (.ok [cdBase] (.list [.func 0 (some cdBody) [.symbol "n"] 0 false,
        .integer (Int.ofNat k)]) 1) := by
    obtain ⟨g, hg⟩ : ∃ g, 7 * k + 13 = g + 13 := ⟨7 * k, by ring⟩
    rw [hg]
    simp [evalF, evalAstF, evalListF, envGetF, frameGet, MalType.isApplicableI,
      cdBase, cdFun, List.find?, List.get?]
  have hsl3 : intoSliceF (7 * k + 13)
      (.listIteratorSeq [.func 0 (some cdBody) [.symbol "n"] 0 false,
        .integer (Int.ofNat k)] 0) =
      some (.ok [.func 0 (some cdBody) [.symbol "n"] 0 false,
        .integer (Int.ofNat k)]) :=
    intoSliceF_iterator _ (by simp) (by simp only [List.length_cons, List.length_nil]; omega)
  have hde : deriveEnvS [cdBase] (some 0) [.symbol "n"] [.integer (Int.ofNat k)] =
      .ok ([cdBase, ⟨some 0, [("n", .integer (Int.ofNat k))]⟩], 1) := by
    simp [deriveEnvS, deriveFrame, symbolNames, hasVarargs, positionals]
  simp only [evalApplyF, hargs, MalType.isApplicableI, seqOf, if_true, hsl3, hde,
    hbody]
  rfl

theorem claim_C9_witness : (1000000 : Nat) < 2 ^ 63 ∧
    ∃ σ2, evalF (7 * 1000000 + 16) [cdBase] 0
      (.list [.symbol "countdown", .integer (Int.ofNat 1000000)]) =
      some (.ok σ2 (.integer 0) 2) :=
  ⟨by decide, claim_C9 1000000 (by decide)⟩

end Glimpse
